import Mathlib

/-!
# Verification of the lastore-daemon job manager

A shallow embedding of `src/lastore-daemon/job_manager.go` (queues, scheduling,
dispatch) together with the parts of the job model (`job.go` is not among the
sources) reconstructed from the specification.  Go pointer mutation is rendered
as explicit state passing; jobs are identified by their `Id` field, and updates
through a pointer become updates of the unique job carrying that id (theorems
that rely on this carry a distinct-ids hypothesis).  Go's `sort.Sort` is
modelled by the insertion-sort algorithm the Go standard library applies to
slices of fewer than twelve elements, with the exact comparator of
`JobList.Less`; for larger slices Go switches to quicksort, which agrees with
insertion sort on sortedness whenever the comparator is a strict weak order.
Map iteration order, which Go randomizes, is passed in explicitly wherever the
code ranges over `m.queues`.
-/

namespace Lastore

/-- Job status values (`system.ReadyStatus` etc. in the Go sources). -/
inductive JobStatus where
  | ready
  | running
  | failed
  | paused
  | succeed
  | endS
deriving DecidableEq, Repr

/-- Job type values (`system.DownloadJobType` etc.). -/
inductive JobType where
  | updateSource
  | update
  | install
  | download
  | remove
  | distUpgrade
deriving DecidableEq, Repr

/-- The three queue names created by `NewJobManager`: `"download"`,
`"system change"` and `"lock"`. -/
inductive QueueName where
  | downloadQ
  | systemChangeQ
  | lockQ
deriving DecidableEq, Repr

/-- The scalar fields of a Job.  `ty` stands for the Go field `Type`
(a Lean keyword).  The purely informational fields `Progress`,
`Description` and `Speed` play no role in any operation of
`job_manager.go` and are not modelled. -/
structure JobCore where
  Id : Nat
  Name : String
  ty : JobType
  Packages : List String
  Status : JobStatus
  Cancelable : Bool
  CreateTime : Nat
  retry : Nat
  queueName : QueueName
deriving DecidableEq, Repr

/-- A Job: its scalar core plus the optional successor pointer `next`. -/
inductive Job where
  | mk (core : JobCore) (next : Option Job)

def Job.core : Job → JobCore
  | .mk c _ => c

def Job.next : Job → Option Job
  | .mk _ n => n

def Job.Id (j : Job) : Nat := j.core.Id
def Job.Name (j : Job) : String := j.core.Name
def Job.ty (j : Job) : JobType := j.core.ty
def Job.Packages (j : Job) : List String := j.core.Packages
def Job.Status (j : Job) : JobStatus := j.core.Status
def Job.Cancelable (j : Job) : Bool := j.core.Cancelable
def Job.CreateTime (j : Job) : Nat := j.core.CreateTime
def Job.retry (j : Job) : Nat := j.core.retry
def Job.queueName (j : Job) : QueueName := j.core.queueName

def Job.setStatus (j : Job) (s : JobStatus) : Job :=
  .mk { j.core with Status := s } j.next

def Job.setRetry (j : Job) (r : Nat) : Job :=
  .mk { j.core with retry := r } j.next

def Job.setNext (j : Job) (n : Option Job) : Job :=
  .mk j.core n

def Job.setId (j : Job) (i : Nat) : Job :=
  .mk { j.core with Id := i } j.next

/-- `strings.Join(packages, "")`: the package-list fingerprint used by both
the de-duplication scan (`guest`) and queue admission (`JobQueue.Add`). -/
def fingerprintOf (pkgs : List String) : String := String.join pkgs

def Job.fingerprint (j : Job) : String := fingerprintOf j.Packages

/-- `JobList.Less` (job_manager.go line 282): if the left job is an
UpdateSource job the comparison is true outright; otherwise compare
CreateTime. -/
def jobLess (a b : Job) : Bool :=
  if a.ty = JobType.updateSource then true
  else decide (a.CreateTime < b.CreateTime)

/-- One bubbling step of Go's `insertionSort`, expressed on the reversed
already-sorted prefix: the new element `x` moves left past every predecessor
`y` with `Less(x, y)` and stops at the first predecessor where the comparison
fails. -/
def insRev (x : Job) : List Job → List Job
  | [] => [x]
  | y :: ys => if jobLess x y then y :: insRev x ys else x :: y :: ys

/-- `sort.Sort` on a `JobList`, modelled as the Go standard library's
`insertionSort` (exact for slices shorter than twelve elements). -/
def sortJobs (l : List Job) : List Job :=
  (l.foldl (fun acc x => insRev x acc) []).reverse

/-- Error values surfaced by the job manager (`system.NotFoundError`,
`system.NotSupportError`, the `"exists job"` admission error of
`JobQueue.Add`, and a backend error propagated from `Abort`). -/
inductive Err where
  | notFound
  | notSupport
  | conflict
  | abortFailed
deriving DecidableEq, Repr

/-- Calls made on the package backend, recorded as an event trace. -/
inductive Event where
  | abort (id : Nat)
  | start (id : Nat)
deriving DecidableEq, Repr

/-- The package backend (`system.System`), reduced to the success/failure
behaviour of the two calls the embedded code makes. -/
structure Backend where
  abortOk : Nat → Bool
  startOk : Nat → Bool

/-- `JobQueue`: name, capacity, and the ordered job list. -/
structure JobQueue where
  Name : QueueName
  Cap : Nat
  Jobs : List Job

namespace JobQueue

/-- `JobQueue.Find`. -/
def Find (q : JobQueue) (id : Nat) : Option Job :=
  q.Jobs.find? (fun j => j.Id == id)

/-- `JobQueue.RunningJobs`. -/
def RunningJobs (q : JobQueue) : List Job :=
  q.Jobs.filter (fun j => j.Status == JobStatus.running)

/-- `JobQueue.Add`: reject when a job with the same Type and package
fingerprint is present, otherwise append and re-sort. -/
def Add (q : JobQueue) (j : Job) : Except Err JobQueue :=
  if q.Jobs.any (fun job => job.ty == j.ty && job.fingerprint == j.fingerprint) then
    .error .conflict
  else
    .ok { q with Jobs := sortJobs (q.Jobs ++ [j]) }

/-- `JobQueue.Remove`: drop the first job with the given id (`DestroyJob`,
whose code is not among the sources, only releases backend resources and does
not touch the queue), then re-sort. -/
def Remove (q : JobQueue) (id : Nat) : Except Err JobQueue :=
  if q.Jobs.any (fun j => j.Id == id) then
    .ok { q with Jobs := sortJobs (q.Jobs.eraseP (fun j => j.Id == id)) }
  else
    .error .notFound

/-- `JobList.Swap 0 p` as used by `Raise`. -/
def swapHead (l : List Job) (p : Nat) : List Job :=
  match l.get? 0, l.get? p with
  | some a, some b => (l.set 0 b).set p a
  | _, _ => l

/-- The index-search loop of `Raise` (job_manager.go lines 384-390): first
index whose job carries the id, or none. -/
def findIndexOf (id : Nat) : List Job → Option Nat
  | [] => none
  | j :: js => if j.Id == id then some 0 else (findIndexOf id js).map (fun i => i + 1)

/-- `JobQueue.Raise`: swap the job with the given id into position 0. -/
def Raise (q : JobQueue) (id : Nat) : Except Err JobQueue :=
  match findIndexOf id q.Jobs with
  | none => .error .notFound
  | some p => .ok { q with Jobs := swapHead q.Jobs p }

/-- The retry side effect of `PendingJobs` on one job: a Failed job with
positive retry budget is decremented. -/
def decRetry (j : Job) : Job :=
  if j.Status = JobStatus.failed ∧ 0 < j.retry then j.setRetry (j.retry - 1) else j

/-- The candidate list built by the single pass of `PendingJobs`, in queue
order: Ready jobs, plus Failed jobs whose retry was positive (appended after
their in-place decrement, so the candidate value carries the decremented
counter). -/
def pendingCandidates : List Job → List Job
  | [] => []
  | j :: js =>
    match j.Status with
    | JobStatus.failed =>
        if 0 < j.retry then j.setRetry (j.retry - 1) :: pendingCandidates js
        else pendingCandidates js
    | JobStatus.ready => j :: pendingCandidates js
    | _ => pendingCandidates js

/-- Number of Running jobs in a list. -/
def runningCount (l : List Job) : Nat :=
  l.countP (fun j => j.Status == JobStatus.running)

/-- `JobQueue.PendingJobs`: returns the updated queue (every Failed job with
positive retry decremented in place) together with the first
`min(Cap − running, #candidates)` candidates in queue order, sorted by the
`JobList` comparator before being returned.  `Cap − running` is computed on Go
ints and consumed by a loop that stops at zero, so a negative space yields an
empty selection. -/
def PendingJobs (q : JobQueue) : JobQueue × List Job :=
  let cand := pendingCandidates q.Jobs
  let space := ((q.Cap : Int) - (runningCount q.Jobs : Int)).toNat
  let n := min space cand.length
  ({ q with Jobs := q.Jobs.map decRetry }, sortJobs (cand.take n))

end JobQueue

/-- The queue name constants `DownloadQueue`/`SystemChangeQueue`/`LockQueue`
and the caps `DownloadQueueCap = 3`, `SystemChangeQueueCap = 1`, lock cap 1. -/
def DownloadQueueCap : Nat := 3
def SystemChangeQueueCap : Nat := 1
def LockQueueCap : Nat := 1

/-- `JobManager`: the map from queue name to queue, rendered as the three
queues `NewJobManager` creates, plus the coalescing `changed` flag and the
fresh counter backing id generation (`genJobId` in the missing `job.go`) and
creation timestamps. -/
structure JobManager where
  download : JobQueue
  systemChange : JobQueue
  lock : JobQueue
  changed : Bool
  fresh : Nat

namespace JobManager

def getQueue (m : JobManager) : QueueName → JobQueue
  | .downloadQ => m.download
  | .systemChangeQ => m.systemChange
  | .lockQ => m.lock

def setQueue (m : JobManager) : QueueName → JobQueue → JobManager
  | .downloadQ, q => { m with download := q }
  | .systemChangeQ, q => { m with systemChange := q }
  | .lockQ, q => { m with lock := q }

/-- All top-level jobs, concatenated in the fixed iteration order
download, system change, lock (Go randomizes this order; with distinct job
ids the order is observationally irrelevant). -/
def allJobs (m : JobManager) : List Job :=
  m.download.Jobs ++ m.systemChange.Jobs ++ m.lock.Jobs

/-- `JobManager.List`: collect every queue's jobs and sort. -/
def List' (m : JobManager) : List Job :=
  sortJobs (allJobs m)

/-- `JobManager.find`: scan the queues for a job with the given id. -/
def find (m : JobManager) (id : Nat) : Option Job :=
  (allJobs m).find? (fun j => j.Id == id)

/-- Mutation through a Go pointer obtained from `find`: rewrite the job
carrying the given id, wherever it sits.  Under the distinct-ids hypotheses
used by the theorems this coincides with the in-place mutation of the single
pointed-to object. -/
def updateJobById (m : JobManager) (id : Nat) (f : Job → Job) : JobManager :=
  let upd := fun (q : JobQueue) =>
    { q with Jobs := q.Jobs.map (fun j => if j.Id == id then f j else j) }
  { m with download := upd m.download,
           systemChange := upd m.systemChange,
           lock := upd m.lock }

/-- The scan of `JobManager.guest`: first job (in `List()` order) whose own
Type and fingerprint match, or whose `next` matches — in the latter case the
predecessor's id is returned, never the successor itself. -/
def guestScan (ty : JobType) (fp : String) : List Job → Option Nat
  | [] => none
  | j :: js =>
    if j.ty = ty ∧ j.fingerprint = fp then some j.Id
    else
      match j.next with
      | none => guestScan ty fp js
      | some nx =>
        if nx.ty = ty ∧ nx.fingerprint = fp then some j.Id
        else guestScan ty fp js

/-- `JobManager.guest`. -/
def guest (m : JobManager) (ty : JobType) (pkgs : List String) : Option Nat :=
  guestScan ty (fingerprintOf pkgs) (List' m)

/-- `JobManager.addJob` (the `j == nil` guard has no counterpart for a Lean
value): admit the job to the queue named by its `queueName`, setting the
`changed` flag on success. -/
def addJob (m : JobManager) (j : Job) : JobManager × Option Err :=
  match (m.getQueue j.queueName).Add j with
  | .error e => (m, some e)
  | .ok q' => ({ m.setQueue j.queueName q' with changed := true }, none)

/-- `JobManager.removeJob`. -/
def removeJob (m : JobManager) (id : Nat) (qn : QueueName) : JobManager × Option Err :=
  match (m.getQueue qn).Remove id with
  | .error e => (m, some e)
  | .ok q' => ({ m.setQueue qn q' with changed := true }, none)

end JobManager

/-- Modelled from the spec (§3, state machine): the transition table over job
status.  `job.go`, which holds this function, is not among the sources. -/
def ValidTransitionJobState : JobStatus → JobStatus → Bool
  | .ready, .running => true
  | .ready, .paused => true
  | .ready, .endS => true
  | .running, .succeed => true
  | .running, .failed => true
  | .running, .paused => true
  | .running, .endS => true
  | .failed, .ready => true
  | .failed, .endS => true
  | .paused, .ready => true
  | .paused, .endS => true
  | .succeed, .endS => true
  | _, _ => false

/-- Modelled from the spec (§4.2): `TransitionJobState` — the sole legal
mutator of `Job.Status`.  It rejects table-illegal transitions with
NotSupport, applies the on-entry effect (clear `next` when the target is End
and the source status is not Succeed, i.e. chaining is no longer meaningful;
the progress reset on Ready concerns fields that are not modelled), and
updates the status.  `job.go` is not among the sources. -/
def TransitionJobState (j : Job) (tgt : JobStatus) : Except Err Job :=
  if ValidTransitionJobState j.Status tgt then
    if tgt = JobStatus.endS ∧ j.Status ≠ JobStatus.succeed then
      .ok ((j.setNext none).setStatus JobStatus.endS)
    else
      .ok (j.setStatus tgt)
  else
    .error .notSupport

/-- Modelled from the spec (§3, §4.3): `NewJob` (in the missing `job.go`)
creates a Ready job with a fresh id, the default retry budget, and the
current instant as CreateTime; the manager's `fresh` counter serves as both
id source and monotonic clock. -/
def defaultRetry : Nat := 3

def NewJob (id : Nat) (name : String) (pkgs : List String) (ty : JobType)
    (qn : QueueName) (now : Nat) : Job :=
  .mk { Id := id, Name := name, ty := ty, Packages := pkgs,
        Status := JobStatus.ready, Cancelable := false,
        CreateTime := now, retry := defaultRetry, queueName := qn } none

namespace JobManager

/-- The queue lookup and `Raise` call at the end of `MarkStart`
(job_manager.go lines 127-131). -/
def raiseIn (m : JobManager) (qn : QueueName) (id : Nat) : JobManager × Option Err :=
  match (m.getQueue qn).Raise id with
  | .error e => (m, some e)
  | .ok q' => (m.setQueue qn q', none)

/-- `JobManager.MarkStart`: transition the job to Ready when necessary, then
raise it to the head of the queue named by its `queueName` field. -/
def MarkStart (m : JobManager) (id : Nat) : JobManager × Option Err :=
  match m.find id with
  | none => (m, some .notFound)
  | some job =>
    if job.Status = JobStatus.ready then raiseIn m job.queueName id
    else
      match TransitionJobState job JobStatus.ready with
      | .error e => (m, some e)
      | .ok j' => raiseIn (m.updateJobById id (fun _ => j')) j'.queueName id

/-- `JobManager.PauseJob`: NotSupport when the transition to Paused is
table-invalid; otherwise the backend's `Abort` is invoked unconditionally
(also for Ready jobs), its failure is propagated with the job untouched, and
on success the job transitions to Paused. -/
def PauseJob (bk : Backend) (m : JobManager) (id : Nat)
    : JobManager × Option Err × List Event :=
  match m.find id with
  | none => (m, some .notFound, [])
  | some job =>
    if ValidTransitionJobState job.Status JobStatus.paused then
      if bk.abortOk id then
        match TransitionJobState job JobStatus.paused with
        | .error e => (m, some e, [.abort id])
        | .ok j' => (m.updateJobById id (fun _ => j'), none, [.abort id])
      else (m, some .abortFailed, [.abort id])
    else (m, some .notSupport, [])

/-- The End-transition tail of `CleanJob` (job_manager.go lines 146-149,
after the optional pause): clear `next` whenever End is reachable from the
current status, then route the End transition through
`TransitionJobState`. -/
def cleanTail (m1 : JobManager) (id : Nat) (evs : List Event)
    : JobManager × Option Err × List Event :=
  match m1.find id with
  | none => (m1, some .notFound, evs)
  | some job1 =>
    let m2 :=
      if ValidTransitionJobState job1.Status JobStatus.endS then
        m1.updateJobById id (fun j => j.setNext none)
      else m1
    match m2.find id with
    | none => (m2, some .notFound, evs)
    | some job2 =>
      match TransitionJobState job2 JobStatus.endS with
      | .error e => (m2, some e, evs)
      | .ok j' => (m2.updateJobById id (fun _ => j'), none, evs)

/-- `JobManager.CleanJob`: pause a running cancelable job first (result
ignored), then run the End-transition tail on the resulting state. -/
def CleanJob (bk : Backend) (m : JobManager) (id : Nat)
    : JobManager × Option Err × List Event :=
  match m.find id with
  | none => (m, some .notFound, [])
  | some job =>
    if job.Status = JobStatus.running ∧ job.Cancelable then
      let r := PauseJob bk m id
      cleanTail r.1 id r.2.2
    else
      cleanTail m id []

end JobManager

/-- The construction switch of `CreateJob` (job_manager.go lines 90-107):
the job built for each request type, together with the advanced fresh
counter.  Go's `default: return NotSupport` arm concerns job-type strings
outside the six constants and has no counterpart for the enum.  An Install
request builds the Download→Install chain and overwrites the primary's id
with the successor's; an UpdateSource request stores `nil` packages. -/
def buildJob (f : Nat) (jobName : String) (ty : JobType) (pkgs : List String)
    : Job × Nat :=
  match ty with
  | JobType.download =>
    (NewJob f jobName pkgs JobType.download QueueName.downloadQ f, f + 1)
  | JobType.install =>
    let prim := NewJob f jobName pkgs JobType.download QueueName.downloadQ f
    let succ := NewJob (f + 1) jobName pkgs JobType.install
      QueueName.systemChangeQ (f + 1)
    (((prim.setNext (some succ)).setId succ.Id), f + 2)
  | JobType.remove =>
    (NewJob f jobName pkgs JobType.remove QueueName.systemChangeQ f, f + 1)
  | JobType.updateSource =>
    (NewJob f jobName [] JobType.updateSource QueueName.lockQ f, f + 1)
  | JobType.distUpgrade =>
    (NewJob f jobName pkgs JobType.distUpgrade QueueName.lockQ f, f + 1)
  | JobType.update =>
    (NewJob f jobName pkgs JobType.update QueueName.systemChangeQ f, f + 1)

namespace JobManager

/-- `JobManager.CreateJob`: de-duplicate through `guest`/`find`, otherwise
construct the job, admit it with the admission error discarded, and
`MarkStart` it. -/
def CreateJob (m : JobManager) (jobName : String) (ty : JobType)
    (pkgs : List String) : JobManager × Option Job × Option Err :=
  match (m.guest ty pkgs).bind m.find with
  | some job =>
    let (m', e) := m.MarkStart job.Id
    (m', some job, e)
  | none =>
    let job := (buildJob m.fresh jobName ty pkgs).1
    let m1 := { m with fresh := (buildJob m.fresh jobName ty pkgs).2 }
    let m2 := (m1.addJob job).1
    let (m3, e) := m2.MarkStart job.Id
    (m3, some job, e)

end JobManager

/-- Modelled from the spec (§4.3 step 2): `StartSystemJob` (in the missing
`job.go`) instructs the backend to start the job; the job transitions to
Running on success, and to Failed (through Running, the only table-legal
path) on immediate failure.  Illegal transitions leave the job untouched, as
`TransitionJobState` prescribes. -/
def startTransition (m : JobManager) (id : Nat) (tgt : JobStatus) : JobManager :=
  m.updateJobById id (fun j =>
    match TransitionJobState j tgt with
    | .ok j' => j'
    | .error _ => j)

def StartSystemJob (bk : Backend) (m : JobManager) (id : Nat)
    : JobManager × List Event :=
  if bk.startOk id then
    (startTransition m id JobStatus.running, [.start id])
  else
    (startTransition (startTransition m id JobStatus.running) id JobStatus.failed,
     [.start id])

namespace JobManager

/-- Reap phase of `dispatch` (step 1): collect every job with End status
across the queues (in the given iteration order), then for each one remove
it from its queue and — when it has a successor — admit the successor and
MarkStart it. -/
def deadJobs (m : JobManager) (ord : List QueueName) : List Job :=
  (ord.map (fun qn => (m.getQueue qn).Jobs.filter
    (fun j => j.Status == JobStatus.endS))).flatten

def reapOne (m : JobManager) (j : Job) : JobManager :=
  let m1 := (m.removeJob j.Id j.queueName).1
  match j.next with
  | none => m1
  | some s =>
    let m2 := (m1.addJob s).1
    (m2.MarkStart s.Id).1

def reapPhase (m : JobManager) (ord : List QueueName) : JobManager :=
  (deadJobs m ord).foldl reapOne m

/-- Scheduling of one queue in `dispatch` (step 2): skip a non-lock queue
while the lock queue has a running job; otherwise take the queue's
PendingJobs and, for each selected job, MarkStart it first when it is Failed,
then start it on the backend. -/
def startSelected (bk : Backend) (m : JobManager) (j : Job) : JobManager :=
  let m1 := if j.Status = JobStatus.failed then (m.MarkStart j.Id).1 else m
  (StartSystemJob bk m1 j.Id).1

def processQueue (bk : Backend) (m : JobManager) (qn : QueueName) : JobManager :=
  if qn ≠ QueueName.lockQ ∧ m.lock.RunningJobs.length ≠ 0 then m
  else
    let (q', sel) := (m.getQueue qn).PendingJobs
    let m1 := m.setQueue qn q'
    sel.foldl (startSelected bk) m1

def schedulePhase (bk : Backend) (m : JobManager) (ord : List QueueName) : JobManager :=
  ord.foldl (processQueue bk) m

/-- Notification phase of `dispatch` (step 3): the coalesced `notify` fires
and the flag clears. -/
def notifyPhase (m : JobManager) : JobManager :=
  if m.changed then { m with changed := false } else m

/-- One `dispatch` tick: reap, schedule, notify.  The two passes over
`m.queues` receive their (Go-randomized) iteration orders explicitly. -/
def dispatch (bk : Backend) (m : JobManager) (ord1 ord2 : List QueueName) : JobManager :=
  notifyPhase (schedulePhase bk (reapPhase m ord1) ord2)

end JobManager

/-- Iterated candidate selection: `k` applications of the queue-state update
of `PendingJobs` (the retry-budget claims quantify over repeated ticks in
which the job is never restarted in between). -/
def iterPending : Nat → JobQueue → JobQueue
  | 0, q => q
  | k + 1, q => iterPending k (q.PendingJobs).1

/-- A job matches the `guest` scan for `(ty, fp)` when its own type and
fingerprint match, or those of its successor do. -/
def guestMatch (ty : JobType) (fp : String) (j : Job) : Prop :=
  (j.ty = ty ∧ j.fingerprint = fp) ∨
    (∃ nx, j.next = some nx ∧ nx.ty = ty ∧ nx.fingerprint = fp)

instance (ty : JobType) (fp : String) (j : Job) : Decidable (guestMatch ty fp j) := by
  unfold guestMatch
  cases hn : j.next with
  | none => simp [hn]; infer_instance
  | some nx => simp [hn]; infer_instance

/-- Top-level job ids are pairwise distinct: the hypothesis under which the
value-level rendering of Go pointer mutation is exact. -/
def idsNodup (m : JobManager) : Prop :=
  ((JobManager.allJobs m).map Job.Id).Nodup

/-- Every job sits in the queue its `queueName` field names. -/
def queueNameOK (m : JobManager) : Prop :=
  ∀ qn : QueueName, ∀ j ∈ (m.getQueue qn).Jobs, j.queueName = qn

/-- Number of jobs in the scan list that the `guest` de-duplication would
match. -/
def matchCount (ty : JobType) (fp : String) (l : List Job) : Nat :=
  l.countP (fun j => decide (guestMatch ty fp j))

-- ### Concrete fixtures used by counterexamples and witnesses

def mkJob (id : Nat) (ty : JobType) (pkgs : List String) (st : JobStatus)
    (canc : Bool) (ct : Nat) (r : Nat) (qn : QueueName) : Job :=
  .mk { Id := id, Name := "j", ty := ty, Packages := pkgs, Status := st,
        Cancelable := canc, CreateTime := ct, retry := r, queueName := qn } none

def emptyMgr : JobManager :=
  { download := { Name := QueueName.downloadQ, Cap := DownloadQueueCap, Jobs := [] },
    systemChange := { Name := QueueName.systemChangeQ, Cap := SystemChangeQueueCap, Jobs := [] },
    lock := { Name := QueueName.lockQ, Cap := LockQueueCap, Jobs := [] },
    changed := false, fresh := 0 }

def bkTrue : Backend := { abortOk := fun _ => true, startOk := fun _ => true }

/-- An UpdateSource job with a late CreateTime and a plain download job with
an early one: the pair on which the `JobList.Less` comparator misbehaves. -/
def jUS : Job := mkJob 1 JobType.updateSource [] JobStatus.ready false 5 3 QueueName.lockQ

def jDL : Job := mkJob 2 JobType.download ["a"] JobStatus.ready false 1 3 QueueName.lockQ

def q9fix : JobQueue := { Name := QueueName.lockQ, Cap := 1, Jobs := [jUS] }

/-- A queue observed just after a `Raise`: the later job (id 2, CreateTime 2)
sits at the head, in front of the earlier job (id 1, CreateTime 1). -/
def jB2 : Job := mkJob 2 JobType.download ["b"] JobStatus.ready false 2 3 QueueName.downloadQ

def jA1 : Job := mkJob 1 JobType.download ["a"] JobStatus.ready false 1 3 QueueName.downloadQ

def q2fix : JobQueue := { Name := QueueName.downloadQ, Cap := 1, Jobs := [jB2, jA1] }

/-- A manager whose download queue already holds a Download job for
package `"foo"` with no successor: the admission-conflict scenario for an
Install request on the same package. -/
def st10 : JobManager :=
  { emptyMgr with
      download := { Name := QueueName.downloadQ, Cap := DownloadQueueCap,
                    Jobs := [mkJob 1 JobType.download ["foo"] JobStatus.ready false 1 3
                               QueueName.downloadQ] },
      fresh := 10 }

/-- The chain that `CreateJob` builds for `Install ["foo"]` at fresh counter
10: primary Download job whose id is overwritten with the successor's id 11. -/
def c10job : Job :=
  ((NewJob 10 "n" ["foo"] JobType.download QueueName.downloadQ 10).setNext
    (some (NewJob 11 "n" ["foo"] JobType.install QueueName.systemChangeQ 11))).setId 11

/-- A manager with one Ready download job (id 1). -/
def st7 : JobManager :=
  { emptyMgr with
      download := { Name := QueueName.downloadQ, Cap := DownloadQueueCap,
                    Jobs := [mkJob 1 JobType.download ["x"] JobStatus.ready false 1 3
                               QueueName.downloadQ] } }

/-- A manager with one Running, non-Cancelable download job (id 1). -/
def st7b : JobManager :=
  { emptyMgr with
      download := { Name := QueueName.downloadQ, Cap := DownloadQueueCap,
                    Jobs := [mkJob 1 JobType.download ["x"] JobStatus.running false 1 3
                               QueueName.downloadQ] } }

/-- A finished (End) download job with an Install successor, and the manager
holding it: the successor-promotion scenario. -/
def sJob : Job := mkJob 5 JobType.install ["p"] JobStatus.ready false 3 3 QueueName.systemChangeQ

def pJob : Job :=
  (mkJob 5 JobType.download ["p"] JobStatus.endS false 1 3 QueueName.downloadQ).setNext (some sJob)

def st5fix : JobManager :=
  { emptyMgr with
      download := { Name := QueueName.downloadQ, Cap := DownloadQueueCap, Jobs := [pJob] } }

/-- A manager with a Running DistUpgrade job in the lock queue and a Ready
download job waiting: the lock-exclusion scenario. -/
def st1fix : JobManager :=
  { emptyMgr with
      download := { Name := QueueName.downloadQ, Cap := DownloadQueueCap,
                    Jobs := [mkJob 1 JobType.download ["x"] JobStatus.ready false 1 3
                               QueueName.downloadQ] },
      lock := { Name := QueueName.lockQ, Cap := LockQueueCap,
                Jobs := [mkJob 2 JobType.distUpgrade [] JobStatus.running false 0 3
                           QueueName.lockQ] } }

/-- A queue holding one Failed download job (id 1) with retry budget 2. -/
def q3fix : JobQueue :=
  { Name := QueueName.downloadQ, Cap := DownloadQueueCap,
    Jobs := [mkJob 1 JobType.download ["a"] JobStatus.failed false 1 2 QueueName.downloadQ] }

/-- `k`-fold application of the retry decrement a job undergoes across `k`
candidate selections. -/
def decRetryIter : Nat → Job → Job
  | 0, j => j
  | k + 1, j => decRetryIter k (JobQueue.decRetry j)

/-- Running-job count of one of the manager's queues. -/
def mgrRunning (m : JobManager) (qn : QueueName) : Nat :=
  JobQueue.runningCount (m.getQueue qn).Jobs

/-- The effect of a successful `MarkStart id` on the job values: the job
with the given id is set Ready, everything else untouched. -/
def statusToReady (id : Nat) (j : Job) : Job :=
  if j.Id == id then j.setStatus JobStatus.ready else j

/-- A ready job (id 9) next to a Failed job (id 1) with retry budget 1:
the retry-exhaustion witness scenario. -/
def jR9 : Job := mkJob 9 JobType.download ["r"] JobStatus.ready false 4 3 QueueName.downloadQ

def jF1 : Job := mkJob 1 JobType.download ["f"] JobStatus.failed false 1 1 QueueName.downloadQ

def qW : JobQueue :=
  { Name := QueueName.downloadQ, Cap := DownloadQueueCap, Jobs := [jR9, jF1] }

/-- The id sequence of one of the manager's queues. -/
def idsOf (m : JobManager) (qn : QueueName) : List Nat :=
  (m.getQueue qn).Jobs.map Job.Id

/-- Invariant carried across the scheduling phase while the lock queue is
busy: every non-lock queue is untouched, the lock queue's id sequence is
preserved up to permutation, and some lock job is still Running. -/
def schedInv (m cur : JobManager) : Prop :=
  (∀ qn, qn ≠ QueueName.lockQ → (cur.getQueue qn).Jobs = (m.getQueue qn).Jobs) ∧
  ((cur.getQueue QueueName.lockQ).Jobs.map Job.Id).Perm
    ((m.getQueue QueueName.lockQ).Jobs.map Job.Id) ∧
  (∃ R ∈ (cur.getQueue QueueName.lockQ).Jobs, R.Status = JobStatus.running)

/-- Invariant carried across the reap phase up to the reap of the
predecessor `p` with successor `s`: `p` sits exactly once (by id) in its
queue and its id appears nowhere else, any job carrying `s`'s id is `p`
itself, and no job other than `p` would collide with `s` in `Add`'s
type-and-fingerprint admission check. -/
def reapInv (p s : Job) (mc : JobManager) : Prop :=
  (mc.getQueue p.queueName).Jobs.countP (fun j => j.Id == p.Id) = 1 ∧
  p ∈ (mc.getQueue p.queueName).Jobs ∧
  (∀ qn, qn ≠ p.queueName →
    (mc.getQueue qn).Jobs.countP (fun j => j.Id == p.Id) = 0) ∧
  (∀ x ∈ mc.allJobs, x.Id = s.Id → x = p) ∧
  (∀ x ∈ mc.allJobs, x.Id ≠ p.Id →
    ¬(x.ty = s.ty ∧ x.fingerprint = s.fingerprint))

/-- A Running, Cancelable Remove job (id 1) in the system-change queue, and
the manager holding it: the CleanJob scenario of the spec. -/
def j8 : Job := mkJob 1 JobType.remove ["x"] JobStatus.running true 1 3 QueueName.systemChangeQ

def st8 : JobManager :=
  { emptyMgr with
      systemChange := { Name := QueueName.systemChangeQ, Cap := SystemChangeQueueCap,
                        Jobs := [j8] } }

/-- A reap tick with three finished jobs: two Install chains (`r5` then
`p5`, both End in the download queue, each carrying its successor under the
shared chain id) and a next-less End job `d5` in the system-change queue. -/
def s5succ : Job :=
  mkJob 11 JobType.install ["a"] JobStatus.ready false 3 3 QueueName.systemChangeQ

def p5 : Job :=
  (mkJob 11 JobType.download ["a"] JobStatus.endS false 3 3
    QueueName.downloadQ).setNext (some s5succ)

def s5r : Job :=
  mkJob 20 JobType.install ["b"] JobStatus.ready false 5 3 QueueName.systemChangeQ

def r5 : Job :=
  (mkJob 20 JobType.download ["b"] JobStatus.endS false 4 3
    QueueName.downloadQ).setNext (some s5r)

def d5 : Job :=
  mkJob 30 JobType.update [] JobStatus.endS false 2 3 QueueName.systemChangeQ

def st5multi : JobManager :=
  { emptyMgr with
      download := { Name := QueueName.downloadQ, Cap := DownloadQueueCap,
                    Jobs := [r5, p5] },
      systemChange := { Name := QueueName.systemChangeQ,
                        Cap := SystemChangeQueueCap, Jobs := [d5] } }

/-- First call of the duplicate-Install scenario. -/
def c4r1 : JobManager × Option Job × Option Err :=
  st10.CreateJob "n" JobType.install ["foo"]

/-- Second, identical call, on the state the first call left behind. -/
def c4r2 : JobManager × Option Job × Option Err :=
  c4r1.1.CreateJob "n" JobType.install ["foo"]

-- ### Basic lemmas about the job model

@[simp] theorem Job.core_mk (c : JobCore) (n : Option Job) : (Job.mk c n).core = c := rfl

@[simp] theorem Job.next_mk (c : JobCore) (n : Option Job) : (Job.mk c n).next = n := rfl

theorem Job.eta (j : Job) : Job.mk j.core j.next = j := by cases j; rfl

@[simp] theorem Job.Id_setStatus (j : Job) (s : JobStatus) : (j.setStatus s).Id = j.Id := rfl

@[simp] theorem Job.ty_setStatus (j : Job) (s : JobStatus) : (j.setStatus s).ty = j.ty := rfl

@[simp] theorem Job.Packages_setStatus (j : Job) (s : JobStatus) :
    (j.setStatus s).Packages = j.Packages := rfl

@[simp] theorem Job.fingerprint_setStatus (j : Job) (s : JobStatus) :
    (j.setStatus s).fingerprint = j.fingerprint := rfl

@[simp] theorem Job.Status_setStatus (j : Job) (s : JobStatus) : (j.setStatus s).Status = s := rfl

@[simp] theorem Job.CreateTime_setStatus (j : Job) (s : JobStatus) :
    (j.setStatus s).CreateTime = j.CreateTime := rfl

@[simp] theorem Job.retry_setStatus (j : Job) (s : JobStatus) :
    (j.setStatus s).retry = j.retry := rfl

@[simp] theorem Job.queueName_setStatus (j : Job) (s : JobStatus) :
    (j.setStatus s).queueName = j.queueName := rfl

@[simp] theorem Job.next_setStatus (j : Job) (s : JobStatus) :
    (j.setStatus s).next = j.next := rfl

@[simp] theorem Job.Id_setRetry (j : Job) (r : Nat) : (j.setRetry r).Id = j.Id := rfl

@[simp] theorem Job.ty_setRetry (j : Job) (r : Nat) : (j.setRetry r).ty = j.ty := rfl

@[simp] theorem Job.Status_setRetry (j : Job) (r : Nat) : (j.setRetry r).Status = j.Status := rfl

@[simp] theorem Job.retry_setRetry (j : Job) (r : Nat) : (j.setRetry r).retry = r := rfl

@[simp] theorem Job.queueName_setRetry (j : Job) (r : Nat) :
    (j.setRetry r).queueName = j.queueName := rfl

@[simp] theorem Job.next_setRetry (j : Job) (r : Nat) : (j.setRetry r).next = j.next := rfl

@[simp] theorem Job.CreateTime_setRetry (j : Job) (r : Nat) :
    (j.setRetry r).CreateTime = j.CreateTime := rfl

@[simp] theorem Job.fingerprint_setRetry (j : Job) (r : Nat) :
    (j.setRetry r).fingerprint = j.fingerprint := rfl

@[simp] theorem Job.Id_setNext (j : Job) (n : Option Job) : (j.setNext n).Id = j.Id := rfl

@[simp] theorem Job.Status_setNext (j : Job) (n : Option Job) :
    (j.setNext n).Status = j.Status := rfl

@[simp] theorem Job.ty_setNext (j : Job) (n : Option Job) : (j.setNext n).ty = j.ty := rfl

@[simp] theorem Job.queueName_setNext (j : Job) (n : Option Job) :
    (j.setNext n).queueName = j.queueName := rfl

@[simp] theorem Job.next_setNext (j : Job) (n : Option Job) : (j.setNext n).next = n := rfl

@[simp] theorem Job.retry_setNext (j : Job) (n : Option Job) : (j.setNext n).retry = j.retry := rfl

theorem Job.setStatus_self (j : Job) (h : j.Status = s) : j.setStatus s = j := by
  cases j with
  | mk c n => cases h; rfl

-- ### Permutation lemmas for the embedded sort, swap and erase

theorem insRev_perm (x : Job) (l : List Job) : (insRev x l).Perm (x :: l) := by
  induction l with
  | nil => exact List.Perm.refl _
  | cons y ys ih =>
    unfold insRev
    by_cases h : jobLess x y = true
    · simp only [h, if_true]
      exact (List.Perm.cons y ih).trans (List.Perm.swap x y ys)
    · simp only [h, if_false]
      exact List.Perm.refl _

theorem foldl_insRev_perm (l acc : List Job) :
    (l.foldl (fun acc x => insRev x acc) acc).Perm (acc ++ l) := by
  induction l generalizing acc with
  | nil => simp
  | cons x xs ih =>
    simp only [List.foldl_cons]
    refine (ih (insRev x acc)).trans ?_
    refine ((insRev_perm x acc).append_right xs).trans ?_
    exact List.perm_middle.symm

theorem sortJobs_perm (l : List Job) : (sortJobs l).Perm l := by
  unfold sortJobs
  refine (List.reverse_perm _).trans ?_
  simpa using foldl_insRev_perm l []

theorem mem_sortJobs {j : Job} {l : List Job} : j ∈ sortJobs l ↔ j ∈ l :=
  (sortJobs_perm l).mem_iff

theorem length_sortJobs (l : List Job) : (sortJobs l).length = l.length :=
  (sortJobs_perm l).length_eq

/-- Setting position `p` (which holds `b`) to `a` and consing `b` is a
permutation of consing `a`: the core of the `Swap(0, p)` argument. -/
theorem set_cons_perm {l : List Job} {p : Nat} {b : Job} (a : Job)
    (h : l.get? p = some b) : (b :: l.set p a).Perm (a :: l) := by
  induction l generalizing p with
  | nil => simp at h
  | cons y ys ih =>
    cases p with
    | zero =>
      simp only [List.get?] at h
      cases h
      simpa [List.set] using List.Perm.swap a b ys
    | succ p =>
      simp only [List.get?] at h
      have hperm := ih h
      have h1 : b :: (y :: ys).set (p + 1) a = b :: y :: ys.set p a := by simp [List.set]
      rw [h1]
      refine (List.Perm.swap y b (ys.set p a)).trans ?_
      exact (List.Perm.cons y hperm).trans (List.Perm.swap a y ys)

theorem swapHead_perm (l : List Job) (p : Nat) : (JobQueue.swapHead l p).Perm l := by
  unfold JobQueue.swapHead
  cases h0 : l.get? 0 with
  | none => exact List.Perm.refl _
  | some a =>
    cases hp : l.get? p with
    | none => exact List.Perm.refl _
    | some b =>
      cases l with
      | nil => simp at h0
      | cons x xs =>
        simp only [List.get?] at h0
        cases h0
        cases p with
        | zero =>
          simp only [List.get?] at hp
          cases hp
          simp [List.set]
        | succ p =>
          simp only [List.get?] at hp
          simp only [List.set]
          exact set_cons_perm a hp

-- ### Claim C10: CreateJob ignores the queue-admission error

/-- C10.  In a state whose download queue already holds a Download job for
package `"foo"`, `CreateJob` with type Install (which the de-duplication
scan does not match, the types differing) builds the Download→Install chain,
`Add` rejects it with the conflict error, yet `CreateJob` discards that
error, returns the never-admitted chain job, and surfaces only the NotFound
error produced by `MarkStart` on the missing id; the job count is unchanged
and the conflict error is never returned to the caller. -/
theorem C10_createJob_discards_admission_error :
    st10.download.Add c10job = Except.error Err.conflict ∧
    (st10.CreateJob "n" JobType.install ["foo"]).2.1 = some c10job ∧
    (st10.CreateJob "n" JobType.install ["foo"]).2.2 = some Err.notFound ∧
    (st10.CreateJob "n" JobType.install ["foo"]).1.find c10job.Id = none ∧
    (st10.CreateJob "n" JobType.install ["foo"]).1.allJobs.map Job.Id =
      st10.allJobs.map Job.Id :=
  ⟨rfl, rfl, rfl, rfl, rfl⟩

-- ### Claim C6: Install chaining

/-- C6.  When no duplicate is present, `CreateJob` with type Install builds
a primary job of type Download living in the download queue whose `next` is
an Install job assigned to the system-change queue with the same package
list; the primary's public id equals the successor's id. -/
theorem C6_install_chain (m : JobManager) (name : String) (pkgs : List String)
    (hno : (m.guest JobType.install pkgs).bind m.find = none) :
    ∃ job s,
      (m.CreateJob name JobType.install pkgs).2.1 = some job ∧
      job.ty = JobType.download ∧
      job.queueName = QueueName.downloadQ ∧
      job.Packages = pkgs ∧
      job.next = some s ∧
      s.ty = JobType.install ∧
      s.queueName = QueueName.systemChangeQ ∧
      s.Packages = pkgs ∧
      job.Id = s.Id := by
  unfold JobManager.CreateJob
  rw [hno]
  exact ⟨_, _, rfl, rfl, rfl, rfl, rfl, rfl, rfl, rfl, rfl⟩

/-- Witness for C6 at a concrete input. -/
theorem C6_install_chain_witness :
    ∃ job s,
      (emptyMgr.CreateJob "n" JobType.install ["p"]).2.1 = some job ∧
      job.ty = JobType.download ∧
      job.queueName = QueueName.downloadQ ∧
      job.Packages = ["p"] ∧
      job.next = some s ∧
      s.ty = JobType.install ∧
      s.queueName = QueueName.systemChangeQ ∧
      s.Packages = ["p"] ∧
      job.Id = s.Id :=
  C6_install_chain emptyMgr "n" ["p"] rfl

-- ### Claim C2, counterexample part

/-- C2 fails as stated: in the two-job queue `q2fix` (the later job raised
to the head), the candidate set is `[jB2, jA1]`, its unique least element
under the comparator is `jA1`, yet `PendingJobs` returns `[jB2]` — the first
`min(space, #C)` candidates are taken in queue list order before sorting,
not the least elements of the candidate set. -/
theorem C2_counterexample :
    JobQueue.pendingCandidates q2fix.Jobs = [jB2, jA1] ∧
    jobLess jA1 jB2 = true ∧
    jobLess jB2 jA1 = false ∧
    (q2fix.PendingJobs).2.map Job.Id = [2] ∧
    (q2fix.PendingJobs).2.map Job.Id ≠ [jA1].map Job.Id :=
  ⟨rfl, rfl, rfl, rfl, by decide⟩

-- ### Claim C9, counterexample part

/-- C9 fails as stated: the comparator is not a valid total ordering
(`Less` holds in both directions on the pair `jUS`, `jDL`), and after an
`Add` the non-UpdateSource job `jDL` (CreateTime 1) precedes the
UpdateSource job `jUS` (CreateTime 5). -/
theorem C9_counterexample :
    jUS.ty = JobType.updateSource ∧
    jDL.ty ≠ JobType.updateSource ∧
    jobLess jUS jDL = true ∧
    jobLess jDL jUS = true ∧
    q9fix.Add jDL = Except.ok { q9fix with Jobs := [jDL, jUS] } ∧
    (q9fix.Add jDL).toOption.map (fun q => q.Jobs.map Job.ty) =
      some [JobType.download, JobType.updateSource] :=
  ⟨rfl, by decide, rfl, rfl, rfl, rfl⟩

-- ### Claim C7, counterexample part

/-- C7 fails as stated: pausing the Ready job of `st7` does invoke the
backend's `Abort` (the claim says Ready jobs are paused without it), and the
Running non-Cancelable job of `st7b` is paused whenever `Abort` succeeds
(the claim says it cannot be paused). -/
theorem C7_counterexample :
    (st7.find 1).map Job.Status = some JobStatus.ready ∧
    (JobManager.PauseJob bkTrue st7 1).2.2 = [Event.abort 1] ∧
    ((JobManager.PauseJob bkTrue st7 1).1.find 1).map Job.Status = some JobStatus.paused ∧
    (st7b.find 1).map (fun j => (j.Status, j.Cancelable)) =
      some (JobStatus.running, false) ∧
    (JobManager.PauseJob bkTrue st7b 1).2.1 = none ∧
    ((JobManager.PauseJob bkTrue st7b 1).1.find 1).map Job.Status =
      some JobStatus.paused :=
  ⟨rfl, rfl, rfl, rfl, rfl, rfl⟩

-- ### Claim C4, counterexample part

/-- C4 fails for arbitrary states: in `st10` (a download job for `"foo"`
present, so the Install chain fails admission), two successive identical
`CreateJob` calls both fail with NotFound and return chains carrying two
distinct fresh ids (11, then 13). -/
theorem C4_counterexample :
    (c4r1.2.1).map Job.Id = some 11 ∧
    (c4r2.2.1).map Job.Id = some 13 ∧
    (c4r1.2.1).map Job.Id ≠ (c4r2.2.1).map Job.Id :=
  ⟨rfl, rfl, by decide⟩

-- ### Claim C2, amended part

/-- C2, amended.  `PendingJobs` returns exactly
`min(Cap − running, #candidates)` jobs (Go-int subtraction clamped at zero
by the counting loop), and they are a permutation of the first that-many
elements of the candidate set *in queue list order* — not the least elements
of the candidate set under the global ordering. -/
theorem C2_pendingJobs_selection (q : JobQueue) :
    ((q.PendingJobs).2).length =
      min (((q.Cap : Int) - (JobQueue.runningCount q.Jobs : Int)).toNat)
        (JobQueue.pendingCandidates q.Jobs).length ∧
    ((q.PendingJobs).2).Perm
      ((JobQueue.pendingCandidates q.Jobs).take
        (min (((q.Cap : Int) - (JobQueue.runningCount q.Jobs : Int)).toNat)
          (JobQueue.pendingCandidates q.Jobs).length)) := by
  constructor
  · show (sortJobs _).length = _
    rw [length_sortJobs, List.length_take]
    omega
  · exact sortJobs_perm _

-- ### Claim C9, amended part

theorem insRev_pairwise {x : Job} {acc : List Job}
    (hx : x.ty ≠ JobType.updateSource)
    (hacc : acc.Pairwise (fun a b => b.CreateTime ≤ a.CreateTime)) :
    (insRev x acc).Pairwise (fun a b => b.CreateTime ≤ a.CreateTime) := by
  induction acc with
  | nil => simp [insRev]
  | cons y ys ih =>
    rw [List.pairwise_cons] at hacc
    obtain ⟨hy, hys⟩ := hacc
    unfold insRev
    by_cases h : jobLess x y = true
    · simp only [h, if_true]
      rw [List.pairwise_cons]
      refine ⟨?_, ih hys⟩
      intro z hz
      have hz' : z ∈ x :: ys := (insRev_perm x ys).mem_iff.mp hz
      rcases List.mem_cons.mp hz' with hzx | hzys
      · subst hzx
        have : decide (z.CreateTime < y.CreateTime) = true := by
          unfold jobLess at h
          simpa [hx] using h
        exact Nat.le_of_lt (of_decide_eq_true this)
      · exact hy z hzys
    · rw [if_neg h]
      rw [List.pairwise_cons]
      refine ⟨?_, List.pairwise_cons.mpr ⟨hy, hys⟩⟩
      intro z hz
      have hxy : ¬ x.CreateTime < y.CreateTime := by
        unfold jobLess at h
        simpa [hx] using h
      rcases List.mem_cons.mp hz with hzy | hzys
      · subst hzy
        omega
      · have := hy z hzys
        omega

theorem foldl_insRev_pairwise {l acc : List Job}
    (hl : ∀ x ∈ l, x.ty ≠ JobType.updateSource)
    (hacc : acc.Pairwise (fun a b => b.CreateTime ≤ a.CreateTime)) :
    (l.foldl (fun acc x => insRev x acc) acc).Pairwise
      (fun a b => b.CreateTime ≤ a.CreateTime) := by
  induction l generalizing acc with
  | nil => simpa using hacc
  | cons x xs ih =>
    simp only [List.foldl_cons]
    exact ih (fun z hz => hl z (List.mem_cons_of_mem x hz))
      (insRev_pairwise (hl x (List.mem_cons_self x xs)) hacc)

/-- With no UpdateSource job involved (where the comparator degenerates to
CreateTime comparison and is a strict weak order), the embedded sort yields
a list nondecreasing in CreateTime. -/
theorem sortJobs_sorted_of_noUS {l : List Job}
    (hl : ∀ x ∈ l, x.ty ≠ JobType.updateSource) :
    (sortJobs l).Pairwise (fun a b => a.CreateTime ≤ b.CreateTime) := by
  unfold sortJobs
  rw [List.pairwise_reverse]
  exact foldl_insRev_pairwise hl List.Pairwise.nil

/-- C9, amended.  The comparator is not a valid total ordering and an
UpdateSource job can end up after a non-UpdateSource one (see the
counterexample); what does hold is the CreateTime part of the claim: when no
UpdateSource job is involved, the job list is nondecreasing in CreateTime
after every Add and Remove, and `List()` returns all queues' jobs in
nondecreasing CreateTime order. -/
theorem C9_ordering_noUS (q : JobQueue) (j : Job) (id : Nat) (m : JobManager) :
    ((∀ x ∈ q.Jobs, x.ty ≠ JobType.updateSource) → j.ty ≠ JobType.updateSource →
      ∀ q', q.Add j = Except.ok q' →
        q'.Jobs.Pairwise (fun a b => a.CreateTime ≤ b.CreateTime)) ∧
    ((∀ x ∈ q.Jobs, x.ty ≠ JobType.updateSource) →
      ∀ q', q.Remove id = Except.ok q' →
        q'.Jobs.Pairwise (fun a b => a.CreateTime ≤ b.CreateTime)) ∧
    ((∀ x ∈ m.allJobs, x.ty ≠ JobType.updateSource) →
      (m.List').Pairwise (fun a b => a.CreateTime ≤ b.CreateTime)) := by
  refine ⟨?_, ?_, ?_⟩
  · intro hq hj q' hadd
    unfold JobQueue.Add at hadd
    by_cases hc : q.Jobs.any
        (fun job => job.ty == j.ty && job.fingerprint == j.fingerprint) = true
    · simp [hc] at hadd
    · simp only [hc] at hadd
      rw [if_neg (by simp [hc])] at hadd
      cases hadd
      refine sortJobs_sorted_of_noUS ?_
      intro x hx
      rcases List.mem_append.mp hx with hxl | hxj
      · exact hq x hxl
      · rw [List.mem_singleton.mp hxj]; exact hj
  · intro hq q' hrem
    unfold JobQueue.Remove at hrem
    by_cases hc : q.Jobs.any (fun j => j.Id == id) = true
    · rw [if_pos hc] at hrem
      cases hrem
      exact sortJobs_sorted_of_noUS
        (fun x hx => hq x ((List.eraseP_sublist q.Jobs).subset hx))
    · rw [if_neg hc] at hrem
      cases hrem
  · intro hm
    exact sortJobs_sorted_of_noUS hm

/-- Witness for the amended C9 at concrete inputs. -/
theorem C9_ordering_noUS_witness :
    ((∀ x ∈ qW.Jobs, x.ty ≠ JobType.updateSource) ∧
      jA1.ty ≠ JobType.updateSource) ∧
    (∀ q', qW.Add jA1 = Except.ok q' →
      q'.Jobs.Pairwise (fun a b => a.CreateTime ≤ b.CreateTime)) := by
  refine ⟨⟨?_, by decide⟩, ?_⟩
  · intro x hx
    fin_cases hx <;> decide
  · exact (C9_ordering_noUS qW jA1 0 emptyMgr).1
      (fun x hx => by fin_cases hx <;> decide) (by decide)

-- ### Claim C3: the retry budget

/-- Any job selected from the candidate pass is either a Ready member of the
list or the decremented copy of a Failed member with positive retry. -/
theorem mem_pendingCandidates {sel : Job} {l : List Job}
    (h : sel ∈ JobQueue.pendingCandidates l) :
    (sel ∈ l ∧ sel.Status = JobStatus.ready) ∨
      (∃ j₀ ∈ l, j₀.Id = sel.Id ∧ j₀.Status = JobStatus.failed ∧ 0 < j₀.retry ∧
        sel = j₀.setRetry (j₀.retry - 1)) := by
  induction l with
  | nil => simp [JobQueue.pendingCandidates] at h
  | cons j js ih =>
    unfold JobQueue.pendingCandidates at h
    cases hst : j.Status with
    | failed =>
      rw [hst] at h
      by_cases hr : 0 < j.retry
      · rw [if_pos hr] at h
        rcases List.mem_cons.mp h with hsel | htail
        · refine Or.inr ⟨j, List.mem_cons_self j js, ?_, hst, hr, hsel⟩
          rw [hsel]; simp
        · rcases ih htail with ⟨hm, hs⟩ | ⟨j₀, hm, rest⟩
          · exact Or.inl ⟨List.mem_cons_of_mem j hm, hs⟩
          · exact Or.inr ⟨j₀, List.mem_cons_of_mem j hm, rest⟩
      · rw [if_neg hr] at h
        rcases ih h with ⟨hm, hs⟩ | ⟨j₀, hm, rest⟩
        · exact Or.inl ⟨List.mem_cons_of_mem j hm, hs⟩
        · exact Or.inr ⟨j₀, List.mem_cons_of_mem j hm, rest⟩
    | ready =>
      rw [hst] at h
      rcases List.mem_cons.mp h with hsel | htail
      · exact Or.inl ⟨by rw [hsel]; exact List.mem_cons_self j js, by rw [hsel]; exact hst⟩
      · rcases ih htail with ⟨hm, hs⟩ | ⟨j₀, hm, rest⟩
        · exact Or.inl ⟨List.mem_cons_of_mem j hm, hs⟩
        · exact Or.inr ⟨j₀, List.mem_cons_of_mem j hm, rest⟩
    | running =>
      rw [hst] at h
      rcases ih h with ⟨hm, hs⟩ | ⟨j₀, hm, rest⟩
      · exact Or.inl ⟨List.mem_cons_of_mem j hm, hs⟩
      · exact Or.inr ⟨j₀, List.mem_cons_of_mem j hm, rest⟩
    | paused =>
      rw [hst] at h
      rcases ih h with ⟨hm, hs⟩ | ⟨j₀, hm, rest⟩
      · exact Or.inl ⟨List.mem_cons_of_mem j hm, hs⟩
      · exact Or.inr ⟨j₀, List.mem_cons_of_mem j hm, rest⟩
    | succeed =>
      rw [hst] at h
      rcases ih h with ⟨hm, hs⟩ | ⟨j₀, hm, rest⟩
      · exact Or.inl ⟨List.mem_cons_of_mem j hm, hs⟩
      · exact Or.inr ⟨j₀, List.mem_cons_of_mem j hm, rest⟩
    | endS =>
      rw [hst] at h
      rcases ih h with ⟨hm, hs⟩ | ⟨j₀, hm, rest⟩
      · exact Or.inl ⟨List.mem_cons_of_mem j hm, hs⟩
      · exact Or.inr ⟨j₀, List.mem_cons_of_mem j hm, rest⟩

theorem mem_of_mem_pending {sel : Job} {q : JobQueue}
    (h : sel ∈ (q.PendingJobs).2) : sel ∈ JobQueue.pendingCandidates q.Jobs := by
  have h1 : sel ∈ (JobQueue.pendingCandidates q.Jobs).take _ := mem_sortJobs.mp h
  exact List.take_subset _ _ h1

@[simp] theorem decRetryIter_Id (k : Nat) (j : Job) : (decRetryIter k j).Id = j.Id := by
  induction k generalizing j with
  | zero => rfl
  | succ k ih =>
    unfold decRetryIter
    rw [ih]
    unfold JobQueue.decRetry
    by_cases h : j.Status = JobStatus.failed ∧ 0 < j.retry <;> simp [h]

theorem decRetryIter_failed (k : Nat) (j : Job) (h : j.Status = JobStatus.failed) :
    (decRetryIter k j).Status = JobStatus.failed ∧
      (decRetryIter k j).retry = j.retry - k := by
  induction k generalizing j with
  | zero => exact ⟨h, rfl⟩
  | succ k ih =>
    unfold decRetryIter
    by_cases hr : 0 < j.retry
    · have hd : JobQueue.decRetry j = j.setRetry (j.retry - 1) := by
        unfold JobQueue.decRetry
        rw [if_pos ⟨h, hr⟩]
      rw [hd]
      obtain ⟨h1, h2⟩ := ih (j.setRetry (j.retry - 1)) (by simpa using h)
      refine ⟨h1, ?_⟩
      rw [h2]
      simp only [Job.retry_setRetry]
      omega
    · have hd : JobQueue.decRetry j = j := by
        unfold JobQueue.decRetry
        rw [if_neg (by tauto)]
      rw [hd]
      obtain ⟨h1, h2⟩ := ih j h
      refine ⟨h1, by omega⟩

theorem iterPending_jobs (k : Nat) (q : JobQueue) :
    (iterPending k q).Jobs = q.Jobs.map (decRetryIter k) ∧
      (iterPending k q).Cap = q.Cap := by
  induction k generalizing q with
  | zero => exact ⟨(List.map_id q.Jobs).symm, rfl⟩
  | succ k ih =>
    unfold iterPending
    obtain ⟨h1, h2⟩ := ih (q.PendingJobs).1
    refine ⟨?_, h2⟩
    rw [h1]
    show (q.Jobs.map JobQueue.decRetry).map _ = _
    rw [List.map_map]
    rfl

/-- C3.  Every `PendingJobs` call (i) decrements `retry` by exactly one on
every Failed job with positive retry, leaving ids, statuses and all other
retries unchanged; (ii) never selects a Failed job whose pre-state retry is
zero — every selected Failed job is the decremented copy of a member with
positive retry; (iii) therefore, once the call has been repeated
retry-budget-many times with the job still Failed, the job is not selected
any more (until an external restart changes its status). -/
theorem C3_retry_budget (q : JobQueue) :
    (∀ i : Nat,
      ((q.PendingJobs).1.Jobs.get? i).map (fun j => (j.Id, j.Status, j.retry)) =
        (q.Jobs.get? i).map (fun j => (j.Id, j.Status,
          if j.Status = JobStatus.failed ∧ 0 < j.retry then j.retry - 1 else j.retry))) ∧
    (∀ sel ∈ (q.PendingJobs).2, sel.Status = JobStatus.failed →
      ∃ j₀ ∈ q.Jobs, j₀.Id = sel.Id ∧ j₀.Status = JobStatus.failed ∧
        0 < j₀.retry ∧ sel.retry = j₀.retry - 1) ∧
    (∀ j ∈ q.Jobs, j.Status = JobStatus.failed →
      (q.Jobs.map Job.Id).Nodup →
      ∀ sel ∈ ((iterPending j.retry q).PendingJobs).2, sel.Id ≠ j.Id) := by
  refine ⟨?_, ?_, ?_⟩
  · intro i
    show ((q.Jobs.map JobQueue.decRetry).get? i).map _ = _
    rw [List.get?_map, Option.map_map]
    cases hq : q.Jobs.get? i with
    | none => rfl
    | some j =>
      by_cases h : j.Status = JobStatus.failed ∧ 0 < j.retry <;>
        simp [JobQueue.decRetry, h]
  · intro sel hsel hfail
    rcases mem_pendingCandidates (mem_of_mem_pending hsel) with ⟨_, hready⟩ | hdec
    · rw [hfail] at hready; cases hready
    · obtain ⟨j₀, hm, hid, hst, hr, heq⟩ := hdec
      exact ⟨j₀, hm, hid, hst, hr, by rw [heq]; simp⟩
  · intro j hj hfail hnodup sel hsel hid
    have hjobs := (iterPending_jobs j.retry q).1
    rcases mem_pendingCandidates (mem_of_mem_pending hsel) with ⟨hm, hready⟩ | hdec
    · rw [hjobs] at hm
      obtain ⟨j₁, hm₁, heq₁⟩ := List.mem_map.mp hm
      have hid₁ : j₁.Id = j.Id := by
        have h0 := congrArg Job.Id heq₁
        simpa [hid] using h0
      have hj₁ : j₁ = j := List.inj_on_of_nodup_map hnodup hm₁ hj hid₁
      subst hj₁
      have hst := (decRetryIter_failed j₁.retry j₁ hfail).1
      rw [heq₁] at hst
      rw [hst] at hready
      cases hready
    · obtain ⟨j₂, hm₂, hid₂, hst₂, hr₂, _⟩ := hdec
      rw [hjobs] at hm₂
      obtain ⟨j₃, hm₃, heq₃⟩ := List.mem_map.mp hm₂
      have hid₃ : j₃.Id = j.Id := by
        have h0 := congrArg Job.Id heq₃
        simp only [decRetryIter_Id] at h0
        rw [h0, hid₂, hid]
      have hj₃ : j₃ = j := List.inj_on_of_nodup_map hnodup hm₃ hj hid₃
      subst hj₃
      have hr₃ := (decRetryIter_failed j₃.retry j₃ hfail).2
      rw [heq₃] at hr₃
      omega

/-- Witness for C3 at a concrete input: in `qW` the Failed job `jF1` (retry
budget 1) is, after one candidate selection, no longer selected — the
selection contains only the Ready job `jR9`. -/
theorem C3_retry_budget_witness :
    jF1 ∈ qW.Jobs ∧ jF1.Status = JobStatus.failed ∧ (qW.Jobs.map Job.Id).Nodup ∧
    jR9 ∈ ((iterPending jF1.retry qW).PendingJobs).2 ∧ jR9.Id ≠ jF1.Id := by
  refine ⟨?_, rfl, by decide, ?_, ?_⟩
  · exact List.Mem.tail _ (List.Mem.head _)
  · exact List.Mem.head _
  · exact (C3_retry_budget qW).2.2 jF1 (List.Mem.tail _ (List.Mem.head _)) rfl
      (by decide) jR9 (List.Mem.head _)

-- ### Lemmas about find and pointer-style update

theorem find?_map_cond (l : List Job) (id : Nat) (f : Job → Job)
    (hf : ∀ j : Job, (j.Id == id) = true → ((f j).Id == id) = true) :
    (l.map (fun j => if j.Id == id then f j else j)).find? (fun j => j.Id == id)
      = (l.find? (fun j => j.Id == id)).map f := by
  induction l with
  | nil => rfl
  | cons j js ih =>
    simp only [List.map_cons, List.find?_cons]
    by_cases h : (j.Id == id) = true
    · rw [if_pos h, hf j h, h]
      rfl
    · have h' : (j.Id == id) = false := by simpa using h
      rw [if_neg h, h']
      exact ih

theorem allJobs_updateJobById (m : JobManager) (id : Nat) (f : Job → Job) :
    (m.updateJobById id f).allJobs =
      m.allJobs.map (fun j => if j.Id == id then f j else j) := by
  unfold JobManager.updateJobById JobManager.allJobs
  simp [List.map_append]

theorem find_updateJobById (m : JobManager) (id : Nat) (f : Job → Job)
    (hf : ∀ j : Job, (j.Id == id) = true → ((f j).Id == id) = true) :
    (m.updateJobById id f).find id = (m.find id).map f := by
  unfold JobManager.find
  rw [allJobs_updateJobById]
  exact find?_map_cond m.allJobs id f hf

theorem find_id_beq {m : JobManager} {id : Nat} {job : Job}
    (h : m.find id = some job) : (job.Id == id) = true := by
  unfold JobManager.find at h
  have h2 := List.find?_some h
  simpa using h2

-- ### Claim C7, amended part

/-- C7, amended.  For every job found by id: the transition to Paused being
invalid yields NotSupport with nothing else done; otherwise the backend's
`Abort` is always invoked (also for a Ready job — there is no Cancelable
check), a failing Abort leaves the state unchanged and propagates the
error, and a successful Abort is required before the status becomes
Paused. -/
theorem C7_pause (bk : Backend) (m : JobManager) (id : Nat) (job : Job)
    (hf : m.find id = some job) :
    (ValidTransitionJobState job.Status JobStatus.paused = false →
      JobManager.PauseJob bk m id = (m, some Err.notSupport, [])) ∧
    (ValidTransitionJobState job.Status JobStatus.paused = true →
      (JobManager.PauseJob bk m id).2.2 = [Event.abort id] ∧
      (bk.abortOk id = false →
        JobManager.PauseJob bk m id = (m, some Err.abortFailed, [Event.abort id])) ∧
      (bk.abortOk id = true →
        (JobManager.PauseJob bk m id).2.1 = none ∧
        ((JobManager.PauseJob bk m id).1.find id).map Job.Status =
          some JobStatus.paused)) := by
  have hbeq := find_id_beq hf
  constructor
  · intro hv
    unfold JobManager.PauseJob
    rw [hf]
    simp [hv]
  · intro hv
    have htr : TransitionJobState job JobStatus.paused =
        Except.ok (job.setStatus JobStatus.paused) := by
      unfold TransitionJobState
      rw [if_pos hv, if_neg (by simp)]
    refine ⟨?_, ?_, ?_⟩
    · unfold JobManager.PauseJob
      rw [hf]
      by_cases hab : bk.abortOk id = true
      · simp [hv, hab, htr]
      · simp [hv, hab]
    · intro hab
      unfold JobManager.PauseJob
      rw [hf]
      simp [hv, hab]
    · intro hab
      unfold JobManager.PauseJob
      rw [hf]
      simp only [hv, if_true, hab, htr]
      constructor
      · trivial
      · have h1 := find_updateJobById m id (fun _ => job.setStatus JobStatus.paused)
          (fun _ _ => by simpa using hbeq)
        simp [h1, hf]

/-- Witness for the amended C7 at a concrete input: the Ready job of `st7`. -/
theorem C7_pause_witness :
    st7.find 1 =
      some (mkJob 1 JobType.download ["x"] JobStatus.ready false 1 3 QueueName.downloadQ) ∧
    (JobManager.PauseJob bkTrue st7 1).2.2 = [Event.abort 1] ∧
    (JobManager.PauseJob bkTrue st7 1).2.1 = none ∧
    ((JobManager.PauseJob bkTrue st7 1).1.find 1).map Job.Status =
      some JobStatus.paused := by
  have h := C7_pause bkTrue st7 1
    (mkJob 1 JobType.download ["x"] JobStatus.ready false 1 3 QueueName.downloadQ) rfl
  have h2 := h.2 rfl
  exact ⟨rfl, h2.1, (h2.2.2 rfl).1, (h2.2.2 rfl).2⟩

-- ### Characterization of PauseJob and the CleanJob tail

theorem pauseJob_ok (bk : Backend) (m : JobManager) (id : Nat) (job : Job)
    (hf : m.find id = some job)
    (hv : ValidTransitionJobState job.Status JobStatus.paused = true)
    (hab : bk.abortOk id = true) :
    JobManager.PauseJob bk m id =
      (m.updateJobById id (fun _ => job.setStatus JobStatus.paused), none,
        [Event.abort id]) := by
  have htr : TransitionJobState job JobStatus.paused =
      Except.ok (job.setStatus JobStatus.paused) := by
    unfold TransitionJobState
    rw [if_pos hv, if_neg (by simp)]
  unfold JobManager.PauseJob
  rw [hf]
  simp [hv, hab, htr]

theorem pauseJob_abortFailed (bk : Backend) (m : JobManager) (id : Nat) (job : Job)
    (hf : m.find id = some job)
    (hv : ValidTransitionJobState job.Status JobStatus.paused = true)
    (hab : bk.abortOk id = false) :
    JobManager.PauseJob bk m id = (m, some Err.abortFailed, [Event.abort id]) := by
  unfold JobManager.PauseJob
  rw [hf]
  simp [hv, hab]

/-- Once the current status can validly reach End, the CleanJob tail clears
`next`, transitions to End, and reports no error. -/
theorem cleanTail_clears (m1 : JobManager) (id : Nat) (evs : List Event) (job1 : Job)
    (hf1 : m1.find id = some job1)
    (hbeq : (job1.Id == id) = true)
    (hv : ValidTransitionJobState job1.Status JobStatus.endS = true) :
    ((JobManager.cleanTail m1 id evs).1.find id).map (fun j => (j.Status, j.next)) =
      some (JobStatus.endS, none) ∧
    (JobManager.cleanTail m1 id evs).2.1 = none ∧
    (JobManager.cleanTail m1 id evs).2.2 = evs := by
  have hfind2 : (m1.updateJobById id (fun j => j.setNext none)).find id =
      some (job1.setNext none) := by
    rw [find_updateJobById m1 id _ (fun j hj => by simpa using hj), hf1]
    rfl
  unfold JobManager.cleanTail
  rw [hf1]
  simp only [hv, if_true, hfind2]
  by_cases hsuc : job1.Status = JobStatus.succeed
  · have htr : TransitionJobState (job1.setNext none) JobStatus.endS =
        Except.ok ((job1.setNext none).setStatus JobStatus.endS) := by
      unfold TransitionJobState
      rw [if_pos (by simpa using hv), if_neg (by simp [hsuc])]
    simp only [htr]
    have hfind3 : ((m1.updateJobById id (fun j => j.setNext none)).updateJobById id
        (fun _ => (job1.setNext none).setStatus JobStatus.endS)).find id =
        some ((job1.setNext none).setStatus JobStatus.endS) := by
      rw [find_updateJobById _ id _ (fun j hj => by simpa using hbeq), hfind2]
      rfl
    simp [hfind3]
  · have htr : TransitionJobState (job1.setNext none) JobStatus.endS =
        Except.ok (((job1.setNext none).setNext none).setStatus JobStatus.endS) := by
      unfold TransitionJobState
      rw [if_pos (by simpa using hv), if_pos (by simp [hsuc])]
    simp only [htr]
    have hfind3 : ((m1.updateJobById id (fun j => j.setNext none)).updateJobById id
        (fun _ => ((job1.setNext none).setNext none).setStatus JobStatus.endS)).find id =
        some (((job1.setNext none).setNext none).setStatus JobStatus.endS) := by
      rw [find_updateJobById _ id _ (fun j hj => by simpa using hbeq), hfind2]
      rfl
    simp [hfind3]

-- ### Claim C8: CleanJob

/-- C8.  For every job found by id: when the job is Running and Cancelable,
CleanJob first routes through PauseJob (the backend Abort is invoked);
whenever End is reachable from the current status the job's `next` is
cleared before the End transition is applied, so the cleaned job ends with
status End and no successor — and a reaped job without a successor is
handled by pure removal on the dispatch tick that reaps it, admitting
nothing. -/
theorem C8_cleanJob (bk : Backend) (m : JobManager) (id : Nat) (job : Job)
    (hf : m.find id = some job) :
    (job.Status = JobStatus.running ∧ job.Cancelable = true →
      (JobManager.CleanJob bk m id).2.2 = [Event.abort id]) ∧
    ((ValidTransitionJobState job.Status JobStatus.endS = true ∨
        (job.Status = JobStatus.running ∧ job.Cancelable = true)) →
      ((JobManager.CleanJob bk m id).1.find id).map (fun j => (j.Status, j.next)) =
        some (JobStatus.endS, none) ∧
      (JobManager.CleanJob bk m id).2.1 = none) ∧
    (∀ (m' : JobManager) (p : Job), p.next = none →
      JobManager.reapOne m' p = (m'.removeJob p.Id p.queueName).1) := by
  have hbeq := find_id_beq hf
  have hreap : ∀ (m' : JobManager) (p : Job), p.next = none →
      JobManager.reapOne m' p = (m'.removeJob p.Id p.queueName).1 := by
    intro m' p hp
    unfold JobManager.reapOne
    rw [hp]
  by_cases hrc : job.Status = JobStatus.running ∧ job.Cancelable = true
  · have hvp : ValidTransitionJobState job.Status JobStatus.paused = true := by
      rw [hrc.1]; rfl
    by_cases hab : bk.abortOk id = true
    · have hpause := pauseJob_ok bk m id job hf hvp hab
      have hspine : JobManager.CleanJob bk m id =
          JobManager.cleanTail
            (m.updateJobById id (fun _ => job.setStatus JobStatus.paused)) id
            [Event.abort id] := by
        simp [JobManager.CleanJob, hf, hrc.1, hrc.2, hpause]
      have hf1 : (m.updateJobById id
          (fun _ => job.setStatus JobStatus.paused)).find id =
          some (job.setStatus JobStatus.paused) := by
        rw [find_updateJobById m id _ (fun j hj => by simpa using hbeq), hf]
        rfl
      have htail := cleanTail_clears _ id [Event.abort id] _ hf1
        (by simpa using hbeq) (by simp only [Job.Status_setStatus]; rfl)
      rw [hspine]
      exact ⟨fun _ => htail.2.2, fun _ => ⟨htail.1, htail.2.1⟩, hreap⟩
    · have hab' : bk.abortOk id = false := by
        cases h : bk.abortOk id
        · rfl
        · exact absurd h hab
      have hpause := pauseJob_abortFailed bk m id job hf hvp hab'
      have hspine : JobManager.CleanJob bk m id =
          JobManager.cleanTail m id [Event.abort id] := by
        simp [JobManager.CleanJob, hf, hrc.1, hrc.2, hpause]
      have htail := cleanTail_clears m id [Event.abort id] job hf hbeq
        (by rw [hrc.1]; rfl)
      rw [hspine]
      exact ⟨fun _ => htail.2.2, fun _ => ⟨htail.1, htail.2.1⟩, hreap⟩
  · have hspine : JobManager.CleanJob bk m id = JobManager.cleanTail m id [] := by
      simp [JobManager.CleanJob, hf, hrc]
    refine ⟨fun h => absurd h hrc, ?_, hreap⟩
    intro hv
    have hv1 : ValidTransitionJobState job.Status JobStatus.endS = true := by
      rcases hv with hv | hv
      · exact hv
      · exact absurd hv hrc
    have htail := cleanTail_clears m id [] job hf hbeq hv1
    rw [hspine]
    exact ⟨htail.1, htail.2.1⟩

/-- Witness for C8 at a concrete input: the Running Cancelable Remove job of
`st8`. -/
theorem C8_cleanJob_witness :
    st8.find 1 = some j8 ∧
    (JobManager.CleanJob bkTrue st8 1).2.2 = [Event.abort 1] ∧
    ((JobManager.CleanJob bkTrue st8 1).1.find 1).map (fun j => (j.Status, j.next)) =
      some (JobStatus.endS, none) ∧
    (JobManager.CleanJob bkTrue st8 1).2.1 = none := by
  have h := C8_cleanJob bkTrue st8 1 j8 rfl
  have h2 := h.2.1 (Or.inr ⟨rfl, rfl⟩)
  exact ⟨rfl, h.1 ⟨rfl, rfl⟩, h2.1, h2.2⟩

-- ### Queue access and pointer-update lemmas

@[simp] theorem getQueue_setQueue_self (m : JobManager) (qn : QueueName) (q : JobQueue) :
    (m.setQueue qn q).getQueue qn = q := by
  cases qn <;> rfl

theorem getQueue_setQueue_ne (m : JobManager) (qn : QueueName) (q : JobQueue)
    (qn' : QueueName) (h : qn' ≠ qn) :
    (m.setQueue qn q).getQueue qn' = m.getQueue qn' := by
  cases qn <;> cases qn' <;> first | rfl | exact absurd rfl h

theorem getQueue_update (m : JobManager) (id : Nat) (f : Job → Job) (qn : QueueName) :
    ((m.updateJobById id f).getQueue qn).Jobs =
      (m.getQueue qn).Jobs.map (fun j => if j.Id == id then f j else j) := by
  cases qn <;> rfl

/-- A queue that holds no job with the id is untouched by the pointer
update. -/
theorem update_queue_of_absent (m : JobManager) (id : Nat) (f : Job → Job)
    (qn : QueueName) (h : ∀ x ∈ (m.getQueue qn).Jobs, x.Id ≠ id) :
    ((m.updateJobById id f).getQueue qn).Jobs = (m.getQueue qn).Jobs := by
  rw [getQueue_update]
  have h2 : ∀ x ∈ (m.getQueue qn).Jobs,
      (fun j => if j.Id == id then f j else j) x = x := by
    intro x hx
    show (if (x.Id == id) = true then f x else x) = x
    rw [if_neg (by simpa using h x hx)]
  rw [List.map_congr_left h2, List.map_id']

/-- The pointer update leaves the id sequence of every queue unchanged
whenever the replacement preserves the id of matching jobs. -/
theorem update_ids (m : JobManager) (id : Nat) (f : Job → Job)
    (hf : ∀ x : Job, (x.Id == id) = true → (f x).Id = x.Id) (qn : QueueName) :
    ((m.updateJobById id f).getQueue qn).Jobs.map Job.Id =
      (m.getQueue qn).Jobs.map Job.Id := by
  rw [getQueue_update, List.map_map]
  apply List.map_congr_left
  intro x _
  by_cases h : (x.Id == id) = true
  · simp only [Function.comp, if_pos h]
    exact hf x h
  · simp only [Function.comp, if_neg h]

/-- A member whose id differs survives the pointer update unchanged. -/
theorem update_mem (m : JobManager) (id : Nat) (f : Job → Job) (qn : QueueName)
    {x : Job} (hx : x ∈ (m.getQueue qn).Jobs) (hne : x.Id ≠ id) :
    x ∈ ((m.updateJobById id f).getQueue qn).Jobs := by
  rw [getQueue_update]
  have h2 : (fun j => if j.Id == id then f j else j) x = x := by
    show (if (x.Id == id) = true then f x else x) = x
    rw [if_neg (by simpa using hne)]
  exact h2 ▸ List.mem_map_of_mem _ hx

-- ### findIdx?, swapHead and Raise

theorem findIndexOf_get? {id : Nat} :
    ∀ {l : List Job} {i : Nat}, JobQueue.findIndexOf id l = some i →
      ∃ x, l.get? i = some x ∧ (x.Id == id) = true := by
  intro l
  induction l with
  | nil => intro i h; cases h
  | cons a as ih =>
    intro i h
    unfold JobQueue.findIndexOf at h
    by_cases hp : (a.Id == id) = true
    · rw [if_pos hp] at h
      cases h
      exact ⟨a, rfl, hp⟩
    · rw [if_neg hp] at h
      simp only [Option.map_eq_some'] at h
      obtain ⟨i', hi', rfl⟩ := h
      obtain ⟨x, hx, hpx⟩ := ih hi'
      exact ⟨x, by simpa using hx, hpx⟩

theorem findIndexOf_none_of_absent {id : Nat} {l : List Job}
    (h : ∀ x ∈ l, x.Id ≠ id) : JobQueue.findIndexOf id l = none := by
  induction l with
  | nil => rfl
  | cons a as ih =>
    unfold JobQueue.findIndexOf
    rw [if_neg (by simpa using h a (List.mem_cons_self a as))]
    rw [ih (fun x hx => h x (List.mem_cons_of_mem a hx))]
    rfl

theorem swapHead_get0 {l : List Job} {p : Nat} {b : Job} (h : l.get? p = some b) :
    (JobQueue.swapHead l p).get? 0 = some b := by
  cases l with
  | nil => simp at h
  | cons x xs =>
    cases p with
    | zero =>
      simp only [List.get?] at h
      cases h
      unfold JobQueue.swapHead
      simp [List.set]
    | succ p =>
      simp only [List.get?] at h
      unfold JobQueue.swapHead
      simp only [List.get?, h, List.set]

theorem raise_ok_spec {q : JobQueue} {id : Nat} {q' : JobQueue}
    (h : q.Raise id = Except.ok q') :
    q'.Jobs.Perm q.Jobs ∧ q'.Cap = q.Cap ∧
      ∃ x, q'.Jobs.get? 0 = some x ∧ (x.Id == id) = true := by
  unfold JobQueue.Raise at h
  cases hidx : JobQueue.findIndexOf id q.Jobs with
  | none => rw [hidx] at h; cases h
  | some p =>
    rw [hidx] at h
    cases h
    obtain ⟨x, hx, hpx⟩ := findIndexOf_get? hidx
    exact ⟨swapHead_perm q.Jobs p, rfl, x, swapHead_get0 hx, hpx⟩

theorem raise_err_of_absent {q : JobQueue} {id : Nat}
    (h : ∀ x ∈ q.Jobs, x.Id ≠ id) : q.Raise id = Except.error Err.notFound := by
  unfold JobQueue.Raise
  rw [findIndexOf_none_of_absent h]

-- ### Characterization of MarkStart

theorem transitionJobState_Id {j : Job} {tgt : JobStatus} {j' : Job}
    (h : TransitionJobState j tgt = Except.ok j') : j'.Id = j.Id := by
  unfold TransitionJobState at h
  by_cases hv : ValidTransitionJobState j.Status tgt = true
  · rw [if_pos hv] at h
    by_cases he : tgt = JobStatus.endS ∧ j.Status ≠ JobStatus.succeed
    · rw [if_pos he] at h
      cases h
      simp
    · rw [if_neg he] at h
      cases h
      simp
  · rw [if_neg hv] at h
    cases h

theorem transitionJobState_queueName {j : Job} {tgt : JobStatus} {j' : Job}
    (h : TransitionJobState j tgt = Except.ok j') : j'.queueName = j.queueName := by
  unfold TransitionJobState at h
  by_cases hv : ValidTransitionJobState j.Status tgt = true
  · rw [if_pos hv] at h
    by_cases he : tgt = JobStatus.endS ∧ j.Status ≠ JobStatus.succeed
    · rw [if_pos he] at h
      cases h
      simp
    · rw [if_neg he] at h
      cases h
      simp
  · rw [if_neg hv] at h
    cases h

theorem markStart_eq_none {m : JobManager} {id : Nat} (hfind : m.find id = none) :
    m.MarkStart id = (m, some Err.notFound) := by
  unfold JobManager.MarkStart
  rw [hfind]

theorem markStart_eq_ready {m : JobManager} {id : Nat} {job : Job}
    (hfind : m.find id = some job) (hst : job.Status = JobStatus.ready) :
    m.MarkStart id = m.raiseIn job.queueName id := by
  unfold JobManager.MarkStart
  rw [hfind]
  simp [hst]

theorem markStart_eq_transErr {m : JobManager} {id : Nat} {job : Job} {e : Err}
    (hfind : m.find id = some job) (hst : job.Status ≠ JobStatus.ready)
    (htr : TransitionJobState job JobStatus.ready = Except.error e) :
    m.MarkStart id = (m, some e) := by
  unfold JobManager.MarkStart
  rw [hfind]
  simp [hst, htr]

theorem markStart_eq_transOk {m : JobManager} {id : Nat} {job j' : Job}
    (hfind : m.find id = some job) (hst : job.Status ≠ JobStatus.ready)
    (htr : TransitionJobState job JobStatus.ready = Except.ok j') :
    m.MarkStart id = (m.updateJobById id (fun _ => j')).raiseIn j'.queueName id := by
  unfold JobManager.MarkStart
  rw [hfind]
  simp [hst, htr]

theorem raiseIn_eq_err {m : JobManager} {qn : QueueName} {id : Nat} {e : Err}
    (hr : (m.getQueue qn).Raise id = Except.error e) :
    m.raiseIn qn id = (m, some e) := by
  unfold JobManager.raiseIn
  rw [hr]

theorem raiseIn_eq_ok {m : JobManager} {qn : QueueName} {id : Nat} {q' : JobQueue}
    (hr : (m.getQueue qn).Raise id = Except.ok q') :
    m.raiseIn qn id = (m.setQueue qn q', none) := by
  unfold JobManager.raiseIn
  rw [hr]

-- ### Effect of MarkStart on queues

theorem raiseIn_queue_absent (m : JobManager) (qn' : QueueName) (id : Nat)
    (qn : QueueName) (h : ∀ x ∈ (m.getQueue qn).Jobs, x.Id ≠ id) :
    (((m.raiseIn qn' id).1).getQueue qn).Jobs = (m.getQueue qn).Jobs := by
  cases hr : (m.getQueue qn').Raise id with
  | error e => rw [raiseIn_eq_err hr]
  | ok q' =>
    rw [raiseIn_eq_ok hr]
    by_cases hq : qn = qn'
    · subst hq
      rw [raise_err_of_absent h] at hr
      cases hr
    · rw [getQueue_setQueue_ne _ _ _ _ hq]

theorem raiseIn_ids (m : JobManager) (qn' : QueueName) (id : Nat) (qn : QueueName) :
    ((((m.raiseIn qn' id).1).getQueue qn).Jobs.map Job.Id).Perm
      ((m.getQueue qn).Jobs.map Job.Id) := by
  cases hr : (m.getQueue qn').Raise id with
  | error e =>
    rw [raiseIn_eq_err hr]
  | ok q' =>
    rw [raiseIn_eq_ok hr]
    by_cases hq : qn = qn'
    · subst hq
      rw [getQueue_setQueue_self]
      exact (raise_ok_spec hr).1.map Job.Id
    · rw [getQueue_setQueue_ne _ _ _ _ hq]

theorem raiseIn_mem (m : JobManager) (qn' : QueueName) (id : Nat) (qn : QueueName)
    {x : Job} (hx : x ∈ (m.getQueue qn).Jobs) :
    x ∈ (((m.raiseIn qn' id).1).getQueue qn).Jobs := by
  cases hr : (m.getQueue qn').Raise id with
  | error e =>
    rw [raiseIn_eq_err hr]
    exact hx
  | ok q' =>
    rw [raiseIn_eq_ok hr]
    by_cases hq : qn = qn'
    · subst hq
      rw [getQueue_setQueue_self]
      exact ((raise_ok_spec hr).1.symm).subset hx
    · rw [getQueue_setQueue_ne _ _ _ _ hq]
      exact hx

/-- MarkStart never touches a queue that holds no job with the id. -/
theorem markStart_queue_absent (m : JobManager) (id : Nat) (qn : QueueName)
    (h : ∀ x ∈ (m.getQueue qn).Jobs, x.Id ≠ id) :
    (((m.MarkStart id).1).getQueue qn).Jobs = (m.getQueue qn).Jobs := by
  cases hfind : m.find id with
  | none => rw [markStart_eq_none hfind]
  | some job =>
    by_cases hst : job.Status = JobStatus.ready
    · rw [markStart_eq_ready hfind hst]
      exact raiseIn_queue_absent m job.queueName id qn h
    · cases htr : TransitionJobState job JobStatus.ready with
      | error e => rw [markStart_eq_transErr hfind hst htr]
      | ok j' =>
        rw [markStart_eq_transOk hfind hst htr]
        have h2 : ∀ x ∈ ((m.updateJobById id (fun _ => j')).getQueue qn).Jobs,
            x.Id ≠ id := by
          rw [update_queue_of_absent m id _ qn h]
          exact h
        rw [raiseIn_queue_absent _ j'.queueName id qn h2]
        exact update_queue_of_absent m id _ qn h

/-- MarkStart preserves every queue's id sequence up to permutation. -/
theorem markStart_ids (m : JobManager) (id : Nat) (qn : QueueName) :
    ((((m.MarkStart id).1).getQueue qn).Jobs.map Job.Id).Perm
      ((m.getQueue qn).Jobs.map Job.Id) := by
  cases hfind : m.find id with
  | none =>
    rw [markStart_eq_none hfind]
  | some job =>
    by_cases hst : job.Status = JobStatus.ready
    · rw [markStart_eq_ready hfind hst]
      exact raiseIn_ids m job.queueName id qn
    · cases htr : TransitionJobState job JobStatus.ready with
      | error e =>
        rw [markStart_eq_transErr hfind hst htr]
      | ok j' =>
        rw [markStart_eq_transOk hfind hst htr]
        refine (raiseIn_ids _ j'.queueName id qn).trans ?_
        have hfid : job.Id = id := by simpa using find_id_beq hfind
        have hpre : ∀ x : Job, (x.Id == id) = true → ((fun _ => j') x).Id = x.Id := by
          intro x hx
          have hxid : x.Id = id := by simpa using hx
          show j'.Id = x.Id
          rw [transitionJobState_Id htr, hfid, hxid]
        rw [update_ids m id _ hpre qn]

/-- A member whose id differs survives MarkStart. -/
theorem markStart_mem (m : JobManager) (id : Nat) (qn : QueueName) {x : Job}
    (hx : x ∈ (m.getQueue qn).Jobs) (hne : x.Id ≠ id) :
    x ∈ (((m.MarkStart id).1).getQueue qn).Jobs := by
  cases hfind : m.find id with
  | none =>
    rw [markStart_eq_none hfind]
    exact hx
  | some job =>
    by_cases hst : job.Status = JobStatus.ready
    · rw [markStart_eq_ready hfind hst]
      exact raiseIn_mem m job.queueName id qn hx
    · cases htr : TransitionJobState job JobStatus.ready with
      | error e =>
        rw [markStart_eq_transErr hfind hst htr]
        exact hx
      | ok j' =>
        rw [markStart_eq_transOk hfind hst htr]
        exact raiseIn_mem _ j'.queueName id qn (update_mem m id _ qn hx hne)

-- ### Effect of StartSystemJob on queues

theorem startF_Id (tgt : JobStatus) (x : Job) :
    ((fun j => match TransitionJobState j tgt with
      | .ok j' => j'
      | .error _ => j) x).Id = x.Id := by
  cases htr : TransitionJobState x tgt with
  | ok j' =>
    simp only [htr]
    exact transitionJobState_Id htr
  | error e => simp only [htr]

theorem startTransition_queue_absent (m : JobManager) (id : Nat) (tgt : JobStatus)
    (qn : QueueName) (h : ∀ x ∈ (m.getQueue qn).Jobs, x.Id ≠ id) :
    ((startTransition m id tgt).getQueue qn).Jobs = (m.getQueue qn).Jobs :=
  update_queue_of_absent m id _ qn h

theorem startTransition_ids (m : JobManager) (id : Nat) (tgt : JobStatus)
    (qn : QueueName) :
    ((startTransition m id tgt).getQueue qn).Jobs.map Job.Id =
      (m.getQueue qn).Jobs.map Job.Id :=
  update_ids m id _ (fun x _ => startF_Id tgt x) qn

theorem startTransition_mem (m : JobManager) (id : Nat) (tgt : JobStatus)
    (qn : QueueName) {x : Job} (hx : x ∈ (m.getQueue qn).Jobs) (hne : x.Id ≠ id) :
    x ∈ ((startTransition m id tgt).getQueue qn).Jobs :=
  update_mem m id _ qn hx hne

theorem startSystemJob_queue_absent (bk : Backend) (m : JobManager) (id : Nat)
    (qn : QueueName) (h : ∀ x ∈ (m.getQueue qn).Jobs, x.Id ≠ id) :
    (((StartSystemJob bk m id).1).getQueue qn).Jobs = (m.getQueue qn).Jobs := by
  unfold StartSystemJob
  by_cases hok : bk.startOk id = true
  · rw [if_pos hok]
    exact startTransition_queue_absent m id _ qn h
  · rw [if_neg hok]
    have h1 := startTransition_queue_absent m id JobStatus.running qn h
    have h2 : ∀ x ∈ ((startTransition m id JobStatus.running).getQueue qn).Jobs,
        x.Id ≠ id := by
      rw [h1]; exact h
    rw [startTransition_queue_absent _ id _ qn h2, h1]

theorem startSystemJob_ids (bk : Backend) (m : JobManager) (id : Nat) (qn : QueueName) :
    (((StartSystemJob bk m id).1).getQueue qn).Jobs.map Job.Id =
      (m.getQueue qn).Jobs.map Job.Id := by
  unfold StartSystemJob
  by_cases hok : bk.startOk id = true
  · rw [if_pos hok]
    exact startTransition_ids m id _ qn
  · rw [if_neg hok]
    rw [startTransition_ids _ id _ qn, startTransition_ids m id _ qn]

theorem startSystemJob_mem (bk : Backend) (m : JobManager) (id : Nat) (qn : QueueName)
    {x : Job} (hx : x ∈ (m.getQueue qn).Jobs) (hne : x.Id ≠ id) :
    x ∈ (((StartSystemJob bk m id).1).getQueue qn).Jobs := by
  unfold StartSystemJob
  by_cases hok : bk.startOk id = true
  · rw [if_pos hok]
    exact startTransition_mem m id _ qn hx hne
  · rw [if_neg hok]
    exact startTransition_mem _ id _ qn (startTransition_mem m id _ qn hx hne) hne

-- ### PendingJobs selection facts

@[simp] theorem decRetry_Id (j : Job) : (JobQueue.decRetry j).Id = j.Id := by
  unfold JobQueue.decRetry
  by_cases h : j.Status = JobStatus.failed ∧ 0 < j.retry <;> simp [h]

theorem decRetry_eq_self {j : Job} (h : j.Status ≠ JobStatus.failed) :
    JobQueue.decRetry j = j := by
  unfold JobQueue.decRetry
  rw [if_neg (by tauto)]

theorem pendingJobs_fst (q : JobQueue) :
    (q.PendingJobs).1 = { q with Jobs := q.Jobs.map JobQueue.decRetry } := rfl

/-- Every selected job's id belongs to a non-Running member of the queue. -/
theorem pending_sel_source {q : JobQueue} {j : Job} (h : j ∈ (q.PendingJobs).2) :
    ∃ j₀ ∈ q.Jobs, j₀.Id = j.Id ∧ j₀.Status ≠ JobStatus.running := by
  rcases mem_pendingCandidates (mem_of_mem_pending h) with ⟨hm, hs⟩ | ⟨j₀, hm, hid, hst, _⟩
  · exact ⟨j, hm, rfl, by rw [hs]; exact fun hc => by cases hc⟩
  · exact ⟨j₀, hm, hid, by rw [hst]; exact fun hc => by cases hc⟩

theorem runningJobs_length_ne {q : JobQueue} {R : Job} (hR : R ∈ q.Jobs)
    (hs : R.Status = JobStatus.running) : q.RunningJobs.length ≠ 0 := by
  have hmem : R ∈ q.RunningJobs := by
    unfold JobQueue.RunningJobs
    rw [List.mem_filter]
    exact ⟨hR, by rw [hs]; rfl⟩
  intro hlen
  rw [List.length_eq_zero] at hlen
  rw [hlen] at hmem
  cases hmem

-- ### The scheduling-phase fold while the lock queue is busy

theorem foldStart_inv (bk : Backend) (m : JobManager) (r0 : Nat) :
    ∀ (sel : List Job) (base : JobManager),
    (∀ j ∈ sel, j.Id ≠ r0 ∧ ∀ qn, qn ≠ QueueName.lockQ → j.Id ∉ idsOf m qn) →
    (∀ qn, qn ≠ QueueName.lockQ → (base.getQueue qn).Jobs = (m.getQueue qn).Jobs) →
    ((base.getQueue QueueName.lockQ).Jobs.map Job.Id).Perm
      ((m.getQueue QueueName.lockQ).Jobs.map Job.Id) →
    (∃ R ∈ (base.getQueue QueueName.lockQ).Jobs,
      R.Status = JobStatus.running ∧ R.Id = r0) →
    (∀ qn, qn ≠ QueueName.lockQ →
      ((sel.foldl (JobManager.startSelected bk) base).getQueue qn).Jobs =
        (m.getQueue qn).Jobs) ∧
    (((sel.foldl (JobManager.startSelected bk) base).getQueue
        QueueName.lockQ).Jobs.map Job.Id).Perm
      ((m.getQueue QueueName.lockQ).Jobs.map Job.Id) ∧
    (∃ R ∈ ((sel.foldl (JobManager.startSelected bk) base).getQueue
        QueueName.lockQ).Jobs, R.Status = JobStatus.running ∧ R.Id = r0) := by
  intro sel
  induction sel with
  | nil =>
    intro base hsel hq hperm hR
    exact ⟨hq, hperm, hR⟩
  | cons j js ih =>
    intro base hsel hq hperm hR
    simp only [List.foldl_cons]
    obtain ⟨hjr, hjq⟩ := hsel j (List.mem_cons_self j js)
    set mid := if j.Status = JobStatus.failed
      then ((base.MarkStart j.Id).1) else base with hmid
    have hmid_q : ∀ qn, qn ≠ QueueName.lockQ →
        (mid.getQueue qn).Jobs = (m.getQueue qn).Jobs := by
      intro qn hqn
      rw [hmid]
      by_cases hst : j.Status = JobStatus.failed
      · rw [if_pos hst]
        have habs : ∀ x ∈ (base.getQueue qn).Jobs, x.Id ≠ j.Id := by
          rw [hq qn hqn]
          intro x hx hxid
          exact hjq qn hqn (hxid ▸ List.mem_map_of_mem Job.Id hx)
        rw [markStart_queue_absent base j.Id qn habs]
        exact hq qn hqn
      · rw [if_neg hst]
        exact hq qn hqn
    have hmid_perm : ((mid.getQueue QueueName.lockQ).Jobs.map Job.Id).Perm
        ((m.getQueue QueueName.lockQ).Jobs.map Job.Id) := by
      rw [hmid]
      by_cases hst : j.Status = JobStatus.failed
      · rw [if_pos hst]
        exact (markStart_ids base j.Id QueueName.lockQ).trans hperm
      · rw [if_neg hst]
        exact hperm
    have hmid_R : ∃ R ∈ (mid.getQueue QueueName.lockQ).Jobs,
        R.Status = JobStatus.running ∧ R.Id = r0 := by
      obtain ⟨R, hRm, hRs, hRi⟩ := hR
      rw [hmid]
      by_cases hst : j.Status = JobStatus.failed
      · rw [if_pos hst]
        exact ⟨R, markStart_mem base j.Id QueueName.lockQ hRm
          (by rw [hRi]; exact fun hc => hjr hc.symm), hRs, hRi⟩
      · rw [if_neg hst]
        exact ⟨R, hRm, hRs, hRi⟩
    have hstep_q : ∀ qn, qn ≠ QueueName.lockQ →
        (((JobManager.startSelected bk base j).getQueue qn)).Jobs =
          (m.getQueue qn).Jobs := by
      intro qn hqn
      unfold JobManager.startSelected
      have habs : ∀ x ∈ (mid.getQueue qn).Jobs, x.Id ≠ j.Id := by
        rw [hmid_q qn hqn]
        intro x hx hxid
        exact hjq qn hqn (hxid ▸ List.mem_map_of_mem Job.Id hx)
      rw [startSystemJob_queue_absent bk mid j.Id qn habs]
      exact hmid_q qn hqn
    have hstep_perm : (((JobManager.startSelected bk base j).getQueue
        QueueName.lockQ).Jobs.map Job.Id).Perm
        ((m.getQueue QueueName.lockQ).Jobs.map Job.Id) := by
      unfold JobManager.startSelected
      rw [startSystemJob_ids bk mid j.Id QueueName.lockQ]
      exact hmid_perm
    have hstep_R : ∃ R ∈ ((JobManager.startSelected bk base j).getQueue
        QueueName.lockQ).Jobs, R.Status = JobStatus.running ∧ R.Id = r0 := by
      obtain ⟨R, hRm, hRs, hRi⟩ := hmid_R
      unfold JobManager.startSelected
      exact ⟨R, startSystemJob_mem bk mid j.Id QueueName.lockQ hRm
        (by rw [hRi]; exact fun hc => hjr hc.symm), hRs, hRi⟩
    exact ih (JobManager.startSelected bk base j)
      (fun x hx => hsel x (List.mem_cons_of_mem j hx)) hstep_q hstep_perm hstep_R

-- ### Processing one queue preserves the busy-lock invariant

theorem allJobs_ids_eq (m : JobManager) :
    (m.allJobs).map Job.Id =
      idsOf m QueueName.downloadQ ++ idsOf m QueueName.systemChangeQ ++
        idsOf m QueueName.lockQ := by
  unfold JobManager.allJobs idsOf JobManager.getQueue
  simp [List.map_append]

theorem ids_disjoint_lock {m : JobManager} (hN : idsNodup m) {qn : QueueName}
    (hqn : qn ≠ QueueName.lockQ) {x : Nat} (hx : x ∈ idsOf m QueueName.lockQ) :
    x ∉ idsOf m qn := by
  unfold idsNodup at hN
  rw [allJobs_ids_eq] at hN
  rw [List.nodup_append] at hN
  have hdisj := hN.2.2
  have hnotin : x ∉ idsOf m QueueName.downloadQ ++ idsOf m QueueName.systemChangeQ := by
    intro hmem
    exact hdisj hmem hx
  intro hmem
  cases qn with
  | downloadQ => exact hnotin (List.mem_append_left _ hmem)
  | systemChangeQ => exact hnotin (List.mem_append_right _ hmem)
  | lockQ => exact hqn rfl

theorem lock_ids_nodup {m : JobManager} (hN : idsNodup m) :
    (idsOf m QueueName.lockQ).Nodup := by
  unfold idsNodup at hN
  rw [allJobs_ids_eq, List.nodup_append] at hN
  exact hN.2.1

theorem processQueue_skip (bk : Backend) (m : JobManager) (qn : QueueName)
    (h1 : qn ≠ QueueName.lockQ) (h2 : m.lock.RunningJobs.length ≠ 0) :
    JobManager.processQueue bk m qn = m := by
  unfold JobManager.processQueue
  rw [if_pos ⟨h1, h2⟩]

theorem processQueue_lock (bk : Backend) (m : JobManager) :
    JobManager.processQueue bk m QueueName.lockQ =
      ((m.getQueue QueueName.lockQ).PendingJobs).2.foldl
        (JobManager.startSelected bk)
        (m.setQueue QueueName.lockQ ((m.getQueue QueueName.lockQ).PendingJobs).1) := by
  unfold JobManager.processQueue
  rw [if_neg (by simp)]

theorem decRetry_map_ids (l : List Job) :
    (l.map JobQueue.decRetry).map Job.Id = l.map Job.Id := by
  rw [List.map_map]
  apply List.map_congr_left
  intro x _
  exact decRetry_Id x

theorem processQueue_inv (bk : Backend) (m cur : JobManager) (qn : QueueName)
    (hN : idsNodup m) (hinv : schedInv m cur) :
    schedInv m (JobManager.processQueue bk cur qn) := by
  obtain ⟨hq, hperm, R, hRm, hRs⟩ := hinv
  by_cases hqn : qn = QueueName.lockQ
  · subst hqn
    rw [processQueue_lock]
    have hlockN_cur : ((cur.getQueue QueueName.lockQ).Jobs.map Job.Id).Nodup :=
      hperm.nodup_iff.mpr (lock_ids_nodup hN)
    have hsel : ∀ j ∈ ((cur.getQueue QueueName.lockQ).PendingJobs).2,
        j.Id ≠ R.Id ∧ ∀ qn', qn' ≠ QueueName.lockQ → j.Id ∉ idsOf m qn' := by
      intro j hj
      obtain ⟨j₀, hm₀, hid₀, hst₀⟩ := pending_sel_source hj
      constructor
      · intro hcontra
        have : j₀ = R := List.inj_on_of_nodup_map hlockN_cur hm₀ hRm
          (by rw [hid₀, hcontra])
        rw [this] at hst₀
        exact hst₀ hRs
      · intro qn' hqn'
        have hmemlock : j.Id ∈ idsOf m QueueName.lockQ := by
          have h1 : j.Id ∈ (cur.getQueue QueueName.lockQ).Jobs.map Job.Id :=
            hid₀ ▸ List.mem_map_of_mem Job.Id hm₀
          exact hperm.mem_iff.mp h1
        exact ids_disjoint_lock hN hqn' hmemlock
    have hbase_q : ∀ qn', qn' ≠ QueueName.lockQ →
        (((cur.setQueue QueueName.lockQ
          ((cur.getQueue QueueName.lockQ).PendingJobs).1).getQueue qn')).Jobs =
          (m.getQueue qn').Jobs := by
      intro qn' hqn'
      rw [getQueue_setQueue_ne _ _ _ _ hqn']
      exact hq qn' hqn'
    have hbase_perm : (((cur.setQueue QueueName.lockQ
        ((cur.getQueue QueueName.lockQ).PendingJobs).1).getQueue
          QueueName.lockQ).Jobs.map Job.Id).Perm
        ((m.getQueue QueueName.lockQ).Jobs.map Job.Id) := by
      rw [getQueue_setQueue_self, pendingJobs_fst]
      show (((cur.getQueue QueueName.lockQ).Jobs.map JobQueue.decRetry).map Job.Id).Perm _
      rw [decRetry_map_ids]
      exact hperm
    have hbase_R : ∃ R' ∈ ((cur.setQueue QueueName.lockQ
        ((cur.getQueue QueueName.lockQ).PendingJobs).1).getQueue
          QueueName.lockQ).Jobs, R'.Status = JobStatus.running ∧ R'.Id = R.Id := by
      rw [getQueue_setQueue_self, pendingJobs_fst]
      refine ⟨R, ?_, hRs, rfl⟩
      show R ∈ (cur.getQueue QueueName.lockQ).Jobs.map JobQueue.decRetry
      have : JobQueue.decRetry R = R :=
        decRetry_eq_self (by rw [hRs]; exact fun hc => by cases hc)
      exact this ▸ List.mem_map_of_mem _ hRm
    obtain ⟨h1, h2, R', hR'm, hR's, _⟩ :=
      foldStart_inv bk m R.Id _ _ hsel hbase_q hbase_perm hbase_R
    exact ⟨h1, h2, R', hR'm, hR's⟩
  · rw [processQueue_skip bk cur qn hqn (runningJobs_length_ne hRm hRs)]
    exact ⟨hq, hperm, R, hRm, hRs⟩

theorem schedulePhase_inv (bk : Backend) (m : JobManager) (ord : List QueueName) :
    ∀ (cur : JobManager), idsNodup m → schedInv m cur →
      schedInv m (JobManager.schedulePhase bk cur ord) := by
  induction ord with
  | nil => intro cur _ hinv; exact hinv
  | cons qn qns ih =>
    intro cur hN hinv
    show schedInv m ((qns.foldl (JobManager.processQueue bk)
      (JobManager.processQueue bk cur qn)))
    exact ih _ hN (processQueue_inv bk m cur qn hN hinv)

-- ### Claim C1: lock-queue exclusion

/-- C1.  If some job of the lock queue is Running at the start of the
scheduling phase, the phase leaves every other queue completely untouched —
in particular no job of any other queue transitions into Running, and the
Running count of every other queue does not increase — for every iteration
order of the queue map. -/
theorem C1_lock_exclusion (bk : Backend) (m : JobManager) (ord : List QueueName)
    (hN : idsNodup m) (hrun : 0 < mgrRunning m QueueName.lockQ)
    (qn : QueueName) (hqn : qn ≠ QueueName.lockQ) :
    ((JobManager.schedulePhase bk m ord).getQueue qn).Jobs = (m.getQueue qn).Jobs ∧
    mgrRunning (JobManager.schedulePhase bk m ord) qn = mgrRunning m qn := by
  have hR : ∃ R ∈ (m.getQueue QueueName.lockQ).Jobs, R.Status = JobStatus.running := by
    unfold mgrRunning JobQueue.runningCount at hrun
    obtain ⟨R, hRm, hRp⟩ := List.countP_pos.mp hrun
    exact ⟨R, hRm, by simpa using hRp⟩
  obtain ⟨R, hRm, hRs⟩ := hR
  have hinv := schedulePhase_inv bk m ord m hN
    ⟨fun _ _ => rfl, List.Perm.refl _, R, hRm, hRs⟩
  obtain ⟨hq, _, _⟩ := hinv
  refine ⟨hq qn hqn, ?_⟩
  unfold mgrRunning JobQueue.runningCount
  rw [hq qn hqn]

/-- Witness for C1 at a concrete input: `st1fix` has a Running DistUpgrade
job in the lock queue and a Ready download job, which stays Ready across the
scheduling phase. -/
theorem C1_lock_exclusion_witness :
    idsNodup st1fix ∧ 0 < mgrRunning st1fix QueueName.lockQ ∧
    ((JobManager.schedulePhase bkTrue st1fix
        [QueueName.downloadQ, QueueName.systemChangeQ, QueueName.lockQ]).getQueue
      QueueName.downloadQ).Jobs = (st1fix.getQueue QueueName.downloadQ).Jobs ∧
    mgrRunning (JobManager.schedulePhase bkTrue st1fix
        [QueueName.downloadQ, QueueName.systemChangeQ, QueueName.lockQ])
      QueueName.downloadQ = mgrRunning st1fix QueueName.downloadQ := by
  have h := C1_lock_exclusion bkTrue st1fix
    [QueueName.downloadQ, QueueName.systemChangeQ, QueueName.lockQ]
    (by unfold idsNodup; decide) (by decide) QueueName.downloadQ (by decide)
  exact ⟨by unfold idsNodup; decide, by decide, h.1, h.2⟩

-- ### The scheduling phase preserves every queue's id multiset

theorem markStart_fst_ids (m : JobManager) (id : Nat) (qn : QueueName) :
    ((((m.MarkStart id).1).getQueue qn).Jobs.map Job.Id).Perm
      ((m.getQueue qn).Jobs.map Job.Id) :=
  markStart_ids m id qn

theorem startSelected_ids (bk : Backend) (m : JobManager) (j : Job) (qn : QueueName) :
    (((JobManager.startSelected bk m j).getQueue qn).Jobs.map Job.Id).Perm
      ((m.getQueue qn).Jobs.map Job.Id) := by
  unfold JobManager.startSelected
  by_cases hst : j.Status = JobStatus.failed
  · rw [if_pos hst, startSystemJob_ids]
    exact markStart_ids m j.Id qn
  · rw [if_neg hst, startSystemJob_ids]

theorem foldStart_ids (bk : Backend) (qn : QueueName) :
    ∀ (sel : List Job) (base : JobManager),
      (((sel.foldl (JobManager.startSelected bk) base).getQueue qn).Jobs.map
        Job.Id).Perm ((base.getQueue qn).Jobs.map Job.Id) := by
  intro sel
  induction sel with
  | nil => intro base; exact List.Perm.refl _
  | cons j js ih =>
    intro base
    simp only [List.foldl_cons]
    exact (ih _).trans (startSelected_ids bk base j qn)

theorem processQueue_go (bk : Backend) (m : JobManager) (qn : QueueName)
    (h : ¬(qn ≠ QueueName.lockQ ∧ m.lock.RunningJobs.length ≠ 0)) :
    JobManager.processQueue bk m qn =
      ((m.getQueue qn).PendingJobs).2.foldl (JobManager.startSelected bk)
        (m.setQueue qn ((m.getQueue qn).PendingJobs).1) := by
  unfold JobManager.processQueue
  rw [if_neg h]

theorem processQueue_ids (bk : Backend) (m : JobManager) (qn qn' : QueueName) :
    (((JobManager.processQueue bk m qn).getQueue qn').Jobs.map Job.Id).Perm
      ((m.getQueue qn').Jobs.map Job.Id) := by
  by_cases h : qn ≠ QueueName.lockQ ∧ m.lock.RunningJobs.length ≠ 0
  · rw [processQueue_skip bk m qn h.1 h.2]
  · rw [processQueue_go bk m qn h]
    refine (foldStart_ids bk qn' _ _).trans ?_
    by_cases hq : qn' = qn
    · subst hq
      rw [getQueue_setQueue_self, pendingJobs_fst]
      show (((m.getQueue qn').Jobs.map JobQueue.decRetry).map Job.Id).Perm _
      rw [decRetry_map_ids]
    · rw [getQueue_setQueue_ne _ _ _ _ hq]

theorem schedulePhase_ids (bk : Backend) (ord : List QueueName) :
    ∀ (cur : JobManager) (qn : QueueName),
      (((JobManager.schedulePhase bk cur ord).getQueue qn).Jobs.map Job.Id).Perm
        ((cur.getQueue qn).Jobs.map Job.Id) := by
  induction ord with
  | nil => intro cur qn; exact List.Perm.refl _
  | cons q qs ih =>
    intro cur qn
    show ((((qs.foldl (JobManager.processQueue bk)
      (JobManager.processQueue bk cur q))).getQueue qn).Jobs.map Job.Id).Perm _
    exact (ih _ qn).trans (processQueue_ids bk cur q qn)

-- ### Reap-phase helper lemmas

theorem findIndexOf_none_mem {id : Nat} :
    ∀ {l : List Job}, JobQueue.findIndexOf id l = none → ∀ x ∈ l, x.Id ≠ id := by
  intro l
  induction l with
  | nil => intro _ x hx; cases hx
  | cons a as ih =>
    intro h x hx
    unfold JobQueue.findIndexOf at h
    by_cases hp : (a.Id == id) = true
    · rw [if_pos hp] at h
      cases h
    · rw [if_neg hp] at h
      rcases List.mem_cons.mp hx with rfl | hxs
      · simpa using hp
      · cases ha : JobQueue.findIndexOf id as with
        | none => exact ih ha x hxs
        | some i => rw [ha] at h; cases h

theorem find?_eq_some_of_unique {l : List Job} {s : Job}
    (hmem : s ∈ l) (huniq : ∀ x ∈ l, (x.Id == s.Id) = true → x = s) :
    l.find? (fun j => j.Id == s.Id) = some s := by
  induction l with
  | nil => cases hmem
  | cons a as ih =>
    simp only [List.find?_cons]
    by_cases hp : (a.Id == s.Id) = true
    · rw [hp]
      exact congrArg some (huniq a (List.mem_cons_self a as) hp)
    · have hp' : (a.Id == s.Id) = false := by simpa using hp
      rw [hp']
      rcases List.mem_cons.mp hmem with rfl | hmas
      · exact absurd (by simp) hp
      · exact ih hmas (fun x hx => huniq x (List.mem_cons_of_mem a hx))

/-- In a list with pairwise-distinct ids, no survivor of `eraseP` on an id
test still carries that id. -/
theorem eraseP_id_gone {pid : Nat} :
    ∀ {l : List Job}, (l.map Job.Id).Nodup →
      ∀ x ∈ l.eraseP (fun j => j.Id == pid), x.Id ≠ pid := by
  intro l
  induction l with
  | nil => intro _ x hx; cases hx
  | cons a as ih =>
    intro hN x hx
    rw [List.map_cons, List.nodup_cons] at hN
    rw [List.eraseP_cons] at hx
    by_cases hp : (a.Id == pid) = true
    · rw [hp] at hx
      simp only [cond_true] at hx
      intro hxid
      have haid : a.Id = pid := by simpa using hp
      exact hN.1 (by rw [haid, ← hxid]; exact List.mem_map_of_mem Job.Id hx)
    · have hp' : (a.Id == pid) = false := by simpa using hp
      rw [hp'] at hx
      simp only [cond_false] at hx
      rcases List.mem_cons.mp hx with rfl | hxs
      · simpa using hp
      · exact ih hN.2 x hxs

theorem mem_allJobs {m : JobManager} {x : Job} :
    x ∈ m.allJobs ↔ ∃ qn, x ∈ (m.getQueue qn).Jobs := by
  unfold JobManager.allJobs
  simp only [List.mem_append]
  constructor
  · rintro ((h | h) | h)
    · exact ⟨QueueName.downloadQ, h⟩
    · exact ⟨QueueName.systemChangeQ, h⟩
    · exact ⟨QueueName.lockQ, h⟩
  · rintro ⟨qn, h⟩
    cases qn with
    | downloadQ => exact Or.inl (Or.inl h)
    | systemChangeQ => exact Or.inl (Or.inr h)
    | lockQ => exact Or.inr h

theorem getQueue_setChanged (m : JobManager) (c : Bool) (qn : QueueName) :
    ({ m with changed := c } : JobManager).getQueue qn = m.getQueue qn := by
  cases qn <;> rfl

theorem removeJob_ok (m : JobManager) (id : Nat) (qn : QueueName)
    (hany : (m.getQueue qn).Jobs.any (fun j => j.Id == id) = true) :
    (m.removeJob id qn).1 =
      { m.setQueue qn { m.getQueue qn with
          Jobs := sortJobs ((m.getQueue qn).Jobs.eraseP (fun j => j.Id == id)) }
        with changed := true } := by
  unfold JobManager.removeJob JobQueue.Remove
  rw [if_pos hany]

theorem addJob_ok (m : JobManager) (s : Job)
    (hc : (m.getQueue s.queueName).Jobs.any
      (fun job => job.ty == s.ty && job.fingerprint == s.fingerprint) = false) :
    (m.addJob s).1 =
      { m.setQueue s.queueName { m.getQueue s.queueName with
          Jobs := sortJobs ((m.getQueue s.queueName).Jobs ++ [s]) }
        with changed := true } := by
  unfold JobManager.addJob JobQueue.Add
  rw [hc]
  rfl

theorem reapOne_some {m : JobManager} {p s : Job} (hnext : p.next = some s) :
    JobManager.reapOne m p =
      ((((m.removeJob p.Id p.queueName).1.addJob s).1).MarkStart s.Id).1 := by
  unfold JobManager.reapOne
  rw [hnext]

theorem deadJobs_singleton {m : JobManager} {p : Job}
    (hOnly : ∀ qn, (m.getQueue qn).Jobs.filter (fun j => j.Status == JobStatus.endS) =
      if qn = p.queueName then [p] else []) :
    ∀ {ord : List QueueName}, ord.count p.queueName = 1 →
      JobManager.deadJobs m ord = [p] := by
  intro ord
  induction ord with
  | nil => intro h; cases h
  | cons a as ih =>
    intro hcount
    unfold JobManager.deadJobs at ih ⊢
    by_cases ha : a = p.queueName
    · have hzero : as.count p.queueName = 0 := by
        rw [ha, List.count_cons_self] at hcount
        omega
      have hrest : ∀ qn ∈ as, qn ≠ p.queueName := by
        intro qn hqn hcontra
        rw [List.count_eq_zero] at hzero
        exact hzero (hcontra ▸ hqn)
      have hnil : (as.map (fun qn => (m.getQueue qn).Jobs.filter
          (fun j => j.Status == JobStatus.endS))).flatten = [] := by
        rw [List.flatten_eq_nil_iff]
        intro l hl
        obtain ⟨qn, hqn, rfl⟩ := List.mem_map.mp hl
        rw [hOnly qn, if_neg (hrest qn hqn)]
      simp only [List.map_cons, List.flatten_cons, hOnly a, if_pos ha, hnil]
      simp
    · have hcount' : as.count p.queueName = 1 := by
        rwa [List.count_cons_of_ne (fun hc => ha hc.symm)] at hcount
      simp only [List.map_cons, List.flatten_cons, hOnly a, if_neg ha]
      rw [List.nil_append]
      exact ih hcount'

-- ### Transition into End and the successor field

theorem transition_endS_next {j j' : Job}
    (h : TransitionJobState j JobStatus.endS = Except.ok j') :
    (j.Status ≠ JobStatus.succeed → j'.next = none) ∧
    (j.Status = JobStatus.succeed → j'.next = j.next) := by
  unfold TransitionJobState at h
  by_cases hv : ValidTransitionJobState j.Status JobStatus.endS = true
  · rw [if_pos hv] at h
    by_cases hs : j.Status = JobStatus.succeed
    · rw [if_neg (by simp [hs])] at h
      cases h
      exact ⟨fun hc => absurd hs hc, fun _ => by simp⟩
    · rw [if_pos ⟨rfl, hs⟩] at h
      cases h
      exact ⟨fun _ => by simp, fun hc => absurd hc hs⟩
  · rw [if_neg hv] at h
    cases h

-- ### Per-queue id facts under the global distinct-ids hypothesis

theorem queue_ids_nodup {m : JobManager} (hN : idsNodup m) (qn : QueueName) :
    ((m.getQueue qn).Jobs.map Job.Id).Nodup := by
  unfold idsNodup at hN
  rw [allJobs_ids_eq, List.nodup_append] at hN
  obtain ⟨hAB, hC, _⟩ := hN
  rw [List.nodup_append] at hAB
  cases qn with
  | downloadQ => exact hAB.1
  | systemChangeQ => exact hAB.2.1
  | lockQ => exact hC

theorem queue_ids_disjoint {m : JobManager} (hN : idsNodup m) {qn qn' : QueueName}
    (h : qn ≠ qn') {x : Nat} (hx : x ∈ idsOf m qn) : x ∉ idsOf m qn' := by
  unfold idsNodup at hN
  rw [allJobs_ids_eq, List.nodup_append] at hN
  obtain ⟨hAB, _, hABC⟩ := hN
  rw [List.nodup_append] at hAB
  obtain ⟨_, _, hAvB⟩ := hAB
  intro hx'
  cases qn with
  | downloadQ =>
    cases qn' with
    | downloadQ => exact h rfl
    | systemChangeQ => exact hAvB hx hx'
    | lockQ => exact hABC (List.mem_append_left _ hx) hx'
  | systemChangeQ =>
    cases qn' with
    | downloadQ => exact hAvB hx' hx
    | systemChangeQ => exact h rfl
    | lockQ => exact hABC (List.mem_append_right _ hx) hx'
  | lockQ =>
    cases qn' with
    | downloadQ => exact hABC (List.mem_append_left _ hx') hx
    | systemChangeQ => exact hABC (List.mem_append_right _ hx') hx
    | lockQ => exact h rfl

-- ### Characterization of the guest de-duplication scan

theorem guestScan_none_iff {ty : JobType} {fp : String} :
    ∀ {l : List Job}, JobManager.guestScan ty fp l = none ↔
      ∀ j ∈ l, ¬ guestMatch ty fp j := by
  intro l
  induction l with
  | nil => simp [JobManager.guestScan]
  | cons j js ih =>
    unfold JobManager.guestScan
    by_cases hd : j.ty = ty ∧ j.fingerprint = fp
    · rw [if_pos hd]
      simp only [iff_false, reduceCtorEq, false_iff]
      intro hall
      exact hall j (List.mem_cons_self j js) (Or.inl hd)
    · rw [if_neg hd]
      cases hn : j.next with
      | none =>
        rw [ih]
        constructor
        · intro hall x hx
          rcases List.mem_cons.mp hx with rfl | hxs
          · intro hm
            rcases hm with hm | ⟨nx, hnx, _⟩
            · exact hd hm
            · rw [hn] at hnx; cases hnx
          · exact hall x hxs
        · intro hall x hx
          exact hall x (List.mem_cons_of_mem j hx)
      | some nx =>
        dsimp only
        by_cases hnm : nx.ty = ty ∧ nx.fingerprint = fp
        · rw [if_pos hnm]
          simp only [reduceCtorEq, false_iff]
          intro hall
          exact hall j (List.mem_cons_self j js) (Or.inr ⟨nx, hn, hnm⟩)
        · rw [if_neg hnm]
          rw [ih]
          constructor
          · intro hall x hx
            rcases List.mem_cons.mp hx with rfl | hxs
            · intro hm
              rcases hm with hm | ⟨nx', hnx', hm'⟩
              · exact hd hm
              · rw [hn] at hnx'
                cases hnx'
                exact hnm hm'
            · exact hall x hxs
          · intro hall x hx
            exact hall x (List.mem_cons_of_mem j hx)

theorem guestScan_some_of_unique {ty : JobType} {fp : String} {j₀ : Job} :
    ∀ {l : List Job}, j₀ ∈ l → guestMatch ty fp j₀ →
      (∀ j ∈ l, guestMatch ty fp j → j = j₀) →
      JobManager.guestScan ty fp l = some j₀.Id := by
  intro l
  induction l with
  | nil => intro h; cases h
  | cons j js ih =>
    intro hmem hm huniq
    unfold JobManager.guestScan
    by_cases hd : j.ty = ty ∧ j.fingerprint = fp
    · rw [if_pos hd]
      rw [huniq j (List.mem_cons_self j js) (Or.inl hd)]
    · rw [if_neg hd]
      cases hn : j.next with
      | none =>
        have hjm : ¬ guestMatch ty fp j := by
          intro hm'
          rcases hm' with hm' | ⟨nx, hnx, _⟩
          · exact hd hm'
          · rw [hn] at hnx; cases hnx
        have hj₀ : j₀ ∈ js := by
          rcases List.mem_cons.mp hmem with rfl | h
          · exact absurd hm hjm
          · exact h
        exact ih hj₀ hm (fun x hx => huniq x (List.mem_cons_of_mem j hx))
      | some nx =>
        dsimp only
        by_cases hnm : nx.ty = ty ∧ nx.fingerprint = fp
        · rw [if_pos hnm]
          rw [huniq j (List.mem_cons_self j js) (Or.inr ⟨nx, hn, hnm⟩)]
        · rw [if_neg hnm]
          have hjm : ¬ guestMatch ty fp j := by
            intro hm'
            rcases hm' with hm' | ⟨nx', hnx', hm''⟩
            · exact hd hm'
            · rw [hn] at hnx'
              cases hnx'
              exact hnm hm''
          have hj₀ : j₀ ∈ js := by
            rcases List.mem_cons.mp hmem with rfl | h
            · exact absurd hm hjm
            · exact h
          exact ih hj₀ hm (fun x hx => huniq x (List.mem_cons_of_mem j hx))

theorem guest_none_iff {m : JobManager} {ty : JobType} {pkgs : List String} :
    m.guest ty pkgs = none ↔
      ∀ j ∈ m.allJobs, ¬ guestMatch ty (fingerprintOf pkgs) j := by
  unfold JobManager.guest JobManager.List'
  rw [guestScan_none_iff]
  constructor
  · intro h j hj
    exact h j (mem_sortJobs.mpr hj)
  · intro h j hj
    exact h j (mem_sortJobs.mp hj)

theorem guest_some_of_unique {m : JobManager} {ty : JobType} {pkgs : List String}
    {jst : Job} (hmem : jst ∈ m.allJobs)
    (hm : guestMatch ty (fingerprintOf pkgs) jst)
    (huniq : ∀ j ∈ m.allJobs, guestMatch ty (fingerprintOf pkgs) j → j = jst) :
    m.guest ty pkgs = some jst.Id := by
  unfold JobManager.guest JobManager.List'
  exact guestScan_some_of_unique (mem_sortJobs.mpr hmem) hm
    (fun x hx => huniq x (mem_sortJobs.mp hx))

/-- With pairwise-distinct ids, `find` on a member's id returns that
member. -/
theorem find_of_nodup_mem {m : JobManager} (hN : idsNodup m) {jst : Job}
    (hmem : jst ∈ m.allJobs) : m.find jst.Id = some jst := by
  cases hfind : m.find jst.Id with
  | none =>
    unfold JobManager.find at hfind
    rw [List.find?_eq_none] at hfind
    exact absurd (by simp) (hfind jst hmem)
  | some x =>
    have hx : x ∈ m.allJobs := by
      unfold JobManager.find at hfind
      exact List.mem_of_find?_eq_some hfind
    have hxid : x.Id = jst.Id := by simpa using find_id_beq hfind
    rw [List.inj_on_of_nodup_map hN hx hmem hxid]

-- ### Facts about the construction switch of CreateJob

theorem buildJob_status (f : Nat) (name : String) (ty : JobType) (pkgs : List String) :
    (buildJob f name ty pkgs).1.Status = JobStatus.ready := by
  cases ty <;> rfl

theorem buildJob_id_lb (f : Nat) (name : String) (ty : JobType) (pkgs : List String) :
    f ≤ (buildJob f name ty pkgs).1.Id := by
  cases ty <;> simp [buildJob, NewJob, Job.setId, Job.setNext, Job.Id]

theorem buildJob_match (f : Nat) (name : String) (ty : JobType) (pkgs : List String)
    (hUS : ty = JobType.updateSource → pkgs = []) :
    guestMatch ty (fingerprintOf pkgs) (buildJob f name ty pkgs).1 := by
  cases ty with
  | install =>
    exact Or.inr ⟨NewJob (f + 1) name pkgs JobType.install QueueName.systemChangeQ
      (f + 1), rfl, rfl, rfl⟩
  | updateSource =>
    rw [hUS rfl]
    exact Or.inl ⟨rfl, rfl⟩
  | download => exact Or.inl ⟨rfl, rfl⟩
  | remove => exact Or.inl ⟨rfl, rfl⟩
  | update => exact Or.inl ⟨rfl, rfl⟩
  | distUpgrade => exact Or.inl ⟨rfl, rfl⟩

theorem transition_ready_eq {job j' : Job}
    (htr : TransitionJobState job JobStatus.ready = Except.ok j') :
    j' = job.setStatus JobStatus.ready := by
  unfold TransitionJobState at htr
  by_cases hv : ValidTransitionJobState job.Status JobStatus.ready = true
  · rw [if_pos hv, if_neg (by simp)] at htr
    cases htr
    rfl
  · rw [if_neg hv] at htr
    cases htr

/-- The replaced job itself is a member of the updated queue. -/
theorem update_mem_self (m : JobManager) (id : Nat) (f : Job → Job) (qn : QueueName)
    {x : Job} (hx : x ∈ (m.getQueue qn).Jobs) (hid : (x.Id == id) = true) :
    f x ∈ ((m.updateJobById id f).getQueue qn).Jobs := by
  rw [getQueue_update]
  have h2 : (fun j => if j.Id == id then f j else j) x = f x := by
    show (if (x.Id == id) = true then f x else x) = f x
    rw [if_pos hid]
  exact h2 ▸ List.mem_map_of_mem _ hx

-- ### Source-tracing and success facts for MarkStart

theorem raiseIn_src (m : JobManager) (qn' : QueueName) (id : Nat) (qn : QueueName)
    {x : Job} (hx : x ∈ (((m.raiseIn qn' id).1).getQueue qn).Jobs) :
    x ∈ (m.getQueue qn).Jobs := by
  cases hr : (m.getQueue qn').Raise id with
  | error e =>
    rw [raiseIn_eq_err hr] at hx
    exact hx
  | ok q' =>
    rw [raiseIn_eq_ok hr] at hx
    by_cases hq : qn = qn'
    · subst hq
      rw [getQueue_setQueue_self] at hx
      exact (raise_ok_spec hr).1.subset hx
    · rw [getQueue_setQueue_ne _ _ _ _ hq] at hx
      exact hx

/-- Every member of a queue after MarkStart is either an untouched member of
the same queue of the original state, or the Ready-transitioned copy of the
member that carried the id. -/
theorem markStart_qsrc {m : JobManager} (hN : idsNodup m) (id : Nat) (qn : QueueName)
    {x : Job} (hx : x ∈ (((m.MarkStart id).1).getQueue qn).Jobs) :
    x ∈ (m.getQueue qn).Jobs ∨
      ∃ y ∈ (m.getQueue qn).Jobs, (y.Id == id) = true ∧
        TransitionJobState y JobStatus.ready = Except.ok x := by
  cases hfind : m.find id with
  | none =>
    rw [markStart_eq_none hfind] at hx
    exact Or.inl hx
  | some job =>
    by_cases hst : job.Status = JobStatus.ready
    · rw [markStart_eq_ready hfind hst] at hx
      exact Or.inl (raiseIn_src m job.queueName id qn hx)
    · cases htr : TransitionJobState job JobStatus.ready with
      | error e =>
        rw [markStart_eq_transErr hfind hst htr] at hx
        exact Or.inl hx
      | ok j' =>
        rw [markStart_eq_transOk hfind hst htr] at hx
        have hx2 := raiseIn_src _ j'.queueName id qn hx
        rw [getQueue_update] at hx2
        obtain ⟨y, hy, hyx⟩ := List.mem_map.mp hx2
        by_cases hbeq : (y.Id == id) = true
        · rw [if_pos hbeq] at hyx
          have hyjob : y = job := by
            have hjm : job ∈ m.allJobs := by
              unfold JobManager.find at hfind
              exact List.mem_of_find?_eq_some hfind
            have hym : y ∈ m.allJobs := mem_allJobs.mpr ⟨qn, hy⟩
            have hyid : y.Id = job.Id := by
              have h1 : y.Id = id := by simpa using hbeq
              have h2 : job.Id = id := by simpa using find_id_beq hfind
              rw [h1, h2]
            exact List.inj_on_of_nodup_map hN hym hjm hyid
          refine Or.inr ⟨y, hy, hbeq, ?_⟩
          rw [hyjob, htr, hyx]
        · rw [if_neg hbeq] at hyx
          exact Or.inl (hyx ▸ hy)

theorem queueNameOK_markStart {m : JobManager} (hN : idsNodup m)
    (hqok : queueNameOK m) (id : Nat) : queueNameOK ((m.MarkStart id).1) := by
  intro qn x hx
  rcases markStart_qsrc hN id qn hx with hm | ⟨y, hy, _, htr⟩
  · exact hqok qn x hm
  · rw [transition_ready_eq htr]
    simpa using hqok qn y hy

theorem find_mem_own_queue {m : JobManager} (hqok : queueNameOK m) {id : Nat}
    {job : Job} (hfind : m.find id = some job) :
    job ∈ (m.getQueue job.queueName).Jobs := by
  have hm : job ∈ m.allJobs := by
    unfold JobManager.find at hfind
    exact List.mem_of_find?_eq_some hfind
  obtain ⟨qn, hq⟩ := mem_allJobs.mp hm
  have := hqok qn job hq
  rw [← this] at hq
  exact hq

/-- A successful MarkStart leaves a Ready copy of the found job (same id and
de-duplication data) among the top-level jobs. -/
theorem markStart_none_spec {m : JobManager} (hN : idsNodup m)
    (hqok : queueNameOK m) {id : Nat} {job : Job}
    (hfind : m.find id = some job) (he : (m.MarkStart id).2 = none) :
    ∃ jst ∈ ((m.MarkStart id).1).allJobs,
      jst.Id = job.Id ∧ jst.Status = JobStatus.ready ∧ jst.ty = job.ty ∧
      jst.fingerprint = job.fingerprint ∧ jst.next = job.next ∧
      jst.queueName = job.queueName := by
  by_cases hst : job.Status = JobStatus.ready
  · refine ⟨job, ?_, rfl, hst, rfl, rfl, rfl, rfl⟩
    rw [markStart_eq_ready hfind hst]
    exact mem_allJobs.mpr ⟨job.queueName,
      raiseIn_mem m job.queueName id job.queueName (find_mem_own_queue hqok hfind)⟩
  · cases htr : TransitionJobState job JobStatus.ready with
    | error e =>
      rw [markStart_eq_transErr hfind hst htr] at he
      cases he
    | ok j' =>
      have hj' := transition_ready_eq htr
      refine ⟨j', ?_, by rw [hj']; simp, by rw [hj']; simp, by rw [hj']; simp,
        by rw [hj']; simp, by rw [hj']; simp, by rw [hj']; simp⟩
      rw [markStart_eq_transOk hfind hst htr]
      have hjm : job ∈ (m.getQueue job.queueName).Jobs := find_mem_own_queue hqok hfind
      have hmem2 : j' ∈ ((m.updateJobById id (fun _ => j')).getQueue
          job.queueName).Jobs :=
        update_mem_self m id _ job.queueName hjm (find_id_beq hfind)
      exact mem_allJobs.mpr ⟨job.queueName,
        raiseIn_mem _ j'.queueName id job.queueName hmem2⟩

/-- MarkStart on a Ready job succeeds: no error, every queue length
unchanged, and the job's queue afterwards has an id-carrier at its head. -/
theorem markStart_ready_spec {m : JobManager} (hqok : queueNameOK m) {id : Nat}
    {jst : Job} (hfind : m.find id = some jst) (hready : jst.Status = JobStatus.ready) :
    (m.MarkStart id).2 = none ∧
    (∀ qn, (((m.MarkStart id).1).getQueue qn).Jobs.length =
      (m.getQueue qn).Jobs.length) ∧
    (∃ x, (((m.MarkStart id).1).getQueue jst.queueName).Jobs.get? 0 = some x ∧
      (x.Id == id) = true) := by
  have hjm : jst ∈ (m.getQueue jst.queueName).Jobs := find_mem_own_queue hqok hfind
  have hidx : ∃ idx, JobQueue.findIndexOf id (m.getQueue jst.queueName).Jobs =
      some idx := by
    cases h : JobQueue.findIndexOf id (m.getQueue jst.queueName).Jobs with
    | none =>
      exact absurd (by simpa using find_id_beq hfind)
        (findIndexOf_none_mem h jst hjm)
    | some idx => exact ⟨idx, rfl⟩
  obtain ⟨idx, hidx⟩ := hidx
  have hr_ok : (m.getQueue jst.queueName).Raise id = Except.ok
      { m.getQueue jst.queueName with
        Jobs := JobQueue.swapHead (m.getQueue jst.queueName).Jobs idx } := by
    unfold JobQueue.Raise
    rw [hidx]
  rw [markStart_eq_ready hfind hready, raiseIn_eq_ok hr_ok]
  refine ⟨rfl, ?_, ?_⟩
  · intro qn
    by_cases hq : qn = jst.queueName
    · subst hq
      rw [getQueue_setQueue_self]
      exact (swapHead_perm _ idx).length_eq
    · rw [getQueue_setQueue_ne _ _ _ _ hq]
  · obtain ⟨x, hx0, hxid⟩ := (raise_ok_spec hr_ok).2.2
    refine ⟨x, ?_, hxid⟩
    rw [getQueue_setQueue_self]
    exact hx0

theorem guestScan_some_mem {ty : JobType} {fp : String} :
    ∀ {l : List Job} {i : Nat}, JobManager.guestScan ty fp l = some i →
      ∃ j ∈ l, guestMatch ty fp j ∧ j.Id = i := by
  intro l
  induction l with
  | nil => intro i h; cases h
  | cons j js ih =>
    intro i h
    unfold JobManager.guestScan at h
    by_cases hd : j.ty = ty ∧ j.fingerprint = fp
    · rw [if_pos hd] at h
      cases h
      exact ⟨j, List.mem_cons_self j js, Or.inl hd, rfl⟩
    · rw [if_neg hd] at h
      cases hn : j.next with
      | none =>
        rw [hn] at h
        obtain ⟨x, hx, hm, hi⟩ := ih h
        exact ⟨x, List.mem_cons_of_mem j hx, hm, hi⟩
      | some nx =>
        rw [hn] at h
        dsimp only at h
        by_cases hnm : nx.ty = ty ∧ nx.fingerprint = fp
        · rw [if_pos hnm] at h
          cases h
          exact ⟨j, List.mem_cons_self j js, Or.inr ⟨nx, hn, hnm⟩, rfl⟩
        · rw [if_neg hnm] at h
          obtain ⟨x, hx, hm, hi⟩ := ih h
          exact ⟨x, List.mem_cons_of_mem j hx, hm, hi⟩

theorem guest_some_mem {m : JobManager} {ty : JobType} {pkgs : List String} {i : Nat}
    (h : m.guest ty pkgs = some i) :
    ∃ j ∈ m.allJobs, guestMatch ty (fingerprintOf pkgs) j ∧ j.Id = i := by
  unfold JobManager.guest JobManager.List' at h
  obtain ⟨j, hj, hm, hi⟩ := guestScan_some_mem h
  exact ⟨j, mem_sortJobs.mp hj, hm, hi⟩

-- ### CreateJob branch characterizations and admission facts

theorem createJob_hit {m : JobManager} (name : String) {ty : JobType}
    {pkgs : List String} {job : Job}
    (h : (m.guest ty pkgs).bind m.find = some job) :
    m.CreateJob name ty pkgs =
      ((m.MarkStart job.Id).1, some job, (m.MarkStart job.Id).2) := by
  unfold JobManager.CreateJob
  rw [h]

theorem createJob_miss {m : JobManager} (name : String) {ty : JobType}
    {pkgs : List String}
    (h : (m.guest ty pkgs).bind m.find = none) :
    m.CreateJob name ty pkgs =
      ((((({ m with fresh := (buildJob m.fresh name ty pkgs).2 }
            : JobManager).addJob
          (buildJob m.fresh name ty pkgs).1).1).MarkStart
          (buildJob m.fresh name ty pkgs).1.Id).1,
       some (buildJob m.fresh name ty pkgs).1,
       (((({ m with fresh := (buildJob m.fresh name ty pkgs).2 }
            : JobManager).addJob
          (buildJob m.fresh name ty pkgs).1).1).MarkStart
          (buildJob m.fresh name ty pkgs).1.Id).2) := by
  unfold JobManager.CreateJob
  rw [h]

/-- When the de-duplication scan comes up empty (either no guest hit, or a
dangling id that `find` cannot resolve), no top-level job matches the
request. -/
theorem createJob_no_match {m : JobManager} {ty : JobType} {pkgs : List String}
    (hbind : (m.guest ty pkgs).bind m.find = none) :
    ∀ j ∈ m.allJobs, ¬ guestMatch ty (fingerprintOf pkgs) j := by
  cases hg : m.guest ty pkgs with
  | none => exact guest_none_iff.mp hg
  | some gid =>
    intro j' hj' hm'
    rw [hg] at hbind
    obtain ⟨j, hj, hm, hid⟩ := guest_some_mem hg
    have hfind : m.find gid = none := hbind
    unfold JobManager.find at hfind
    rw [List.find?_eq_none] at hfind
    exact hfind j hj (by simp [hid])

theorem allIds_perm_of_queues {m' m : JobManager}
    (h : ∀ qn, (((m'.getQueue qn).Jobs).map Job.Id).Perm
      (((m.getQueue qn).Jobs).map Job.Id)) :
    ((m'.allJobs).map Job.Id).Perm ((m.allJobs).map Job.Id) := by
  unfold JobManager.allJobs
  simp only [List.map_append]
  exact ((h QueueName.downloadQ).append (h QueueName.systemChangeQ)).append
    (h QueueName.lockQ)

theorem idsNodup_markStart {m : JobManager} (hN : idsNodup m) (id : Nat) :
    idsNodup ((m.MarkStart id).1) := by
  unfold idsNodup at hN ⊢
  exact (allIds_perm_of_queues (fun qn => markStart_ids m id qn)).nodup_iff.mpr hN

theorem add_ok_inv {q : JobQueue} {j : Job} {q' : JobQueue}
    (h : q.Add j = Except.ok q') :
    q' = { q with Jobs := sortJobs (q.Jobs ++ [j]) } := by
  unfold JobQueue.Add at h
  by_cases hc : q.Jobs.any (fun job => job.ty == j.ty &&
      job.fingerprint == j.fingerprint) = true
  · rw [if_pos hc] at h
    cases h
  · rw [if_neg hc] at h
    cases h
    rfl

theorem transition_ready_ready_err {j : Job} (hst : j.Status = JobStatus.ready) :
    TransitionJobState j JobStatus.ready = Except.error Err.notSupport := by
  unfold TransitionJobState
  rw [hst]
  rfl

/-- Admitting a fresh Ready job and MarkStart-ing it: when the surfaced error
is none, the job is stored, it is the unique request-matcher, and the
well-formedness invariants survive.  (When `Add` rejects the job, `MarkStart`
on the unknown fresh id must report NotFound, contradicting the error-free
hypothesis — this is how admission success is derived.) -/
theorem addJob_markStart_post {m0 : JobManager} {ty : JobType}
    {pkgs : List String} {jn : Job}
    (hN : idsNodup m0) (hqok : queueNameOK m0)
    (hnew : ∀ x ∈ m0.allJobs, x.Id ≠ jn.Id)
    (hready : jn.Status = JobStatus.ready)
    (hmatch : guestMatch ty (fingerprintOf pkgs) jn)
    (hnomatch : ∀ j ∈ m0.allJobs, ¬ guestMatch ty (fingerprintOf pkgs) j)
    (he : (((m0.addJob jn).1).MarkStart jn.Id).2 = none) :
    idsNodup ((((m0.addJob jn).1).MarkStart jn.Id)).1 ∧
    queueNameOK ((((m0.addJob jn).1).MarkStart jn.Id)).1 ∧
    ∃ jst ∈ ((((m0.addJob jn).1).MarkStart jn.Id)).1.allJobs,
      jst.Id = jn.Id ∧ jst.Status = JobStatus.ready ∧
      guestMatch ty (fingerprintOf pkgs) jst ∧
      ∀ x ∈ ((((m0.addJob jn).1).MarkStart jn.Id)).1.allJobs,
        guestMatch ty (fingerprintOf pkgs) x → x = jst := by
  cases hAdd : (m0.getQueue jn.queueName).Add jn with
  | error e0 =>
    exfalso
    have haddeq : (m0.addJob jn).1 = m0 := by
      unfold JobManager.addJob
      rw [hAdd]
    rw [haddeq] at he
    have hfind0 : m0.find jn.Id = none := by
      unfold JobManager.find
      rw [List.find?_eq_none]
      intro x hx
      simpa using hnew x hx
    rw [markStart_eq_none hfind0] at he
    simp at he
  | ok q' =>
    have haddeq : (m0.addJob jn).1 =
        { m0.setQueue jn.queueName q' with changed := true } := by
      unfold JobManager.addJob
      rw [hAdd]
    have hq' : q' = { m0.getQueue jn.queueName with
        Jobs := sortJobs ((m0.getQueue jn.queueName).Jobs ++ [jn]) } :=
      add_ok_inv hAdd
    have hq2 : ∀ qn, ((m0.addJob jn).1.getQueue qn).Jobs =
        if qn = jn.queueName then
          sortJobs ((m0.getQueue jn.queueName).Jobs ++ [jn])
        else (m0.getQueue qn).Jobs := by
      intro qn
      rw [haddeq]
      by_cases hqn : qn = jn.queueName
      · rw [if_pos hqn, hqn, getQueue_setChanged, getQueue_setQueue_self, hq']
      · rw [if_neg hqn, getQueue_setChanged, getQueue_setQueue_ne _ _ _ _ hqn]
    have hsrc2 : ∀ qn, ∀ x ∈ ((m0.addJob jn).1.getQueue qn).Jobs,
        x ∈ (m0.getQueue qn).Jobs ∨ x = jn := by
      intro qn x hx
      rw [hq2 qn] at hx
      by_cases hqn : qn = jn.queueName
      · rw [if_pos hqn] at hx
        rcases List.mem_append.mp (mem_sortJobs.mp hx) with h | h
        · exact Or.inl (by rw [hqn]; exact h)
        · exact Or.inr (List.mem_singleton.mp h)
      · rw [if_neg hqn] at hx
        exact Or.inl hx
    have hjnmem2 : jn ∈ ((m0.addJob jn).1.getQueue jn.queueName).Jobs := by
      rw [hq2, if_pos rfl]
      exact mem_sortJobs.mpr (List.mem_append.mpr
        (Or.inr (List.mem_singleton.mpr rfl)))
    have hcount : ∀ a : Nat, ∀ qn,
        (((m0.addJob jn).1.getQueue qn).Jobs.map Job.Id).count a =
          ((m0.getQueue qn).Jobs.map Job.Id).count a +
            (if qn = jn.queueName then ([jn.Id].count a) else 0) := by
      intro a qn
      rw [hq2 qn]
      by_cases hqn : qn = jn.queueName
      · subst hqn
        rw [if_pos rfl, if_pos rfl]
        have hperm :
            ((sortJobs ((m0.getQueue jn.queueName).Jobs ++ [jn])).map Job.Id).Perm
              (((m0.getQueue jn.queueName).Jobs ++ [jn]).map Job.Id) :=
          (sortJobs_perm _).map Job.Id
        rw [hperm.count_eq, List.map_append, List.count_append]
        simp
      · rw [if_neg hqn, if_neg hqn]
        omega
    have hids2 : (((m0.addJob jn).1.allJobs).map Job.Id).Perm
        ((m0.allJobs).map Job.Id ++ [jn.Id]) := by
      rw [List.perm_iff_count]
      intro a
      rw [allJobs_ids_eq, allJobs_ids_eq, List.count_append]
      unfold idsOf
      simp only [List.count_append]
      rw [hcount a QueueName.downloadQ, hcount a QueueName.systemChangeQ,
        hcount a QueueName.lockQ]
      cases hqt : jn.queueName <;> simp <;> omega
    have hN2 : idsNodup (m0.addJob jn).1 := by
      unfold idsNodup at hN ⊢
      rw [hids2.nodup_iff, List.nodup_append]
      refine ⟨hN, List.nodup_singleton _, ?_⟩
      intro a ha hb
      rw [List.mem_singleton] at hb
      obtain ⟨x, hx, hxid⟩ := List.mem_map.mp ha
      exact hnew x hx (by rw [hxid, hb])
    have hqok2 : queueNameOK (m0.addJob jn).1 := by
      intro qn x hx
      rw [hq2 qn] at hx
      by_cases hqn : qn = jn.queueName
      · rw [if_pos hqn] at hx
        rcases List.mem_append.mp (mem_sortJobs.mp hx) with h | h
        · exact hqok qn x (by rw [hqn]; exact h)
        · rw [List.mem_singleton.mp h, hqn]
      · rw [if_neg hqn] at hx
        exact hqok qn x hx
    have hjnall2 : jn ∈ ((m0.addJob jn).1).allJobs :=
      mem_allJobs.mpr ⟨jn.queueName, hjnmem2⟩
    have hfind2 : ((m0.addJob jn).1).find jn.Id = some jn :=
      find_of_nodup_mem hN2 hjnall2
    have hms := markStart_eq_ready hfind2 hready
    have hN3 : idsNodup ((((m0.addJob jn).1).MarkStart jn.Id)).1 :=
      idsNodup_markStart hN2 jn.Id
    have hqok3 : queueNameOK ((((m0.addJob jn).1).MarkStart jn.Id)).1 :=
      queueNameOK_markStart hN2 hqok2 jn.Id
    have hjnmem3 : jn ∈ ((((m0.addJob jn).1).MarkStart jn.Id)).1.allJobs := by
      rw [hms]
      exact mem_allJobs.mpr ⟨jn.queueName,
        raiseIn_mem _ jn.queueName jn.Id jn.queueName hjnmem2⟩
    refine ⟨hN3, hqok3, jn, hjnmem3, rfl, hready, hmatch, ?_⟩
    intro x hxm hxmatch
    obtain ⟨qn, hxq⟩ := mem_allJobs.mp hxm
    rcases markStart_qsrc hN2 jn.Id qn hxq with hxold | ⟨y, hyq, hybeq, hytr⟩
    · rcases hsrc2 qn x hxold with hxm0 | hxjn
      · exact absurd hxmatch (hnomatch x (mem_allJobs.mpr ⟨qn, hxm0⟩))
      · exact hxjn
    · have hym2 : y ∈ ((m0.addJob jn).1).allJobs := mem_allJobs.mpr ⟨qn, hyq⟩
      have hyid : y.Id = jn.Id := by simpa using hybeq
      have hyjn : y = jn := List.inj_on_of_nodup_map hN2 hym2 hjnall2 hyid
      rw [hyjn, transition_ready_ready_err hready] at hytr
      cases hytr

/-- After an error-free CreateJob the resulting state holds a unique Ready
job matching the request and carrying the returned job's id, and the
well-formedness invariants survive. -/
theorem createJob_post {m : JobManager} (name : String) {ty : JobType}
    {pkgs : List String} {m1 : JobManager} {j1 : Job}
    (hN : idsNodup m) (hqok : queueNameOK m)
    (hfresh : ∀ x ∈ m.allJobs, x.Id < m.fresh)
    (hu : ∀ x ∈ m.allJobs, ∀ y ∈ m.allJobs, guestMatch ty (fingerprintOf pkgs) x →
      guestMatch ty (fingerprintOf pkgs) y → x = y)
    (hUS : ty = JobType.updateSource → pkgs = [])
    (h1 : m.CreateJob name ty pkgs = (m1, some j1, none)) :
    idsNodup m1 ∧ queueNameOK m1 ∧
    ∃ jst ∈ m1.allJobs, jst.Id = j1.Id ∧ jst.Status = JobStatus.ready ∧
      guestMatch ty (fingerprintOf pkgs) jst ∧
      ∀ x ∈ m1.allJobs, guestMatch ty (fingerprintOf pkgs) x → x = jst := by
  cases hbind : (m.guest ty pkgs).bind m.find with
  | some job =>
    rw [createJob_hit name hbind] at h1
    simp only [Prod.mk.injEq, Option.some.injEq] at h1
    obtain ⟨hm1, hjob, he⟩ := h1
    subst hjob
    subst hm1
    obtain ⟨gid, hg, hfindg⟩ :
        ∃ gid, m.guest ty pkgs = some gid ∧ m.find gid = some job := by
      cases hg : m.guest ty pkgs with
      | none =>
        rw [hg] at hbind
        simp at hbind
      | some gid =>
        rw [hg] at hbind
        exact ⟨gid, rfl, hbind⟩
    have hjm : job ∈ m.allJobs := by
      unfold JobManager.find at hfindg
      exact List.mem_of_find?_eq_some hfindg
    have hjid : job.Id = gid := by simpa using find_id_beq hfindg
    obtain ⟨jsc, hjscm, hjscmatch, hjscid⟩ := guest_some_mem hg
    have hjsceq : jsc = job :=
      List.inj_on_of_nodup_map hN hjscm hjm (by rw [hjscid, hjid])
    have hjmatch : guestMatch ty (fingerprintOf pkgs) job := hjsceq ▸ hjscmatch
    have hfind1 : m.find job.Id = some job := find_of_nodup_mem hN hjm
    have hN1 : idsNodup ((m.MarkStart job.Id).1) := idsNodup_markStart hN job.Id
    have hqok1 : queueNameOK ((m.MarkStart job.Id).1) :=
      queueNameOK_markStart hN hqok job.Id
    obtain ⟨jst, hjstm, hjstid, hjstready, hty, hfp, hnx, hqn⟩ :=
      markStart_none_spec hN hqok hfind1 he
    refine ⟨hN1, hqok1, jst, hjstm, hjstid, hjstready, ?_, ?_⟩
    · rcases hjmatch with ⟨h1a, h1b⟩ | ⟨nx, hnxeq, hnxty, hnxfp⟩
      · exact Or.inl ⟨by rw [hty, h1a], by rw [hfp, h1b]⟩
      · exact Or.inr ⟨nx, by rw [hnx, hnxeq], hnxty, hnxfp⟩
    · intro x hxm hxmatch
      obtain ⟨qn, hxq⟩ := mem_allJobs.mp hxm
      rcases markStart_qsrc hN job.Id qn hxq with hxold | ⟨y, hyq, hybeq, hytr⟩
      · have hxm0 : x ∈ m.allJobs := mem_allJobs.mpr ⟨qn, hxold⟩
        have hxj : x = job := hu x hxm0 job hjm hxmatch hjmatch
        exact List.inj_on_of_nodup_map hN1 hxm hjstm (by rw [hxj, hjstid])
      · have hyid : y.Id = job.Id := by simpa using hybeq
        have hxid : x.Id = jst.Id := by
          rw [transitionJobState_Id hytr, hyid, hjstid]
        exact List.inj_on_of_nodup_map hN1 hxm hjstm hxid
  | none =>
    rw [createJob_miss name hbind] at h1
    simp only [Prod.mk.injEq, Option.some.injEq] at h1
    obtain ⟨hm1, hj1eq, he⟩ := h1
    subst hj1eq
    subst hm1
    have hnomatch : ∀ j ∈ ({ m with fresh := (buildJob m.fresh name ty pkgs).2 }
        : JobManager).allJobs, ¬ guestMatch ty (fingerprintOf pkgs) j :=
      createJob_no_match hbind
    have hN0 : idsNodup ({ m with fresh := (buildJob m.fresh name ty pkgs).2 }
        : JobManager) := hN
    have hqok0 : queueNameOK ({ m with fresh := (buildJob m.fresh name ty pkgs).2 }
        : JobManager) := hqok
    have hnew : ∀ x ∈ ({ m with fresh := (buildJob m.fresh name ty pkgs).2 }
        : JobManager).allJobs, x.Id ≠ (buildJob m.fresh name ty pkgs).1.Id := by
      intro x hx
      have hlt : x.Id < m.fresh := hfresh x hx
      have hge := buildJob_id_lb m.fresh name ty pkgs
      omega
    exact addJob_markStart_post hN0 hqok0 hnew
      (buildJob_status m.fresh name ty pkgs)
      (buildJob_match m.fresh name ty pkgs hUS) hnomatch he

/-- C4: Idempotent submission (amended).  For a well-formed state — distinct
top-level ids, queueName-consistent jobs, all ids below the fresh counter, at
most one job matching the request, and (because CreateJob stores nil packages
for UpdateSource) an UpdateSource request carrying no packages — if a first
CreateJob returns a job with no error, then a second identical CreateJob
takes the de-duplication hit path: it returns a stored top-level job (never a
successor) with the first call's id, routes it through MarkStart (the Raise
promotion), surfaces no error, creates nothing (every queue's job count is
unchanged), and leaves a job with that id at the head of its queue. -/
theorem C4_idempotent_submission
    (m : JobManager) (name : String) (ty : JobType) (pkgs : List String)
    (hN : idsNodup m) (hqok : queueNameOK m)
    (hfresh : ∀ x ∈ m.allJobs, x.Id < m.fresh)
    (hu : ∀ x ∈ m.allJobs, ∀ y ∈ m.allJobs, guestMatch ty (fingerprintOf pkgs) x →
      guestMatch ty (fingerprintOf pkgs) y → x = y)
    (hUS : ty = JobType.updateSource → pkgs = [])
    {m1 : JobManager} {j1 : Job}
    (h1 : m.CreateJob name ty pkgs = (m1, some j1, none)) :
    ∃ j2 : Job, j2 ∈ m1.allJobs ∧ j2.Id = j1.Id ∧
      m1.CreateJob name ty pkgs = ((m1.MarkStart j2.Id).1, some j2, none) ∧
      (∀ qn, (((m1.CreateJob name ty pkgs).1).getQueue qn).Jobs.length =
        ((m1.getQueue qn).Jobs.length)) ∧
      ∃ x, (((m1.CreateJob name ty pkgs).1).getQueue j2.queueName).Jobs.get? 0 =
        some x ∧ x.Id = j1.Id := by
  obtain ⟨hN1, hqok1, jst, hjstm, hjstid, hjstready, hjstmatch, huniq⟩ :=
    createJob_post name hN hqok hfresh hu hUS h1
  have hg2 : m1.guest ty pkgs = some jst.Id :=
    guest_some_of_unique hjstm hjstmatch huniq
  have hfind2 : m1.find jst.Id = some jst := find_of_nodup_mem hN1 hjstm
  have hbind2 : (m1.guest ty pkgs).bind m1.find = some jst := by
    rw [hg2]
    exact hfind2
  obtain ⟨he2, hlen2, x0, hx0, hx0id⟩ :=
    markStart_ready_spec hqok1 hfind2 hjstready
  refine ⟨jst, hjstm, hjstid, ?_, ?_, ?_⟩
  · rw [createJob_hit name hbind2, he2]
  · intro qn
    rw [createJob_hit name hbind2]
    exact hlen2 qn
  · refine ⟨x0, ?_, ?_⟩
    · rw [createJob_hit name hbind2]
      exact hx0
    · rw [← hjstid]
      simpa using hx0id

theorem C4_idempotent_submission_witness :
    ∃ j2 : Job,
      j2 ∈ ((emptyMgr.CreateJob "n" JobType.download ["a"]).1).allJobs ∧
      j2.Id = 0 ∧
      ((emptyMgr.CreateJob "n" JobType.download ["a"]).1).CreateJob "n"
          JobType.download ["a"] =
        ((((emptyMgr.CreateJob "n" JobType.download ["a"]).1).MarkStart j2.Id).1,
         some j2, none) ∧
      (∀ qn, (((((emptyMgr.CreateJob "n" JobType.download ["a"]).1).CreateJob "n"
          JobType.download ["a"]).1).getQueue qn).Jobs.length =
        ((((emptyMgr.CreateJob "n" JobType.download ["a"]).1).getQueue
          qn).Jobs.length)) ∧
      ∃ x, (((((emptyMgr.CreateJob "n" JobType.download ["a"]).1).CreateJob "n"
          JobType.download ["a"]).1).getQueue j2.queueName).Jobs.get? 0 =
        some x ∧ x.Id = 0 := by
  have hN : idsNodup emptyMgr := by
    unfold idsNodup
    decide
  have hqok : queueNameOK emptyMgr := by
    intro qn j hj
    cases qn <;> cases hj
  have hfresh : ∀ x ∈ emptyMgr.allJobs, x.Id < emptyMgr.fresh := by
    intro x hx
    cases hx
  have hu : ∀ x ∈ emptyMgr.allJobs, ∀ y ∈ emptyMgr.allJobs,
      guestMatch JobType.download (fingerprintOf ["a"]) x →
      guestMatch JobType.download (fingerprintOf ["a"]) y → x = y := by
    intro x hx
    cases hx
  have hUS : JobType.download = JobType.updateSource → (["a"] : List String) = [] := by
    intro h
    cases h
  have h1 : emptyMgr.CreateJob "n" JobType.download ["a"] =
      ((emptyMgr.CreateJob "n" JobType.download ["a"]).1,
       some (NewJob 0 "n" ["a"] JobType.download QueueName.downloadQ 0), none) := rfl
  exact C4_idempotent_submission emptyMgr "n" JobType.download ["a"]
    hN hqok hfresh hu hUS h1

-- ### Counting and membership preservation through reap steps

theorem countP_sortJobs (pr : Job → Bool) (l : List Job) :
    (sortJobs l).countP pr = l.countP pr :=
  (sortJobs_perm l).countP_eq pr

theorem countP_eraseP_ne {qf pr : Job → Bool}
    (h : ∀ x : Job, qf x = true → pr x = false) :
    ∀ l : List Job, (l.eraseP qf).countP pr = l.countP pr := by
  intro l
  induction l with
  | nil => rfl
  | cons a l ih =>
    rw [List.eraseP_cons]
    by_cases ha : qf a = true
    · rw [ha]
      simp only [cond_true]
      rw [List.countP_cons, h a ha]
      simp
    · rw [Bool.not_eq_true] at ha
      rw [ha]
      simp only [cond_false]
      rw [List.countP_cons, List.countP_cons, ih]

theorem countP_eraseP_dec {qf : Job → Bool} :
    ∀ {l : List Job}, 0 < l.countP qf →
      (l.eraseP qf).countP qf = l.countP qf - 1 := by
  intro l
  induction l with
  | nil => intro h; simp at h
  | cons a l ih =>
    intro hpos
    rw [List.eraseP_cons]
    by_cases ha : qf a = true
    · rw [ha]
      simp only [cond_true]
      rw [List.countP_cons, ha]
      simp
    · rw [Bool.not_eq_true] at ha
      rw [ha]
      simp only [cond_false]
      rw [List.countP_cons, ha] at hpos
      simp only [if_neg (by simp : ¬(false = true))] at hpos
      rw [List.countP_cons, List.countP_cons, ha, ih (by omega)]
      simp only [if_neg (by simp : ¬(false = true))]
      omega

theorem countP_id_le_one {t : Nat} :
    ∀ {l : List Job}, (l.map Job.Id).Nodup →
      l.countP (fun j => j.Id == t) ≤ 1 := by
  intro l
  induction l with
  | nil => intro _; simp
  | cons a l ih =>
    intro hN
    rw [List.map_cons, List.nodup_cons] at hN
    rw [List.countP_cons]
    by_cases ha : (a.Id == t) = true
    · rw [ha]
      have hz : l.countP (fun j => j.Id == t) = 0 := by
        rw [List.countP_eq_zero]
        intro x hx hxt
        have h1 : x.Id = t := by simpa using hxt
        have h2 : a.Id = t := by simpa using ha
        exact hN.1 (by rw [h2, ← h1]; exact List.mem_map_of_mem Job.Id hx)
      rw [hz]
      simp
    · rw [Bool.not_eq_true] at ha
      rw [ha]
      simp only [if_neg (by simp : ¬(false = true)), Nat.add_zero]
      exact ih hN.2

theorem remove_ok_inv {q : JobQueue} {id : Nat} {q' : JobQueue}
    (h : q.Remove id = Except.ok q') :
    q' = { q with Jobs := sortJobs (q.Jobs.eraseP (fun j => j.Id == id)) } := by
  unfold JobQueue.Remove at h
  by_cases hc : q.Jobs.any (fun j => j.Id == id) = true
  · rw [if_pos hc] at h
    cases h
    rfl
  · rw [if_neg hc] at h
    cases h

theorem removeJob_cases (m : JobManager) (id : Nat) (qn' : QueueName) :
    (m.removeJob id qn').1 = m ∨
    (∀ qn, (((m.removeJob id qn').1).getQueue qn).Jobs =
      if qn = qn' then
        sortJobs ((m.getQueue qn').Jobs.eraseP (fun j => j.Id == id))
      else (m.getQueue qn).Jobs) := by
  cases hrem : (m.getQueue qn').Remove id with
  | error e =>
    left
    unfold JobManager.removeJob
    rw [hrem]
  | ok q' =>
    right
    intro qn
    have he : (m.removeJob id qn').1 =
        { m.setQueue qn' q' with changed := true } := by
      unfold JobManager.removeJob
      rw [hrem]
    rw [he, getQueue_setChanged]
    by_cases hq : qn = qn'
    · rw [if_pos hq, hq, getQueue_setQueue_self, remove_ok_inv hrem]
    · rw [if_neg hq, getQueue_setQueue_ne _ _ _ _ hq]

theorem removeJob_countP (m : JobManager) (id : Nat) (qn' : QueueName) {t : Nat}
    (ht : id ≠ t) (qn : QueueName) :
    (((m.removeJob id qn').1).getQueue qn).Jobs.countP (fun j => j.Id == t) =
      ((m.getQueue qn).Jobs).countP (fun j => j.Id == t) := by
  rcases removeJob_cases m id qn' with h | h
  · rw [h]
  · rw [h qn]
    by_cases hq : qn = qn'
    · have hcond : ∀ x : Job, (x.Id == id) = true → (x.Id == t) = false := by
        intro x hx
        have h1 : x.Id = id := by simpa using hx
        rw [h1]
        simpa using ht
      rw [if_pos hq, hq, countP_sortJobs, countP_eraseP_ne hcond]
    · rw [if_neg hq]

theorem removeJob_memP (m : JobManager) (id : Nat) (qn' : QueueName) (qn : QueueName)
    {x : Job} (hx : x ∈ (m.getQueue qn).Jobs) (hne : x.Id ≠ id) :
    x ∈ (((m.removeJob id qn').1).getQueue qn).Jobs := by
  rcases removeJob_cases m id qn' with h | h
  · rw [h]
    exact hx
  · rw [h qn]
    by_cases hq : qn = qn'
    · rw [if_pos hq, mem_sortJobs, List.mem_eraseP_of_neg (by simpa using hne)]
      rw [← hq]
      exact hx
    · rw [if_neg hq]
      exact hx

theorem removeJob_src (m : JobManager) (id : Nat) (qn' : QueueName) (qn : QueueName)
    {x : Job} (hx : x ∈ (((m.removeJob id qn').1).getQueue qn).Jobs) :
    x ∈ (m.getQueue qn).Jobs := by
  rcases removeJob_cases m id qn' with h | h
  · rw [h] at hx
    exact hx
  · rw [h qn] at hx
    by_cases hq : qn = qn'
    · rw [if_pos hq] at hx
      have h2 := (List.eraseP_sublist _).subset (mem_sortJobs.mp hx)
      rw [hq]
      exact h2
    · rw [if_neg hq] at hx
      exact hx

theorem addJob_cases (m : JobManager) (j : Job) :
    (m.addJob j).1 = m ∨
    (∀ qn, (((m.addJob j).1).getQueue qn).Jobs =
      if qn = j.queueName then sortJobs ((m.getQueue j.queueName).Jobs ++ [j])
      else (m.getQueue qn).Jobs) := by
  cases hAdd : (m.getQueue j.queueName).Add j with
  | error e =>
    left
    unfold JobManager.addJob
    rw [hAdd]
  | ok q' =>
    right
    intro qn
    have he : (m.addJob j).1 = { m.setQueue j.queueName q' with changed := true } := by
      unfold JobManager.addJob
      rw [hAdd]
    rw [he, getQueue_setChanged]
    by_cases hq : qn = j.queueName
    · rw [if_pos hq, hq, getQueue_setQueue_self, add_ok_inv hAdd]
    · rw [if_neg hq, getQueue_setQueue_ne _ _ _ _ hq]

theorem addJob_countP (m : JobManager) (j : Job) {t : Nat} (ht : j.Id ≠ t)
    (qn : QueueName) :
    (((m.addJob j).1).getQueue qn).Jobs.countP (fun x => x.Id == t) =
      ((m.getQueue qn).Jobs).countP (fun x => x.Id == t) := by
  rcases addJob_cases m j with h | h
  · rw [h]
  · rw [h qn]
    by_cases hq : qn = j.queueName
    · rw [if_pos hq, countP_sortJobs, List.countP_append, hq]
      have hz : ([j].countP (fun x => x.Id == t)) = 0 := by
        rw [List.countP_cons, List.countP_nil]
        simp only [Nat.zero_add]
        rw [if_neg (by simpa using ht)]
      rw [hz]
      omega
    · rw [if_neg hq]

theorem addJob_memP (m : JobManager) (j : Job) (qn : QueueName) {x : Job}
    (hx : x ∈ (m.getQueue qn).Jobs) : x ∈ (((m.addJob j).1).getQueue qn).Jobs := by
  rcases addJob_cases m j with h | h
  · rw [h]
    exact hx
  · rw [h qn]
    by_cases hq : qn = j.queueName
    · rw [if_pos hq, mem_sortJobs]
      refine List.mem_append_left _ ?_
      rw [← hq]
      exact hx
    · rw [if_neg hq]
      exact hx

theorem addJob_src (m : JobManager) (j : Job) (qn : QueueName) {x : Job}
    (hx : x ∈ (((m.addJob j).1).getQueue qn).Jobs) :
    x ∈ (m.getQueue qn).Jobs ∨ x = j := by
  rcases addJob_cases m j with h | h
  · rw [h] at hx
    exact Or.inl hx
  · rw [h qn] at hx
    by_cases hq : qn = j.queueName
    · rw [if_pos hq] at hx
      rcases List.mem_append.mp (mem_sortJobs.mp hx) with h1 | h1
      · refine Or.inl ?_
        rw [hq]
        exact h1
      · exact Or.inr (List.mem_singleton.mp h1)
    · rw [if_neg hq] at hx
      exact Or.inl hx

theorem raiseIn_jobs_perm (m : JobManager) (qn' : QueueName) (id : Nat)
    (qn : QueueName) :
    (((m.raiseIn qn' id).1).getQueue qn).Jobs.Perm ((m.getQueue qn).Jobs) := by
  cases hr : (m.getQueue qn').Raise id with
  | error e =>
    rw [raiseIn_eq_err hr]
  | ok q' =>
    rw [raiseIn_eq_ok hr]
    by_cases hq : qn = qn'
    · subst hq
      rw [getQueue_setQueue_self]
      exact (raise_ok_spec hr).1
    · rw [getQueue_setQueue_ne _ _ _ _ hq]

theorem markStart_countP (m : JobManager) (id : Nat) {t : Nat} (ht : id ≠ t)
    (qn : QueueName) :
    (((m.MarkStart id).1).getQueue qn).Jobs.countP (fun j => j.Id == t) =
      ((m.getQueue qn).Jobs).countP (fun j => j.Id == t) := by
  cases hfind : m.find id with
  | none => rw [markStart_eq_none hfind]
  | some job =>
    by_cases hst : job.Status = JobStatus.ready
    · rw [markStart_eq_ready hfind hst]
      exact (raiseIn_jobs_perm m job.queueName id qn).countP_eq _
    · cases htr : TransitionJobState job JobStatus.ready with
      | error e => rw [markStart_eq_transErr hfind hst htr]
      | ok j' =>
        rw [markStart_eq_transOk hfind hst htr]
        refine ((raiseIn_jobs_perm _ j'.queueName id qn).countP_eq _).trans ?_
        rw [getQueue_update, List.countP_map]
        refine List.countP_congr ?_
        intro x hx
        by_cases hxid : (x.Id == id) = true
        · have hj'id : j'.Id = id := by
            rw [transitionJobState_Id htr]
            simpa using find_id_beq hfind
          have hxid' : x.Id = id := by simpa using hxid
          constructor
          · intro hcomp
            exfalso
            simp only [Function.comp] at hcomp
            rw [if_pos hxid] at hcomp
            have h2 : j'.Id = t := by simpa using hcomp
            exact ht (by rw [← hj'id]; exact h2)
          · intro hpr
            exfalso
            have h2 : x.Id = t := by simpa using hpr
            exact ht (by rw [← hxid']; exact h2)
        · simp only [Function.comp]
          rw [if_neg hxid]

theorem markStart_src (m : JobManager) (id : Nat) (qn : QueueName) {x : Job}
    (hx : x ∈ (((m.MarkStart id).1).getQueue qn).Jobs) :
    x ∈ (m.getQueue qn).Jobs ∨
    ∃ job, m.find id = some job ∧
      TransitionJobState job JobStatus.ready = Except.ok x := by
  cases hfind : m.find id with
  | none =>
    rw [markStart_eq_none hfind] at hx
    exact Or.inl hx
  | some job =>
    by_cases hst : job.Status = JobStatus.ready
    · rw [markStart_eq_ready hfind hst] at hx
      exact Or.inl (raiseIn_src m job.queueName id qn hx)
    · cases htr : TransitionJobState job JobStatus.ready with
      | error e =>
        rw [markStart_eq_transErr hfind hst htr] at hx
        exact Or.inl hx
      | ok j' =>
        rw [markStart_eq_transOk hfind hst htr] at hx
        have hx2 := raiseIn_src _ j'.queueName id qn hx
        rw [getQueue_update] at hx2
        obtain ⟨y, hy, hyx⟩ := List.mem_map.mp hx2
        by_cases hbeq : (y.Id == id) = true
        · rw [if_pos hbeq] at hyx
          exact Or.inr ⟨job, rfl, by rw [htr, hyx]⟩
        · rw [if_neg hbeq] at hyx
          exact Or.inl (hyx ▸ hy)

theorem reapOne_none {m : JobManager} {q : Job} (hn : q.next = none) :
    JobManager.reapOne m q = (m.removeJob q.Id q.queueName).1 := by
  unfold JobManager.reapOne
  rw [hn]

theorem reapOne_countP (mc : JobManager) (q : Job) {t : Nat} (hq : q.Id ≠ t)
    (hs : ∀ s', q.next = some s' → s'.Id ≠ t) (qn : QueueName) :
    ((JobManager.reapOne mc q).getQueue qn).Jobs.countP (fun j => j.Id == t) =
      ((mc.getQueue qn).Jobs).countP (fun j => j.Id == t) := by
  cases hn : q.next with
  | none =>
    rw [reapOne_none hn]
    exact removeJob_countP mc q.Id q.queueName hq qn
  | some s' =>
    rw [reapOne_some hn]
    rw [markStart_countP _ s'.Id (hs s' hn) qn]
    rw [addJob_countP _ s' (hs s' hn) qn]
    exact removeJob_countP mc q.Id q.queueName hq qn

theorem reapOne_memP (mc : JobManager) (q : Job) (qn : QueueName) {x : Job}
    (hx : x ∈ (mc.getQueue qn).Jobs) (h1 : x.Id ≠ q.Id)
    (h2 : ∀ s', q.next = some s' → x.Id ≠ s'.Id) :
    x ∈ ((JobManager.reapOne mc q).getQueue qn).Jobs := by
  cases hn : q.next with
  | none =>
    rw [reapOne_none hn]
    exact removeJob_memP mc q.Id q.queueName qn hx h1
  | some s' =>
    rw [reapOne_some hn]
    exact markStart_mem _ s'.Id qn
      (addJob_memP _ s' qn (removeJob_memP mc q.Id q.queueName qn hx h1))
      (h2 s' hn)

theorem reapOne_src (mc : JobManager) (q : Job) (qn : QueueName) {x : Job}
    (hx : x ∈ ((JobManager.reapOne mc q).getQueue qn).Jobs) :
    x ∈ (mc.getQueue qn).Jobs ∨
    (∃ s', q.next = some s' ∧ x = s') ∨
    (∃ s' job, q.next = some s' ∧ x = job.setStatus JobStatus.ready ∧
      job.Id = s'.Id ∧ (job ∈ mc.allJobs ∨ job = s')) := by
  cases hn : q.next with
  | none =>
    rw [reapOne_none hn] at hx
    exact Or.inl (removeJob_src mc q.Id q.queueName qn hx)
  | some s' =>
    rw [reapOne_some hn] at hx
    rcases markStart_src _ s'.Id qn hx with h1 | ⟨job, hfind, htr⟩
    · rcases addJob_src _ s' qn h1 with h2 | h2
      · exact Or.inl (removeJob_src mc q.Id q.queueName qn h2)
      · exact Or.inr (Or.inl ⟨s', rfl, h2⟩)
    · have hxeq : x = job.setStatus JobStatus.ready := transition_ready_eq htr
      have hjid : job.Id = s'.Id := by simpa using find_id_beq hfind
      have hjmem : job ∈ (((mc.removeJob q.Id q.queueName).1.addJob s').1).allJobs := by
        unfold JobManager.find at hfind
        exact List.mem_of_find?_eq_some hfind
      obtain ⟨qn2, hq2⟩ := mem_allJobs.mp hjmem
      rcases addJob_src _ s' qn2 hq2 with h3 | h3
      · exact Or.inr (Or.inr ⟨s', job, rfl, hxeq, hjid,
          Or.inl (mem_allJobs.mpr ⟨qn2, removeJob_src mc q.Id q.queueName qn2 h3⟩)⟩)
      · exact Or.inr (Or.inr ⟨s', job, rfl, hxeq, hjid, Or.inr h3⟩)

theorem foldReap_countP {t : Nat} :
    ∀ (L : List Job) (mc : JobManager),
      (∀ q ∈ L, q.Id ≠ t ∧ ∀ s', q.next = some s' → s'.Id ≠ t) →
      ∀ qn, ((L.foldl JobManager.reapOne mc).getQueue qn).Jobs.countP
          (fun j => j.Id == t) =
        ((mc.getQueue qn).Jobs).countP (fun j => j.Id == t) := by
  intro L
  induction L with
  | nil => intro mc _ qn; rfl
  | cons q L ih =>
    intro mc hL qn
    rw [List.foldl_cons]
    rw [ih (JobManager.reapOne mc q) (fun x hx => hL x (List.mem_cons_of_mem q hx)) qn]
    exact reapOne_countP mc q (hL q (List.mem_cons_self q L)).1
      (hL q (List.mem_cons_self q L)).2 qn

theorem foldReap_memP {s : Job} :
    ∀ (L : List Job) (mc : JobManager),
      (∀ q ∈ L, s.Id ≠ q.Id ∧ ∀ s', q.next = some s' → s.Id ≠ s'.Id) →
      ∀ qn, s ∈ (mc.getQueue qn).Jobs →
        s ∈ ((L.foldl JobManager.reapOne mc).getQueue qn).Jobs := by
  intro L
  induction L with
  | nil => intro mc _ qn hx; exact hx
  | cons q L ih =>
    intro mc hL qn hx
    rw [List.foldl_cons]
    exact ih (JobManager.reapOne mc q)
      (fun x hxm => hL x (List.mem_cons_of_mem q hxm)) qn
      (reapOne_memP mc q qn hx (hL q (List.mem_cons_self q L)).1
        (hL q (List.mem_cons_self q L)).2)


-- ### The reap invariant up to the predecessor's own reap

theorem reapInv_step {p s : Job} {mc : JobManager} {q : Job}
    (hq1 : q.Id ≠ p.Id) (hq2 : q.Id ≠ s.Id)
    (hq3 : ∀ s', q.next = some s' → s'.Id ≠ p.Id ∧ s'.Id ≠ s.Id ∧
      ¬(s'.ty = s.ty ∧ s'.fingerprint = s.fingerprint))
    (hI : reapInv p s mc) : reapInv p s (JobManager.reapOne mc q) := by
  obtain ⟨h1, h2, h3, h4, h5⟩ := hI
  refine ⟨?_, ?_, ?_, ?_, ?_⟩
  · rw [reapOne_countP mc q hq1 (fun s' hn => (hq3 s' hn).1) p.queueName]
    exact h1
  · exact reapOne_memP mc q p.queueName h2 (Ne.symm hq1)
      (fun s' hn => Ne.symm (hq3 s' hn).1)
  · intro qn hqn
    rw [reapOne_countP mc q hq1 (fun s' hn => (hq3 s' hn).1) qn]
    exact h3 qn hqn
  · intro x hxm hxid
    obtain ⟨qn, hxq⟩ := mem_allJobs.mp hxm
    rcases reapOne_src mc q qn hxq with hold | ⟨s', hn, rfl⟩ |
      ⟨s', job, hn, rfl, hjid, hjsrc⟩
    · exact h4 x (mem_allJobs.mpr ⟨qn, hold⟩) hxid
    · exact absurd hxid (hq3 x hn).2.1
    · exfalso
      have hxi : job.Id = s.Id := by simpa using hxid
      rw [hjid] at hxi
      exact (hq3 s' hn).2.1 hxi
  · intro x hxm hxnp hconf
    obtain ⟨qn, hxq⟩ := mem_allJobs.mp hxm
    rcases reapOne_src mc q qn hxq with hold | ⟨s', hn, rfl⟩ |
      ⟨s', job, hn, rfl, hjid, hjsrc⟩
    · exact h5 x (mem_allJobs.mpr ⟨qn, hold⟩) hxnp hconf
    · exact (hq3 x hn).2.2 hconf
    · have hconfj : job.ty = s.ty ∧ job.fingerprint = s.fingerprint := by
        refine ⟨?_, ?_⟩
        · have h6 := hconf.1
          simpa using h6
        · have h6 := hconf.2
          simpa using h6
      rcases hjsrc with hjm | hjeq
      · have hjnp : job.Id ≠ p.Id := by
          rw [hjid]
          exact (hq3 s' hn).1
        exact h5 job hjm hjnp hconfj
      · rw [hjeq] at hconfj
        exact (hq3 s' hn).2.2 hconfj

theorem reapInv_fold {p s : Job} :
    ∀ (L : List Job) (mc : JobManager),
      (∀ q ∈ L, q.Id ≠ p.Id ∧ q.Id ≠ s.Id ∧ ∀ s', q.next = some s' →
        s'.Id ≠ p.Id ∧ s'.Id ≠ s.Id ∧
        ¬(s'.ty = s.ty ∧ s'.fingerprint = s.fingerprint)) →
      reapInv p s mc → reapInv p s (L.foldl JobManager.reapOne mc) := by
  intro L
  induction L with
  | nil => intro mc _ hI; exact hI
  | cons q L ih =>
    intro mc hL hI
    rw [List.foldl_cons]
    exact ih _ (fun x hx => hL x (List.mem_cons_of_mem q hx))
      (reapInv_step (hL q (List.mem_cons_self q L)).1
        (hL q (List.mem_cons_self q L)).2.1
        (hL q (List.mem_cons_self q L)).2.2 hI)

/-- Reaping the predecessor under the invariant: its successor ends up at the
head of its own queue, present exactly once by id, and the predecessor is
gone from the manager. -/
theorem reapOne_promotes (p s : Job) (mc : JobManager)
    (hnext : p.next = some s) (hsst : s.Status = JobStatus.ready)
    (hpend : p.Status = JobStatus.endS)
    (hI : reapInv p s mc) :
    ((JobManager.reapOne mc p).getQueue s.queueName).Jobs.get? 0 = some s ∧
    ((JobManager.reapOne mc p).getQueue s.queueName).Jobs.countP
      (fun j => j.Id == s.Id) = 1 ∧
    p ∉ (JobManager.reapOne mc p).allJobs := by
  obtain ⟨h1, h2, h3, h4, h5⟩ := hI
  rw [reapOne_some hnext]
  have hany : (mc.getQueue p.queueName).Jobs.any (fun j => j.Id == p.Id) = true :=
    List.any_eq_true.mpr ⟨p, h2, by simp⟩
  have hm1nop : ∀ qn, (((mc.removeJob p.Id p.queueName).1).getQueue qn).Jobs.countP
      (fun j => j.Id == p.Id) = 0 := by
    intro qn
    rw [removeJob_ok mc p.Id p.queueName hany, getQueue_setChanged]
    by_cases hq : qn = p.queueName
    · rw [hq, getQueue_setQueue_self]
      dsimp only
      rw [countP_sortJobs, countP_eraseP_dec (by rw [h1]; omega), h1]
    · rw [getQueue_setQueue_ne _ _ _ _ hq]
      exact h3 qn hq
  have hm1src' : ∀ qn, ∀ x ∈ (((mc.removeJob p.Id p.queueName).1).getQueue qn).Jobs,
      x ∈ (mc.getQueue qn).Jobs :=
    fun qn x hx => removeJob_src mc p.Id p.queueName qn hx
  have hm1nos : ∀ qn, ∀ x ∈ (((mc.removeJob p.Id p.queueName).1).getQueue qn).Jobs,
      x.Id ≠ s.Id := by
    intro qn x hx hxs
    have hxp : x = p := h4 x (mem_allJobs.mpr ⟨qn, hm1src' qn x hx⟩) hxs
    have hz := hm1nop qn
    rw [List.countP_eq_zero] at hz
    exact hz x hx (by rw [hxp]; simp)
  have hconf1 : (((mc.removeJob p.Id p.queueName).1).getQueue s.queueName).Jobs.any
      (fun job => job.ty == s.ty && job.fingerprint == s.fingerprint) = false := by
    rw [List.any_eq_false]
    intro x hx hcontra
    have hxnp : x.Id ≠ p.Id := by
      have hz := hm1nop s.queueName
      rw [List.countP_eq_zero] at hz
      intro hc
      exact hz x hx (by rw [hc]; simp)
    rw [Bool.and_eq_true] at hcontra
    exact h5 x (mem_allJobs.mpr ⟨s.queueName, hm1src' s.queueName x hx⟩) hxnp
      ⟨by simpa using hcontra.1, by simpa using hcontra.2⟩
  have hm2q : ∀ qn, ((((mc.removeJob p.Id p.queueName).1.addJob s).1).getQueue
      qn).Jobs =
      if qn = s.queueName then
        sortJobs ((((mc.removeJob p.Id p.queueName).1).getQueue
          s.queueName).Jobs ++ [s])
      else (((mc.removeJob p.Id p.queueName).1).getQueue qn).Jobs := by
    intro qn
    rw [addJob_ok _ s hconf1, getQueue_setChanged]
    by_cases hq : qn = s.queueName
    · rw [if_pos hq, hq, getQueue_setQueue_self]
    · rw [if_neg hq, getQueue_setQueue_ne _ _ _ _ hq]
  have hsmem2 : s ∈ ((((mc.removeJob p.Id p.queueName).1.addJob s).1).getQueue
      s.queueName).Jobs := by
    rw [hm2q, if_pos rfl]
    exact mem_sortJobs.mpr (List.mem_append_right _ (List.mem_cons_self s []))
  have hval2 : ∀ x ∈ (((mc.removeJob p.Id p.queueName).1.addJob s).1).allJobs,
      (x.Id == s.Id) = true → x = s := by
    intro x hx hxid
    obtain ⟨qn, hxq⟩ := mem_allJobs.mp hx
    rcases addJob_src _ s qn hxq with hx1 | hx1
    · exact absurd (by simpa using hxid) (hm1nos qn x hx1)
    · exact hx1
  have hfind2 : (((mc.removeJob p.Id p.queueName).1.addJob s).1).find s.Id =
      some s := by
    unfold JobManager.find
    exact find?_eq_some_of_unique (mem_allJobs.mpr ⟨s.queueName, hsmem2⟩) hval2
  have hcount2 : ((((mc.removeJob p.Id p.queueName).1.addJob s).1).getQueue
      s.queueName).Jobs.countP (fun j => j.Id == s.Id) = 1 := by
    rw [hm2q, if_pos rfl, countP_sortJobs, List.countP_append]
    have hz : (((mc.removeJob p.Id p.queueName).1).getQueue s.queueName).Jobs.countP
        (fun j => j.Id == s.Id) = 0 := by
      rw [List.countP_eq_zero]
      intro x hx hxid
      exact hm1nos s.queueName x hx (by simpa using hxid)
    rw [hz]
    simp [List.countP_cons]
  have hidx : ∃ idx, JobQueue.findIndexOf s.Id
      ((((mc.removeJob p.Id p.queueName).1.addJob s).1).getQueue s.queueName).Jobs =
        some idx := by
    cases hidx0 : JobQueue.findIndexOf s.Id
        ((((mc.removeJob p.Id p.queueName).1.addJob s).1).getQueue
          s.queueName).Jobs with
    | none => exact absurd rfl (findIndexOf_none_mem hidx0 s hsmem2)
    | some idx => exact ⟨idx, rfl⟩
  obtain ⟨idx, hidx⟩ := hidx
  have hr_ok : ((((mc.removeJob p.Id p.queueName).1.addJob s).1).getQueue
      s.queueName).Raise s.Id = Except.ok
        { (((mc.removeJob p.Id p.queueName).1.addJob s).1).getQueue s.queueName with
          Jobs := JobQueue.swapHead ((((mc.removeJob p.Id p.queueName).1.addJob
            s).1).getQueue s.queueName).Jobs idx } := by
    unfold JobQueue.Raise
    rw [hidx]
  have hms : ((((mc.removeJob p.Id p.queueName).1.addJob s).1).MarkStart s.Id).1 =
      (((mc.removeJob p.Id p.queueName).1.addJob s).1).setQueue s.queueName
        { (((mc.removeJob p.Id p.queueName).1.addJob s).1).getQueue s.queueName with
          Jobs := JobQueue.swapHead ((((mc.removeJob p.Id p.queueName).1.addJob
            s).1).getQueue s.queueName).Jobs idx } := by
    rw [markStart_eq_ready hfind2 hsst, raiseIn_eq_ok hr_ok]
  have hfinalperm : (((((mc.removeJob p.Id p.queueName).1.addJob s).1).MarkStart
      s.Id).1.getQueue s.queueName).Jobs.Perm
      ((((mc.removeJob p.Id p.queueName).1.addJob s).1).getQueue s.queueName).Jobs := by
    rw [hms, getQueue_setQueue_self]
    exact swapHead_perm _ idx
  refine ⟨?_, ?_, ?_⟩
  · obtain ⟨x, hx0, hxid⟩ := (raise_ok_spec hr_ok).2.2
    have hx0' : (((((mc.removeJob p.Id p.queueName).1.addJob s).1).MarkStart
        s.Id).1.getQueue s.queueName).Jobs.get? 0 = some x := by
      rw [hms, getQueue_setQueue_self]
      exact hx0
    have hxmem := List.get?_mem hx0'
    have hxs : x = s := hval2 x
      (mem_allJobs.mpr ⟨s.queueName, hfinalperm.subset hxmem⟩) hxid
    rw [hxs] at hx0'
    exact hx0'
  · rw [hfinalperm.countP_eq]
    exact hcount2
  · intro hpm
    obtain ⟨qn, hpq⟩ := mem_allJobs.mp hpm
    have hpq2 : p ∈ ((((mc.removeJob p.Id p.queueName).1.addJob s).1).getQueue
        qn).Jobs := by
      by_cases hq : qn = s.queueName
      · rw [hq] at hpq ⊢
        exact hfinalperm.subset hpq
      · rw [hms, getQueue_setQueue_ne _ _ _ _ hq] at hpq
        exact hpq
    rcases addJob_src _ s qn hpq2 with hp1 | hp1
    · have hz := hm1nop qn
      rw [List.countP_eq_zero] at hz
      exact hz p hp1 (by simp)
    · have hc : p.Status = s.Status := by rw [hp1]
      rw [hpend, hsst] at hc
      cases hc

-- ### Locating the predecessor in the dead list

theorem deadJobs_mem {m : JobManager} {ord : List QueueName} {q : Job}
    (h : q ∈ JobManager.deadJobs m ord) :
    (∃ qn ∈ ord, q ∈ (m.getQueue qn).Jobs) ∧ q.Status = JobStatus.endS := by
  unfold JobManager.deadJobs at h
  rw [List.mem_flatten] at h
  obtain ⟨l, hl, hql⟩ := h
  obtain ⟨qn, hqn, rfl⟩ := List.mem_map.mp hl
  have h2 := List.mem_filter.mp hql
  exact ⟨⟨qn, hqn, h2.1⟩, by simpa using h2.2⟩

theorem mem_deadJobs {m : JobManager} {ord : List QueueName} {p : Job}
    (hqn : p.queueName ∈ ord) (hpmem : p ∈ (m.getQueue p.queueName).Jobs)
    (hpend : p.Status = JobStatus.endS) : p ∈ JobManager.deadJobs m ord := by
  unfold JobManager.deadJobs
  rw [List.mem_flatten]
  exact ⟨_, List.mem_map_of_mem _ hqn,
    List.mem_filter.mpr ⟨hpmem, by rw [hpend]; rfl⟩⟩

theorem deadJobs_countP_pid {m : JobManager} {p : Job}
    (h1 : ((m.getQueue p.queueName).Jobs.filter
        (fun j => j.Status == JobStatus.endS)).countP (fun j => j.Id == p.Id) = 1)
    (h0 : ∀ qn, qn ≠ p.queueName →
      ((m.getQueue qn).Jobs.filter
        (fun j => j.Status == JobStatus.endS)).countP (fun j => j.Id == p.Id) = 0) :
    ∀ ord : List QueueName,
      (JobManager.deadJobs m ord).countP (fun j => j.Id == p.Id) =
        ord.count p.queueName := by
  intro ord
  induction ord with
  | nil => rfl
  | cons qn rest ih =>
    unfold JobManager.deadJobs at ih ⊢
    rw [List.map_cons, List.flatten_cons, List.countP_append, ih, List.count_cons]
    by_cases hq : qn = p.queueName
    · rw [hq, h1]
      have hb : (p.queueName == p.queueName) = true := by simp
      rw [hb]
      simp [Nat.add_comm]
    · rw [h0 qn hq]
      have hb : (qn == p.queueName) = false := by simpa using hq
      rw [hb]
      simp

-- ### Claim C5: successor promotion

/-- C5.  (1) In any dispatch tick — reaping arbitrarily many finished jobs —
whose dead list covers the queue of a finished job `p` carrying a successor
`s` exactly once, the reap phase processes `p` exactly once: at that moment
`p` is removed from the manager and `s` is admitted to its own queue, Ready,
raised to the head by MarkStart; at the end of the phase `s` is present in
its queue exactly once by id.  The hypotheses are the well-formedness of the
real system: distinct top-level ids, `s`'s id colliding only with `p` (the
Install chain shares the chain id), no admission conflict with `s` except
possibly `p` itself, and the other reaped jobs' successors carrying fresh,
non-conflicting ids — `NewJob`'s counter guarantees this.  (2) Every
`TransitionJobState` into End from a status other than Succeed clears
`next`, and from Succeed preserves it — so a job that reached End by any
path other than Succeed has no successor left to promote.  (3) The
scheduling phase preserves every queue's id multiset: no job is admitted
outside the reap phase. -/
theorem C5_successor_promotion :
    (∀ (m : JobManager) (ord : List QueueName) (p s : Job),
      idsNodup m →
      p ∈ (m.getQueue p.queueName).Jobs →
      p.Status = JobStatus.endS →
      p.next = some s →
      s.Status = JobStatus.ready →
      (∀ x ∈ m.allJobs, x.Id = s.Id → x = p) →
      (∀ x ∈ m.allJobs, x.Id ≠ p.Id →
        ¬(x.ty = s.ty ∧ x.fingerprint = s.fingerprint)) →
      (∀ q ∈ JobManager.deadJobs m ord, q ≠ p → ∀ s', q.next = some s' →
        s'.Id ≠ p.Id ∧ s'.Id ≠ s.Id ∧
        ¬(s'.ty = s.ty ∧ s'.fingerprint = s.fingerprint)) →
      ord.count p.queueName = 1 →
      ∃ D1 D2, JobManager.deadJobs m ord = D1 ++ p :: D2 ∧
        JobManager.reapPhase m ord =
          D2.foldl JobManager.reapOne
            (JobManager.reapOne (D1.foldl JobManager.reapOne m) p) ∧
        ((JobManager.reapOne (D1.foldl JobManager.reapOne m) p).getQueue
            s.queueName).Jobs.get? 0 = some s ∧
        ((JobManager.reapOne (D1.foldl JobManager.reapOne m) p).getQueue
            s.queueName).Jobs.countP (fun j => j.Id == s.Id) = 1 ∧
        p ∉ (JobManager.reapOne (D1.foldl JobManager.reapOne m) p).allJobs ∧
        s ∈ ((JobManager.reapPhase m ord).getQueue s.queueName).Jobs ∧
        ((JobManager.reapPhase m ord).getQueue s.queueName).Jobs.countP
          (fun j => j.Id == s.Id) = 1) ∧
    (∀ (j j' : Job), TransitionJobState j JobStatus.endS = Except.ok j' →
      (j.Status ≠ JobStatus.succeed → j'.next = none) ∧
      (j.Status = JobStatus.succeed → j'.next = j.next)) ∧
    (∀ (bk : Backend) (cur : JobManager) (ord : List QueueName) (qn : QueueName),
      (((JobManager.schedulePhase bk cur ord).getQueue qn).Jobs.map Job.Id).Perm
        ((cur.getQueue qn).Jobs.map Job.Id)) := by
  refine ⟨?_, fun j j' h => transition_endS_next h, fun bk cur ord qn =>
    schedulePhase_ids bk ord cur qn⟩
  intro m ord p s hN hpmem hpend hnext hsst hsid hconfG hsuc hord
  have hq1cnt : (m.getQueue p.queueName).Jobs.countP (fun j => j.Id == p.Id) = 1 := by
    have hle := countP_id_le_one (t := p.Id) (queue_ids_nodup hN p.queueName)
    have hge : 0 < (m.getQueue p.queueName).Jobs.countP (fun j => j.Id == p.Id) :=
      List.countP_pos_iff.mpr ⟨p, hpmem, by simp⟩
    omega
  have hq0cnt : ∀ qn, qn ≠ p.queueName →
      (m.getQueue qn).Jobs.countP (fun j => j.Id == p.Id) = 0 := by
    intro qn hqn
    rw [List.countP_eq_zero]
    intro x hx hxid
    have h1 : p.Id ∈ idsOf m qn := by
      have h2 : x.Id = p.Id := by simpa using hxid
      exact h2 ▸ List.mem_map_of_mem Job.Id hx
    have h2 : p.Id ∈ idsOf m p.queueName := List.mem_map_of_mem Job.Id hpmem
    exact queue_ids_disjoint hN (Ne.symm hqn) h2 h1
  have hf1 : ((m.getQueue p.queueName).Jobs.filter
      (fun j => j.Status == JobStatus.endS)).countP (fun j => j.Id == p.Id) = 1 := by
    have hle : ((m.getQueue p.queueName).Jobs.filter
        (fun j => j.Status == JobStatus.endS)).countP (fun j => j.Id == p.Id) ≤ 1 := by
      refine le_trans (List.Sublist.countP_le _ (List.filter_sublist _)) ?_
      rw [hq1cnt]
    have hge : 0 < ((m.getQueue p.queueName).Jobs.filter
        (fun j => j.Status == JobStatus.endS)).countP (fun j => j.Id == p.Id) :=
      List.countP_pos_iff.mpr ⟨p,
        List.mem_filter.mpr ⟨hpmem, by rw [hpend]; rfl⟩, by simp⟩
    omega
  have hf0 : ∀ qn, qn ≠ p.queueName →
      ((m.getQueue qn).Jobs.filter
        (fun j => j.Status == JobStatus.endS)).countP (fun j => j.Id == p.Id) = 0 := by
    intro qn hqn
    have hle : ((m.getQueue qn).Jobs.filter
        (fun j => j.Status == JobStatus.endS)).countP (fun j => j.Id == p.Id) ≤ 0 := by
      refine le_trans (List.Sublist.countP_le _ (List.filter_sublist _)) ?_
      rw [hq0cnt qn hqn]
    omega
  have hDcnt : (JobManager.deadJobs m ord).countP (fun j => j.Id == p.Id) = 1 := by
    rw [deadJobs_countP_pid hf1 hf0 ord, hord]
  have hpD : p ∈ JobManager.deadJobs m ord :=
    mem_deadJobs (List.count_pos_iff.mp (by rw [hord]; exact Nat.one_pos))
      hpmem hpend
  obtain ⟨D1, D2, hD⟩ := List.append_of_mem hpD
  have hD12 : ∀ q ∈ D1 ++ D2, q.Id ≠ p.Id := by
    intro q hq hc
    have h2 : 2 ≤ (JobManager.deadJobs m ord).countP (fun j => j.Id == p.Id) := by
      rw [hD, List.countP_append, List.countP_cons]
      have hone : (if ((p.Id == p.Id) = true) then 1 else 0) = 1 := by simp
      rw [hone]
      rcases List.mem_append.mp hq with h | h
      · have hpos : 0 < D1.countP (fun j => j.Id == p.Id) :=
          List.countP_pos_iff.mpr ⟨q, h, by simp [hc]⟩
        omega
      · have hpos : 0 < D2.countP (fun j => j.Id == p.Id) :=
          List.countP_pos_iff.mpr ⟨q, h, by simp [hc]⟩
        omega
    omega
  have hqfacts : ∀ q ∈ D1 ++ D2, q.Id ≠ p.Id ∧ q.Id ≠ s.Id ∧
      ∀ s', q.next = some s' → s'.Id ≠ p.Id ∧ s'.Id ≠ s.Id ∧
        ¬(s'.ty = s.ty ∧ s'.fingerprint = s.fingerprint) := by
    intro q hq
    have hqD : q ∈ JobManager.deadJobs m ord := by
      rw [hD]
      rcases List.mem_append.mp hq with h | h
      · exact List.mem_append_left _ h
      · exact List.mem_append_right _ (List.mem_cons_of_mem p h)
    have hqnp : q.Id ≠ p.Id := hD12 q hq
    have hqm : q ∈ m.allJobs := by
      obtain ⟨⟨qn, _, hqmem⟩, _⟩ := deadJobs_mem hqD
      exact mem_allJobs.mpr ⟨qn, hqmem⟩
    have hqns : q.Id ≠ s.Id := by
      intro hc
      have h3 : q = p := hsid q hqm hc
      exact hqnp (by rw [h3])
    have hqnep : q ≠ p := fun hc => hqnp (by rw [hc])
    exact ⟨hqnp, hqns, fun s' hn => hsuc q hqD hqnep s' hn⟩
  have hI1 : reapInv p s (D1.foldl JobManager.reapOne m) :=
    reapInv_fold D1 m (fun q hq => hqfacts q (List.mem_append_left _ hq))
      ⟨hq1cnt, hpmem, hq0cnt, hsid, hconfG⟩
  have hpromo := reapOne_promotes p s (D1.foldl JobManager.reapOne m)
    hnext hsst hpend hI1
  have hfact : JobManager.reapPhase m ord =
      D2.foldl JobManager.reapOne
        (JobManager.reapOne (D1.foldl JobManager.reapOne m) p) := by
    unfold JobManager.reapPhase
    rw [hD, List.foldl_append, List.foldl_cons]
  refine ⟨D1, D2, hD, hfact, hpromo.1, hpromo.2.1, hpromo.2.2, ?_, ?_⟩
  · rw [hfact]
    refine foldReap_memP D2 _ (fun q hq => ?_) s.queueName
      (List.get?_mem hpromo.1)
    have h := hqfacts q (List.mem_append_right _ hq)
    exact ⟨fun hc => h.2.1 hc.symm, fun s' hn hc => (h.2.2 s' hn).2.1 hc.symm⟩
  · rw [hfact]
    rw [foldReap_countP D2 _
      (fun q hq => ⟨(hqfacts q (List.mem_append_right _ hq)).2.1,
        fun s' hn => ((hqfacts q (List.mem_append_right _ hq)).2.2 s' hn).2.1⟩)
      s.queueName]
    exact hpromo.2.1

/-- Witness for C5 at a concrete three-corpse tick: the dead list of
`st5multi` is `[r5, p5, d5]`; reaping it promotes `p5`'s Install successor
`s5succ` exactly once, raised to the head of the system-change queue at
`p5`'s reap, and still present exactly once after the remaining reap. -/
theorem C5_successor_promotion_witness :
    ∃ D1 D2,
      JobManager.deadJobs st5multi
        [QueueName.downloadQ, QueueName.systemChangeQ, QueueName.lockQ] =
        D1 ++ p5 :: D2 ∧
      JobManager.reapPhase st5multi
        [QueueName.downloadQ, QueueName.systemChangeQ, QueueName.lockQ] =
        D2.foldl JobManager.reapOne
          (JobManager.reapOne (D1.foldl JobManager.reapOne st5multi) p5) ∧
      ((JobManager.reapOne (D1.foldl JobManager.reapOne st5multi) p5).getQueue
          s5succ.queueName).Jobs.get? 0 = some s5succ ∧
      ((JobManager.reapOne (D1.foldl JobManager.reapOne st5multi) p5).getQueue
          s5succ.queueName).Jobs.countP (fun j => j.Id == s5succ.Id) = 1 ∧
      p5 ∉ (JobManager.reapOne (D1.foldl JobManager.reapOne st5multi) p5).allJobs ∧
      s5succ ∈ ((JobManager.reapPhase st5multi
          [QueueName.downloadQ, QueueName.systemChangeQ,
            QueueName.lockQ]).getQueue s5succ.queueName).Jobs ∧
      ((JobManager.reapPhase st5multi
          [QueueName.downloadQ, QueueName.systemChangeQ,
            QueueName.lockQ]).getQueue s5succ.queueName).Jobs.countP
        (fun j => j.Id == s5succ.Id) = 1 := by
  refine C5_successor_promotion.1 st5multi
    [QueueName.downloadQ, QueueName.systemChangeQ, QueueName.lockQ] p5 s5succ
    ?_ ?_ ?_ ?_ ?_ ?_ ?_ ?_ ?_
  · unfold idsNodup
    decide
  · show p5 ∈ [r5, p5]
    exact List.mem_cons_of_mem _ (List.mem_cons_self _ _)
  · rfl
  · rfl
  · rfl
  · intro x hx hxid
    have hall : st5multi.allJobs = [r5, p5, d5] := rfl
    rw [hall] at hx
    have hx3 : x = r5 ∨ x = p5 ∨ x = d5 := by simpa using hx
    rcases hx3 with rfl | rfl | rfl
    · exact absurd hxid (by decide)
    · rfl
    · exact absurd hxid (by decide)
  · intro x hx hxnp
    have hall : st5multi.allJobs = [r5, p5, d5] := rfl
    rw [hall] at hx
    have hx3 : x = r5 ∨ x = p5 ∨ x = d5 := by simpa using hx
    rcases hx3 with rfl | rfl | rfl
    · exact (by decide : ¬(r5.ty = s5succ.ty ∧ r5.fingerprint = s5succ.fingerprint))
    · exact absurd rfl hxnp
    · exact (by decide : ¬(d5.ty = s5succ.ty ∧ d5.fingerprint = s5succ.fingerprint))
  · intro q hq hqnp s' hn
    have hdead : JobManager.deadJobs st5multi
        [QueueName.downloadQ, QueueName.systemChangeQ, QueueName.lockQ] =
        [r5, p5, d5] := rfl
    rw [hdead] at hq
    have hq3 : q = r5 ∨ q = p5 ∨ q = d5 := by simpa using hq
    rcases hq3 with rfl | rfl | rfl
    · have hn' : some s5r = some s' := hn
      cases hn'
      exact ⟨by decide, by decide, by decide⟩
    · exact absurd rfl hqnp
    · cases hn
  · decide

end Lastore
